import Mathlib

/-!
Shallow embedding of the LR automata construction module (`sdk-rust/src/lr.rs`)
of the hime parser generator, together with the grammar-facing data model it
consumes.  The grammar data model (`grammars.rs`) is not among the analysed
sources, so it is modelled from the specification.  Places where the Rust code
unwraps an `Option` (and would panic on a malformed grammar) are modelled as
no-op branches; each such place is noted in a comment.
-/

/-- Modelled from the spec: reference to a terminal symbol (`TerminalRef` in the
external `grammars` module): tagged variant over Terminal(id), Epsilon, Dollar,
Dummy, NullTerminal, with structural equality. -/
inductive TerminalRef where
  | Terminal (id : Nat)
  | Epsilon
  | Dollar
  | Dummy
  | NullTerminal
deriving DecidableEq, Repr

/-- Modelled from the spec: reference to a grammar symbol (`SymbolRef` in the
external `grammars` module): tagged variant over Variable(id), Terminal(id),
Virtual(id), Epsilon, Dollar, Dummy, NullTerminal, with structural equality. -/
inductive SymbolRef where
  | Variable (id : Nat)
  | Terminal (id : Nat)
  | Virtual (id : Nat)
  | Epsilon
  | Dollar
  | Dummy
  | NullTerminal
deriving DecidableEq, Repr

/-- Modelled from the spec: the injection of `TerminalRef` into `SymbolRef`
(the `From<TerminalRef> for SymbolRef` conversion used by `lookahead.into()`). -/
def TerminalRef.toSymbol : TerminalRef → SymbolRef
  | TerminalRef.Terminal id => SymbolRef.Terminal id
  | TerminalRef.Epsilon => SymbolRef.Epsilon
  | TerminalRef.Dollar => SymbolRef.Dollar
  | TerminalRef.Dummy => SymbolRef.Dummy
  | TerminalRef.NullTerminal => SymbolRef.NullTerminal

/-- Modelled from the spec: a set of terminal references kept as a duplicate-free
insertion-ordered list (`TerminalSet` in the external `grammars` module). -/
structure TerminalSet where
  content : List TerminalRef
deriving DecidableEq, Repr

instance : Inhabited TerminalSet := ⟨⟨[]⟩⟩

/-- Modelled from the spec: idempotent insertion into a `TerminalSet`. -/
def TerminalSet.add (s : TerminalSet) (t : TerminalRef) : TerminalSet :=
  if t ∈ s.content then s else ⟨s.content ++ [t]⟩

/-- Modelled from the spec: union another `TerminalSet` into this one by
inserting each of its elements in order. -/
def TerminalSet.add_others (s other : TerminalSet) : TerminalSet :=
  other.content.foldl TerminalSet.add s

/-- Modelled from the spec: the singleton `TerminalSet`. -/
def TerminalSet.single (t : TerminalRef) : TerminalSet := ⟨[t]⟩

/-- Modelled from the spec: a rule choice exposes the `parts` suffix sequence
(each part carrying its symbol) and a precomputed FIRST set; `choices[k]` is
the suffix of the rule body starting at the k-th symbol. -/
structure RuleChoice where
  parts : List SymbolRef
  firsts : TerminalSet
deriving DecidableEq, Repr

/-- Modelled from the spec: a rule body with its tail choices. -/
structure RuleBody where
  choices : List RuleChoice
deriving DecidableEq, Repr

/-- Modelled from the spec: a grammar rule with its body and context identifier. -/
structure Rule where
  body : RuleBody
  context : Nat
deriving DecidableEq, Repr

/-- Modelled from the spec: a grammar variable with a stable integer id, a name,
a precomputed FIRST set and a list of rules. -/
structure GrammarVariable where
  id : Nat
  name : String
  firsts : TerminalSet
  rules : List Rule
deriving DecidableEq, Repr

/-- Modelled from the spec: the grammar object consumed by the builder.  Only the
fields the LR module reads are represented. -/
structure Grammar where
  vars : List GrammarVariable
deriving DecidableEq, Repr

/-- Modelled from the spec: `get_variable` finds a variable by id. -/
def Grammar.get_variable (g : Grammar) (sid : Nat) : Option GrammarVariable :=
  g.vars.find? (fun v => decide (v.id = sid))

/-- Modelled from the spec: `get_variable_for_name` finds a variable by name. -/
def Grammar.get_variable_for_name (g : Grammar) (n : String) : Option GrammarVariable :=
  g.vars.find? (fun v => decide (v.name = n))

/-- Modelled from the spec: the literal name of the generated axiom variable. -/
def axiomName : String := "GENERATED_AXIOM"

/-- A reference to a grammar rule: the identifier of the variable and the index
of the rule for the variable (`RuleRef` in `lr.rs`). -/
structure RuleRef where
  variable_id : Nat
  index : Nat
deriving DecidableEq, Repr

/-- `RuleRef::get_rule_in`: resolve the referenced rule in the grammar.  The Rust
code unwraps the variable lookup and indexes the rule vector (panicking on a
dangling reference); this is modelled with `Option`. -/
def RuleRef.get_rule_in (r : RuleRef) (g : Grammar) : Option Rule :=
  (g.vars.find? (fun v => decide (v.id = r.variable_id))).bind fun v =>
    v.rules[r.index]?

/-- The lookahead mode for LR items (`LookaheadMode` in `lr.rs`). -/
inductive LookaheadMode where
  | LR0
  | LR1
  | LALR1
deriving DecidableEq, Repr

/-- LR action codes (from the runtime's `LRActionCode` constants). -/
inductive LRActionCode where
  | shift
  | reduce
deriving DecidableEq, Repr

/-- A base LR item: a rule reference, a dot position and a lookahead set
(`Item` in `lr.rs`). -/
structure Item where
  rule : RuleRef
  position : Nat
  lookaheads : TerminalSet
deriving DecidableEq, Repr

instance : Inhabited Item := ⟨⟨⟨0, 0⟩, 0, ⟨[]⟩⟩⟩

/-- `Item::get_action`: Reduce when the position has reached (or passed) the
length of `choices[0].parts`, Shift otherwise.  The rule resolution (unwraps in
the Rust code) is modelled with `Option`. -/
def Item.get_action (it : Item) (g : Grammar) : Option LRActionCode :=
  (it.rule.get_rule_in g).bind fun r =>
    (r.body.choices[0]?).map fun c0 =>
      if c0.parts.length ≤ it.position then LRActionCode.reduce else LRActionCode.shift

/-- `Item::get_next_symbol`: the symbol following the dot, if any. -/
def Item.get_next_symbol (it : Item) (g : Grammar) : Option SymbolRef :=
  (it.rule.get_rule_in g).bind fun r =>
    (r.body.choices[0]?).bind fun c0 =>
      if it.position < c0.parts.length then c0.parts[it.position]? else none

/-- `Item::get_next_choice`: the rule choice `choices[position + 1]` (the suffix
after the next symbol) when the item is shifting. -/
def Item.get_next_choice (it : Item) (g : Grammar) : Option RuleChoice :=
  (it.rule.get_rule_in g).bind fun r =>
    (r.body.choices[0]?).bind fun c0 =>
      if it.position < c0.parts.length then r.body.choices[it.position + 1]? else none

/-- `Item::get_child`: the item with the position incremented and the lookaheads
cloned unchanged. -/
def Item.get_child (it : Item) : Item :=
  ⟨it.rule, it.position + 1, it.lookaheads⟩

/-- `Item::get_opened_context`: `Some(rule.context)` iff the dot is at position
zero, the rule declares a nonzero context, and there is at least one symbol
after the dot. -/
def Item.get_opened_context (it : Item) (g : Grammar) : Option Nat :=
  if it.position > 0 then none
  else
    (it.rule.get_rule_in g).bind fun r =>
      (r.body.choices[0]?).bind fun c0 =>
        if it.position < c0.parts.length ∧ r.context ≠ 0 then some r.context else none

/-- `Item::same_base`: two items share rule and position, lookaheads ignored. -/
def Item.same_base (a b : Item) : Prop :=
  a.rule = b.rule ∧ a.position = b.position

instance (a b : Item) : Decidable (a.same_base b) := by
  unfold Item.same_base; infer_instance

/-- Append an element to a list only when it is not already present (the
`if !closure.contains(&candidate) { closure.push(candidate) }` idiom). -/
def pushIfNew [DecidableEq α] (l : List α) (x : α) : List α :=
  if x ∈ l then l else l ++ [x]

/-- The lookahead set computed at the start of `Item::close_to`: a copy of the
FIRST set of the suffix after the next variable; when it contains epsilon, the
(first) epsilon entry is removed and the item's own lookaheads are unioned in. -/
def Item.closeFirsts (it : Item) (choice : RuleChoice) : TerminalSet :=
  match choice.firsts.content.findIdx? (fun x => decide (x = TerminalRef.Epsilon)) with
  | some i => TerminalSet.add_others ⟨choice.firsts.content.eraseIdx i⟩ it.lookaheads
  | none => choice.firsts

/-- The LALR1 arm of `Item::close_to`: union the candidate's lookaheads into the
first closure item with the same base, or append the candidate. -/
def closeLALR1Add (closure : List Item) (candidate : Item) : List Item :=
  match closure with
  | [] => [candidate]
  | x :: rest =>
    if x.same_base candidate then
      { x with lookaheads := x.lookaheads.add_others candidate.lookaheads } :: rest
    else
      x :: closeLALR1Add rest candidate

/-- `Item::close_to`: when the next symbol is a variable, add the closure items
for every rule of that variable according to the lookahead mode.  The Rust code
unwraps `get_next_choice` and `get_variable`; a failed lookup is modelled as
leaving the closure unchanged. -/
def Item.close_to (it : Item) (g : Grammar) (closure : List Item) (mode : LookaheadMode) :
    List Item :=
  match it.get_next_symbol g with
  | some (SymbolRef.Variable sid) =>
    match it.get_next_choice g, g.get_variable sid with
    | some choice, some v =>
      let firsts := it.closeFirsts choice
      (List.range v.rules.length).foldl (fun cl index =>
        match mode with
        | LookaheadMode.LR0 => pushIfNew cl ⟨⟨sid, index⟩, 0, firsts⟩
        | LookaheadMode.LR1 =>
          firsts.content.foldl (fun cl2 t => pushIfNew cl2 ⟨⟨sid, index⟩, 0, ⟨[t]⟩⟩) cl
        | LookaheadMode.LALR1 => closeLALR1Add cl ⟨⟨sid, index⟩, 0, firsts⟩) closure
    | _, _ => closure
  | _ => closure

/-- The kernel of an LR state (`StateKernel` in `lr.rs`). -/
structure StateKernel where
  items : List Item
deriving DecidableEq, Repr

instance : Inhabited StateKernel := ⟨⟨[]⟩⟩

/-- The `PartialEq` implementation on `StateKernel`: same length and every item
of the left kernel contained in the right one. -/
def StateKernel.kernelEq (a b : StateKernel) : Prop :=
  a.items.length = b.items.length ∧ ∀ it ∈ a.items, it ∈ b.items

instance (a b : StateKernel) : Decidable (a.kernelEq b) := by
  unfold StateKernel.kernelEq; infer_instance

/-- `StateKernel::add_item`: add an item unless already present. -/
def StateKernel.add_item (k : StateKernel) (it : Item) : StateKernel :=
  if it ∈ k.items then k else ⟨k.items ++ [it]⟩

/-- A reduction action in an LR state (`Reduction` in `lr.rs`). -/
structure Reduction where
  lookahead : TerminalRef
  rule : RuleRef
  length : Nat
deriving DecidableEq, Repr

/-- An LR state: kernel, closure items, transitions, opening contexts and
reductions (`State` in `lr.rs`).  The transition and context hash maps are
modelled as association lists. -/
structure State where
  kernel : StateKernel
  items : List Item
  children : List (SymbolRef × Nat)
  opening_contexts : List (TerminalRef × List Nat)
  reductions : List Reduction
deriving DecidableEq, Repr

instance : Inhabited State := ⟨⟨⟨[]⟩, [], [], [], []⟩⟩

/-- The saturation loop of `StateKernel::into_state`: iterate an index over the
item list, closing each item into the list, until the index reaches the end.
The loop is driven by explicit fuel; the boolean records whether the end of the
list was reached. -/
def closureLoop (g : Grammar) (mode : LookaheadMode) :
    Nat → Nat → List Item → List Item × Bool
  | 0, i, items => (items, decide (items.length ≤ i))
  | fuel + 1, i, items =>
    if i < items.length then
      closureLoop g mode fuel (i + 1) ((items.getD i default).close_to g items mode)
    else (items, true)

/-- `StateKernel::into_state`: close the kernel into a state. -/
def StateKernel.into_state (k : StateKernel) (fuel : Nat) (g : Grammar)
    (mode : LookaheadMode) : State :=
  ⟨k, (closureLoop g mode fuel 0 k.items).1, [], [], []⟩

/-- Lookup in the transition map. -/
def childrenGet (m : List (SymbolRef × Nat)) (k : SymbolRef) : Option Nat :=
  (m.find? (fun p => decide (p.1 = k))).map (fun p => p.2)

/-- Membership test in the transition map (`HashMap::contains_key`). -/
def childrenContains (m : List (SymbolRef × Nat)) (k : SymbolRef) : Bool :=
  m.any (fun p => decide (p.1 = k))

/-- Insertion into the transition map (`HashMap::insert` replaces an existing
binding). -/
def childrenInsert (m : List (SymbolRef × Nat)) (k : SymbolRef) (v : Nat) :
    List (SymbolRef × Nat) :=
  match m with
  | [] => [(k, v)]
  | (k', v') :: rest => if k' = k then (k, v) :: rest else (k', v') :: childrenInsert rest k v

/-- Append a context id to the list of a terminal in the opening-context map,
unless already present (`entry(..).or_default()` followed by a guarded push). -/
def contextsAdd (m : List (TerminalRef × List Nat)) (t : TerminalRef) (c : Nat) :
    List (TerminalRef × List Nat) :=
  match m with
  | [] => [(t, [c])]
  | (t', cs) :: rest =>
    if t' = t then (t', if c ∈ cs then cs else cs ++ [c]) :: rest
    else (t', cs) :: contextsAdd rest t c

/-- Modify the element of a list at an index. -/
def modifyIdx (l : List α) (i : Nat) (f : α → α) : List α :=
  match l, i with
  | [], _ => []
  | x :: xs, 0 => f x :: xs
  | x :: xs, n + 1 => x :: modifyIdx xs n f

/-- The set of opening terminals of the next symbol of an item, as computed in
`Graph::build_at_state` (the `Virtual` arm unwraps a variable lookup, modelled
as an empty set on failure). -/
def openingTerminalsOf (it : Item) (g : Grammar) : TerminalSet :=
  match it.get_next_symbol g with
  | some (SymbolRef.Virtual sid) =>
    match g.get_variable sid with
    | some v => TerminalSet.add_others ⟨[]⟩ v.firsts
    | none => ⟨[]⟩
  | some SymbolRef.Epsilon => TerminalSet.add ⟨[]⟩ TerminalRef.Epsilon
  | some SymbolRef.Dollar => TerminalSet.add ⟨[]⟩ TerminalRef.Dollar
  | some SymbolRef.Dummy => TerminalSet.add ⟨[]⟩ TerminalRef.Dummy
  | some SymbolRef.NullTerminal => TerminalSet.add ⟨[]⟩ TerminalRef.NullTerminal
  | some (SymbolRef.Terminal sid) => TerminalSet.add ⟨[]⟩ (TerminalRef.Terminal sid)
  | _ => ⟨[]⟩

/-- An LR graph (`Graph` in `lr.rs`). -/
structure Graph where
  states : List State
deriving DecidableEq, Repr

/-- `Graph::get_state_for`: the index of the first state whose kernel equals the
given kernel under the kernel `PartialEq`. -/
def Graph.get_state_for (graph : Graph) (kernel : StateKernel) : Option Nat :=
  graph.states.findIdx? (fun st => decide (st.kernel.kernelEq kernel))

/-- `Graph::add_state`: append a state, returning its index. -/
def Graph.add_state (graph : Graph) (st : State) : Graph × Nat :=
  (⟨graph.states ++ [st]⟩, graph.states.length)

/-- Apply a function to the state at an index. -/
def Graph.updateState (graph : Graph) (i : Nat) (f : State → State) : Graph :=
  ⟨modifyIdx graph.states i f⟩

/-- The shift dictionary of a state: group the children of shifting items by
their next symbol.  The association list records symbols in first-sighting
order, which is one admissible enumeration of the Rust `HashMap`. -/
def shiftsEntriesAdd (entries : List (SymbolRef × StateKernel)) (sym : SymbolRef)
    (child : Item) : List (SymbolRef × StateKernel) :=
  match entries with
  | [] => [(sym, StateKernel.add_item ⟨[]⟩ child)]
  | (s, k) :: rest =>
    if s = sym then (s, k.add_item child) :: rest
    else (s, k) :: shiftsEntriesAdd rest sym child

/-- Build the shift dictionary of a state from its items. -/
def State.shiftsEntries (st : State) (g : Grammar) : List (SymbolRef × StateKernel) :=
  st.items.foldl (fun acc it =>
    match it.get_next_symbol g with
    | some next => shiftsEntriesAdd acc next it.get_child
    | none => acc) []

/-- Process one entry of the shift dictionary in `Graph::build_at_state`: reuse
an existing state with an equal kernel or close the kernel into a new state,
then record the transition. -/
def Graph.processShift (g : Grammar) (mode : LookaheadMode) (cfuel : Nat)
    (state_id : Nat) (graph : Graph) (entry : SymbolRef × StateKernel) : Graph :=
  let child := match graph.get_state_for entry.2 with
    | some child_index => (graph, child_index)
    | none => graph.add_state (entry.2.into_state cfuel g mode)
  child.1.updateState state_id (fun st =>
    { st with children := childrenInsert st.children entry.1 child.2 })

/-- `Graph::build_at_state`, parameterised by the enumeration order of the shift
dictionary: the Rust code iterates a `HashMap`, whose enumeration order is not
specified, so the order is abstracted as a permutation applied to the
first-sighting entry list. -/
def Graph.build_at_state_with
    (ord : List (SymbolRef × StateKernel) → List (SymbolRef × StateKernel))
    (g : Grammar) (mode : LookaheadMode) (cfuel : Nat) (graph : Graph)
    (state_id : Nat) : Graph :=
  let st := graph.states.getD state_id default
  let entries := ord (st.shiftsEntries g)
  let graph1 := entries.foldl (Graph.processShift g mode cfuel state_id) graph
  graph1.updateState state_id (fun st1 =>
    st1.items.foldl (fun st2 it =>
      match it.get_opened_context g with
      | some c =>
        (openingTerminalsOf it g).content.foldl (fun st3 t =>
          { st3 with opening_contexts := contextsAdd st3.opening_contexts t c }) st2
      | none => st2) st1)

/-- `Graph::build_at_state` with the first-sighting enumeration order. -/
def Graph.build_at_state (g : Grammar) (mode : LookaheadMode) (cfuel : Nat)
    (graph : Graph) (state_id : Nat) : Graph :=
  Graph.build_at_state_with id g mode cfuel graph state_id

/-- The state expansion loop of `Graph::from`, driven by fuel, parameterised by
the shift-dictionary enumeration order. -/
def Graph.buildLoopWith
    (ord : List (SymbolRef × StateKernel) → List (SymbolRef × StateKernel))
    (g : Grammar) (mode : LookaheadMode) (cfuel : Nat) :
    Nat → Nat → Graph → Graph
  | 0, _, graph => graph
  | fuel + 1, i, graph =>
    if i < graph.states.length then
      Graph.buildLoopWith ord g mode cfuel fuel (i + 1)
        (Graph.build_at_state_with ord g mode cfuel graph i)
    else graph

/-- `Graph::from`, parameterised by the shift-dictionary enumeration order. -/
def Graph.fromStateWith
    (ord : List (SymbolRef × StateKernel) → List (SymbolRef × StateKernel))
    (fuel : Nat) (state : State) (g : Grammar) (mode : LookaheadMode) : Graph :=
  Graph.buildLoopWith ord g mode fuel fuel 0 ⟨[state]⟩

/-- `Graph::from` with the first-sighting enumeration order. -/
def Graph.fromState (fuel : Nat) (state : State) (g : Grammar)
    (mode : LookaheadMode) : Graph :=
  Graph.fromStateWith id fuel state g mode

/-- The kinds of LR conflicts (`ConflictKind` in `lr.rs`). -/
inductive ConflictKind where
  | ShiftReduce
  | ReduceReduce
deriving DecidableEq, Repr

/-- A conflict between items (`Conflict` in `lr.rs`). -/
structure Conflict where
  state : Nat
  kind : ConflictKind
  items : List Item
  lookahead : TerminalRef
deriving DecidableEq, Repr

/-- A set of conflicts (`Conflicts` in `lr.rs`). -/
structure Conflicts where
  list : List Conflict
deriving DecidableEq, Repr

/-- The search-and-merge loop shared by the two raise routines of `Conflicts`:
append the reducing item to the first conflict with the given kind and the
same lookahead, or push the freshly built conflict.  The two Rust methods
duplicate this loop with their respective kind constants. -/
def raiseAux (kind : ConflictKind) (l : List Conflict) (reducing : Item)
    (lookahead : TerminalRef) (fresh : Conflict) : List Conflict :=
  match l with
  | [] => [fresh]
  | c :: rest =>
    if c.kind = kind ∧ c.lookahead = lookahead then
      { c with items := c.items ++ [reducing] } :: rest
    else c :: raiseAux kind rest reducing lookahead fresh

/-- The loop of `Conflicts::raise_shift_reduce`. -/
def srAux (l : List Conflict) (reducing : Item) (lookahead : TerminalRef)
    (fresh : Conflict) : List Conflict :=
  raiseAux ConflictKind.ShiftReduce l reducing lookahead fresh

/-- `Conflicts::raise_shift_reduce`. -/
def Conflicts.raise_shift_reduce (cs : Conflicts) (st : State) (state_id : Nat)
    (g : Grammar) (reducing : Item) (lookahead : TerminalRef) : Conflicts :=
  let items := (st.items.filter
    (fun x => decide (x.get_next_symbol g = some lookahead.toSymbol))) ++ [reducing]
  ⟨srAux cs.list reducing lookahead ⟨state_id, ConflictKind.ShiftReduce, items, lookahead⟩⟩

/-- The loop of `Conflicts::raise_reduce_reduce`. -/
def rrAux (l : List Conflict) (reducing : Item) (lookahead : TerminalRef)
    (fresh : Conflict) : List Conflict :=
  raiseAux ConflictKind.ReduceReduce l reducing lookahead fresh

/-- `Conflicts::raise_reduce_reduce`. -/
def Conflicts.raise_reduce_reduce (cs : Conflicts) (state_id : Nat)
    (previous reducing : Item) (lookahead : TerminalRef) : Conflicts :=
  ⟨rrAux cs.list reducing lookahead
    ⟨state_id, ConflictKind.ReduceReduce, [previous, reducing], lookahead⟩⟩

/-- `Conflicts::aggregate`. -/
def Conflicts.aggregate (cs other : Conflicts) : Conflicts :=
  ⟨cs.list ++ other.list⟩

/-- Accumulator of `State::build_reductions_lr0`. -/
structure Lr0Acc where
  reductions : List Reduction
  conflicts : Conflicts
  reduce_index : Option Nat

/-- The shift/reduce phase of one `State::build_reductions_lr0` step: a
reducing item raises ShiftReduce with lookahead NullTerminal when the state
has any outgoing transition. -/
def lr0SrPhase (st : State) (id : Nat) (g : Grammar) (acc : Lr0Acc) (it : Item) :
    Lr0Acc :=
  if st.children ≠ [] then
    { acc with conflicts :=
        (acc.conflicts.raise_shift_reduce st id g it TerminalRef.NullTerminal) }
  else acc

/-- One step of `State::build_reductions_lr0`, processing the enumerated item
`p`: a reducing item raises ShiftReduce with NullTerminal when the state has
transitions; the first reducing item records the reduction, later ones raise
ReduceReduce against it. -/
def lr0Step (st : State) (id : Nat) (g : Grammar) (acc : Lr0Acc) (p : Nat × Item) :
    Lr0Acc :=
  if (p.2).get_action g ≠ some LRActionCode.reduce then acc
  else
    match (lr0SrPhase st id g acc p.2).reduce_index with
    | some previous_index =>
      { lr0SrPhase st id g acc p.2 with conflicts :=
          ((lr0SrPhase st id g acc p.2).conflicts.raise_reduce_reduce id
            (st.items.getD previous_index default) p.2 TerminalRef.NullTerminal) }
    | none =>
      { lr0SrPhase st id g acc p.2 with
        reduce_index := some p.1,
        reductions :=
          (lr0SrPhase st id g acc p.2).reductions ++
            [⟨TerminalRef.NullTerminal, p.2.rule, p.2.position⟩] }

/-- `State::build_reductions_lr0`: scan items in order. -/
def State.build_reductions_lr0 (st : State) (id : Nat) (g : Grammar) :
    State × Conflicts :=
  let acc := st.items.enum.foldl (lr0Step st id g) ⟨[], ⟨[]⟩, none⟩
  ({ st with reductions := st.reductions ++ acc.reductions }, acc.conflicts)

/-- Accumulator of the LR(1)/RNGLR(1) reduction builders. -/
structure RedAcc where
  reductions : List Reduction
  conflicts : Conflicts
  map : List (TerminalRef × Nat)

/-- Lookup in the lookahead-to-item-index map of the LR(1) reduction builder. -/
def redMapGet (m : List (TerminalRef × Nat)) (t : TerminalRef) : Option Nat :=
  (m.find? (fun p => decide (p.1 = t))).map (fun p => p.2)

/-- Processing of one lookahead of one reducing item in
`State::build_reductions_lr1` (also used by the RNGLR(1) builder, whose inner
loop is identical). -/
def lr1ProcessLookahead (st : State) (id : Nat) (g : Grammar) (index : Nat)
    (item : Item) (acc : RedAcc) (lookahead : TerminalRef) : RedAcc :=
  if childrenContains st.children lookahead.toSymbol then
    { acc with conflicts := acc.conflicts.raise_shift_reduce st id g item lookahead }
  else
    match redMapGet acc.map lookahead with
    | some previous_index =>
      { acc with conflicts :=
          (acc.conflicts.raise_reduce_reduce id (st.items.getD previous_index default)
            item lookahead) }
    | none =>
      { acc with
        map := acc.map ++ [(lookahead, index)],
        reductions := acc.reductions ++ [⟨lookahead, item.rule, item.position⟩] }

/-- One step of `State::build_reductions_lr1`, processing the enumerated item
`p`: shifting items are skipped, reducing items have each of their lookaheads
processed in order. -/
def lr1Step (st : State) (id : Nat) (g : Grammar) (acc : RedAcc) (p : Nat × Item) :
    RedAcc :=
  if (p.2).get_action g ≠ some LRActionCode.reduce then acc
  else (p.2).lookaheads.content.foldl (lr1ProcessLookahead st id g p.1 p.2) acc

/-- `State::build_reductions_lr1`. -/
def State.build_reductions_lr1 (st : State) (id : Nat) (g : Grammar) :
    State × Conflicts :=
  let acc := st.items.enum.foldl (lr1Step st id g) ⟨[], ⟨[]⟩, []⟩
  ({ st with reductions := st.reductions ++ acc.reductions }, acc.conflicts)

/-- The nullable-suffix test of `State::build_reductions_rnglr1`: whether the
FIRST set of `choices[position]` (the suffix from the dot) contains epsilon.
The Rust code indexes the choices vector directly; a malformed reference is
modelled as `false`. -/
def Item.nullableAfterDot (it : Item) (g : Grammar) : Bool :=
  match (it.rule.get_rule_in g).bind (fun r => r.body.choices[it.position]?) with
  | some ch => decide (TerminalRef.Epsilon ∈ ch.firsts.content)
  | none => false

/-- One step of `State::build_reductions_rnglr1`: an item is skipped only when
it is a shift action whose suffix after the dot is not nullable; otherwise its
lookaheads are processed exactly as in the LR(1) builder. -/
def rnglrStep (st : State) (id : Nat) (g : Grammar) (acc : RedAcc) (p : Nat × Item) :
    RedAcc :=
  if (p.2).get_action g = some LRActionCode.shift ∧ ¬ (p.2).nullableAfterDot g then acc
  else (p.2).lookaheads.content.foldl (lr1ProcessLookahead st id g p.1 p.2) acc

/-- `State::build_reductions_rnglr1`. -/
def State.build_reductions_rnglr1 (st : State) (id : Nat) (g : Grammar) :
    State × Conflicts :=
  let acc := st.items.enum.foldl (rnglrStep st id g) ⟨[], ⟨[]⟩, []⟩
  ({ st with reductions := st.reductions ++ acc.reductions }, acc.conflicts)

/-- `Graph::build_reductions_lr0` over all states. -/
def Graph.build_reductions_lr0 (graph : Graph) (g : Grammar) : Graph × Conflicts :=
  let res := graph.states.enum.foldl (fun (acc : List State × Conflicts) p =>
    let r := p.2.build_reductions_lr0 p.1 g
    (acc.1 ++ [r.1], acc.2.aggregate r.2)) ([], ⟨[]⟩)
  (⟨res.1⟩, res.2)

/-- `Graph::build_reductions_lr1` over all states. -/
def Graph.build_reductions_lr1 (graph : Graph) (g : Grammar) : Graph × Conflicts :=
  let res := graph.states.enum.foldl (fun (acc : List State × Conflicts) p =>
    let r := p.2.build_reductions_lr1 p.1 g
    (acc.1 ++ [r.1], acc.2.aggregate r.2)) ([], ⟨[]⟩)
  (⟨res.1⟩, res.2)

/-- `Graph::build_reductions_rnglr1` over all states. -/
def Graph.build_reductions_rnglr1 (graph : Graph) (g : Grammar) : Graph × Conflicts :=
  let res := graph.states.enum.foldl (fun (acc : List State × Conflicts) p =>
    let r := p.2.build_reductions_rnglr1 p.1 g
    (acc.1 ++ [r.1], acc.2.aggregate r.2)) ([], ⟨[]⟩)
  (⟨res.1⟩, res.2)

/-- `get_graph_lr0`: initial item from rule 0 of the generated axiom, closed in
LR(0) mode, expanded by `Graph::from`.  The axiom lookup unwraps in the Rust
code; a missing axiom is modelled as the empty graph. -/
def get_graph_lr0 (fuel : Nat) (g : Grammar) : Graph :=
  match g.get_variable_for_name axiomName with
  | some ax =>
    let item : Item := ⟨⟨ax.id, 0⟩, 0, ⟨[]⟩⟩
    let kernel : StateKernel := ⟨[item]⟩
    Graph.fromState fuel (kernel.into_state fuel g LookaheadMode.LR0) g LookaheadMode.LR0
  | none => ⟨[]⟩

/-- `build_graph_lr0`. -/
def build_graph_lr0 (fuel : Nat) (g : Grammar) : Graph × Conflicts :=
  (get_graph_lr0 fuel g).build_reductions_lr0 g

/-- `get_graph_lr1`. -/
def get_graph_lr1 (fuel : Nat) (g : Grammar) : Graph :=
  match g.get_variable_for_name axiomName with
  | some ax =>
    let item : Item := ⟨⟨ax.id, 0⟩, 0, ⟨[]⟩⟩
    let kernel : StateKernel := ⟨[item]⟩
    Graph.fromState fuel (kernel.into_state fuel g LookaheadMode.LR1) g LookaheadMode.LR1
  | none => ⟨[]⟩

/-- `build_graph_lr1`. -/
def build_graph_lr1 (fuel : Nat) (g : Grammar) : Graph × Conflicts :=
  (get_graph_lr1 fuel g).build_reductions_lr1 g

/-- `build_graph_rnglr1`. -/
def build_graph_rnglr1 (fuel : Nat) (g : Grammar) : Graph × Conflicts :=
  (get_graph_lr1 fuel g).build_reductions_rnglr1 g

/-- `build_graph_lalr1_kernels`: copy the LR(0) kernels without lookaheads and
seed epsilon as lookahead on every item of kernel 0. -/
def build_graph_lalr1_kernels (graph0 : Graph) : List StateKernel :=
  let kernels : List StateKernel := graph0.states.map (fun st =>
    ⟨st.kernel.items.map (fun it => ⟨it.rule, it.position, ⟨[]⟩⟩)⟩)
  modifyIdx kernels 0 (fun k =>
    ⟨k.items.map (fun it => { it with lookaheads := it.lookaheads.add TerminalRef.Epsilon })⟩)

/-- An entry of the LALR(1) propagation table (`Propagation` in `lr.rs`). -/
structure Propagation where
  from_state : Nat
  from_item : Nat
  to_state : Nat
  to_item : Nat
deriving DecidableEq, Repr

/-- Add lookaheads to a kernel item in a kernel list (the spontaneous-generation
write of the LALR(1) table builder). -/
def kernelsAddLookaheads (kernels : List StateKernel) (s i : Nat)
    (ts : List TerminalRef) : List StateKernel :=
  modifyIdx kernels s (fun k =>
    ⟨modifyIdx k.items i (fun it =>
      { it with lookaheads := ts.foldl TerminalSet.add it.lookaheads })⟩)

/-- Processing of one item of the dummy closure in
`build_graph_lalr1_propagation_table`: record a propagation when the dummy
terminal survived, otherwise generate the lookaheads spontaneously.  The Rust
code unwraps the child-state lookup and the same-base search; failures are
modelled as leaving the accumulator unchanged. -/
def lalr1ProcessDummyItem (graph0 : Graph) (g : Grammar) (i item_id : Nat)
    (acc : List StateKernel × List Propagation) (dummy_item : Item) :
    List StateKernel × List Propagation :=
  match dummy_item.get_next_symbol g with
  | none => acc
  | some next =>
    let dummy_child := dummy_item.get_child
    match childrenGet (graph0.states.getD i default).children next with
    | none => acc
    | some child_state =>
      match (acc.1.getD child_state default).items.findIdx?
          (fun c => decide (c.same_base dummy_child)) with
      | none => acc
      | some child_item =>
        if TerminalRef.Dummy ∈ dummy_item.lookaheads.content then
          (acc.1, acc.2 ++ [⟨i, item_id, child_state, child_item⟩])
        else
          (kernelsAddLookaheads acc.1 child_state child_item
            dummy_item.lookaheads.content, acc.2)

/-- `build_graph_lalr1_propagation_table`: probe each shifting kernel item with
a dummy-lookahead closure, recording propagations and spontaneous lookaheads. -/
def build_graph_lalr1_propagation_table (graph0 : Graph) (g : Grammar)
    (cfuel : Nat) (kernels : List StateKernel) :
    List StateKernel × List Propagation :=
  (List.range kernels.length).foldl (fun acc i =>
    (List.range ((acc.1.getD i default).items.length)).foldl (fun acc2 item_id =>
      let item := (acc2.1.getD i default).items.getD item_id default
      if item.get_action g = some LRActionCode.reduce then acc2
      else
        let dummy_state :=
          (StateKernel.mk [⟨item.rule, item.position, TerminalSet.single TerminalRef.Dummy⟩]).into_state
            cfuel g LookaheadMode.LALR1
        dummy_state.items.foldl (lalr1ProcessDummyItem graph0 g i item_id) acc2) acc)
    (kernels, [])

/-- One pass of `build_graph_lalr1_propagate`: union source lookaheads into
destination lookaheads for every table entry. -/
def lalr1PropagateOnce (kernels : List StateKernel) (table : List Propagation) :
    List StateKernel :=
  table.foldl (fun ks p =>
    let others := ((ks.getD p.from_state default).items.getD p.from_item default).lookaheads
    modifyIdx ks p.to_state (fun k =>
      ⟨modifyIdx k.items p.to_item (fun it =>
        { it with lookaheads := it.lookaheads.add_others others })⟩)) kernels

/-- `build_graph_lalr1_propagate`: iterate passes until a pass makes no change
(the Rust code counts inserted lookaheads per pass and stops at zero), driven
by fuel. -/
def build_graph_lalr1_propagate (pfuel : Nat) (kernels : List StateKernel)
    (table : List Propagation) : List StateKernel :=
  match pfuel with
  | 0 => kernels
  | n + 1 =>
    let next := lalr1PropagateOnce kernels table
    if next = kernels then kernels
    else build_graph_lalr1_propagate n next table

/-- `build_graph_lalr1_graph`: close each kernel in LALR(1) mode and copy the
transitions and opening contexts from the corresponding LR(0) state. -/
def linkStates : List State → List State → List State
  | _, [] => []
  | [], s1s => s1s
  | s0 :: r0, s1 :: r1 =>
    { s1 with children := s0.children, opening_contexts := s0.opening_contexts } ::
      linkStates r0 r1

/-- `build_graph_lalr1_graph` proper. -/
def build_graph_lalr1_graph (kernels : List StateKernel) (graph0 : Graph)
    (g : Grammar) (cfuel : Nat) : Graph :=
  let states := kernels.map (fun k => k.into_state cfuel g LookaheadMode.LALR1)
  ⟨linkStates graph0.states states⟩

/-- `get_graph_lalr1`: the full LALR(1) pipeline. -/
def get_graph_lalr1 (fuel : Nat) (g : Grammar) : Graph :=
  let graph0 := get_graph_lr0 fuel g
  let kernels := build_graph_lalr1_kernels graph0
  let kt := build_graph_lalr1_propagation_table graph0 g fuel kernels
  let kernels2 := build_graph_lalr1_propagate fuel kt.1 kt.2
  build_graph_lalr1_graph kernels2 graph0 g fuel

/-- `build_graph_lalr1`. -/
def build_graph_lalr1 (fuel : Nat) (g : Grammar) : Graph × Conflicts :=
  (get_graph_lalr1 fuel g).build_reductions_lr1 g

/-- `build_graph_rnglalr1`. -/
def build_graph_rnglalr1 (fuel : Nat) (g : Grammar) : Graph × Conflicts :=
  (get_graph_lalr1 fuel g).build_reductions_rnglr1 g

/-- The parsing methods understood by the top-level dispatch. -/
inductive ParsingMethod where
  | LR0
  | LR1
  | LALR1
  | RNGLR1
  | RNGLALR1
deriving DecidableEq, Repr

/-- `build_graph`: the top-level dispatch. -/
def build_graph (fuel : Nat) (g : Grammar) (method : ParsingMethod) :
    Graph × Conflicts :=
  match method with
  | ParsingMethod.LR0 => build_graph_lr0 fuel g
  | ParsingMethod.LR1 => build_graph_lr1 fuel g
  | ParsingMethod.LALR1 => build_graph_lalr1 fuel g
  | ParsingMethod.RNGLR1 => build_graph_rnglr1 fuel g
  | ParsingMethod.RNGLALR1 => build_graph_rnglalr1 fuel g

instance : Inhabited Conflict :=
  ⟨⟨0, ConflictKind.ShiftReduce, [], TerminalRef.NullTerminal⟩⟩

/-- A small grammar: AX -> S, S -> a | b (terminals a = 1, b = 2).  State 0 of
its LR(0) graph has three outgoing symbols, so the enumeration order of the
shifts map is observable. -/
def demoG1 : Grammar := ⟨[
  ⟨0, "GENERATED_AXIOM", ⟨[TerminalRef.Terminal 1, TerminalRef.Terminal 2]⟩,
    [⟨⟨[⟨[SymbolRef.Variable 1], ⟨[TerminalRef.Terminal 1, TerminalRef.Terminal 2]⟩⟩,
        ⟨[], ⟨[TerminalRef.Epsilon]⟩⟩]⟩, 0⟩]⟩,
  ⟨1, "S", ⟨[TerminalRef.Terminal 1, TerminalRef.Terminal 2]⟩,
    [⟨⟨[⟨[SymbolRef.Terminal 1], ⟨[TerminalRef.Terminal 1]⟩⟩, ⟨[], ⟨[TerminalRef.Epsilon]⟩⟩]⟩, 0⟩,
     ⟨⟨[⟨[SymbolRef.Terminal 2], ⟨[TerminalRef.Terminal 2]⟩⟩, ⟨[], ⟨[TerminalRef.Epsilon]⟩⟩]⟩, 0⟩]⟩]⟩

/-- The initial LR(0) state of `demoG1`. -/
def demoState1 : State :=
  (StateKernel.mk [⟨⟨0, 0⟩, 0, ⟨[]⟩⟩]).into_state 10 demoG1 LookaheadMode.LR0

/-- Grammar exercising the RNGLR nullable-suffix reductions: AX -> S Dollar,
S -> x C | D t, C -> (empty), D -> x (terminals x = 1, t = 2). -/
def demoG3 : Grammar := ⟨[
  ⟨20, "GENERATED_AXIOM", ⟨[TerminalRef.Terminal 1]⟩,
    [⟨⟨[⟨[SymbolRef.Variable 21, SymbolRef.Dollar], ⟨[TerminalRef.Terminal 1]⟩⟩,
        ⟨[SymbolRef.Dollar], ⟨[TerminalRef.Dollar]⟩⟩,
        ⟨[], ⟨[TerminalRef.Epsilon]⟩⟩]⟩, 0⟩]⟩,
  ⟨21, "S", ⟨[TerminalRef.Terminal 1]⟩,
    [⟨⟨[⟨[SymbolRef.Terminal 1, SymbolRef.Variable 22], ⟨[TerminalRef.Terminal 1]⟩⟩,
        ⟨[SymbolRef.Variable 22], ⟨[TerminalRef.Epsilon]⟩⟩,
        ⟨[], ⟨[TerminalRef.Epsilon]⟩⟩]⟩, 0⟩,
     ⟨⟨[⟨[SymbolRef.Variable 23, SymbolRef.Terminal 2], ⟨[TerminalRef.Terminal 1]⟩⟩,
        ⟨[SymbolRef.Terminal 2], ⟨[TerminalRef.Terminal 2]⟩⟩,
        ⟨[], ⟨[TerminalRef.Epsilon]⟩⟩]⟩, 0⟩]⟩,
  ⟨22, "C", ⟨[TerminalRef.Epsilon]⟩,
    [⟨⟨[⟨[], ⟨[TerminalRef.Epsilon]⟩⟩]⟩, 0⟩]⟩,
  ⟨23, "D", ⟨[TerminalRef.Terminal 1]⟩,
    [⟨⟨[⟨[SymbolRef.Terminal 1], ⟨[TerminalRef.Terminal 1]⟩⟩,
        ⟨[], ⟨[TerminalRef.Epsilon]⟩⟩]⟩, 0⟩]⟩]⟩

/-- Grammar on which two distinct LR(0) states carry the same item cores with
different lookahead decorations: AX -> S, S -> p A | q B, A -> V a | V b,
B -> V M | V b, V -> x, M -> a | b (terminals x = 1, a = 2, b = 3, p = 4,
q = 5). -/
def demoG7 : Grammar := ⟨[
  ⟨10, "GENERATED_AXIOM", ⟨[TerminalRef.Terminal 4, TerminalRef.Terminal 5]⟩,
    [⟨⟨[⟨[SymbolRef.Variable 11], ⟨[TerminalRef.Terminal 4, TerminalRef.Terminal 5]⟩⟩,
        ⟨[], ⟨[TerminalRef.Epsilon]⟩⟩]⟩, 0⟩]⟩,
  ⟨11, "S", ⟨[TerminalRef.Terminal 4, TerminalRef.Terminal 5]⟩,
    [⟨⟨[⟨[SymbolRef.Terminal 4, SymbolRef.Variable 12], ⟨[TerminalRef.Terminal 4]⟩⟩,
        ⟨[SymbolRef.Variable 12], ⟨[TerminalRef.Terminal 1]⟩⟩,
        ⟨[], ⟨[TerminalRef.Epsilon]⟩⟩]⟩, 0⟩,
     ⟨⟨[⟨[SymbolRef.Terminal 5, SymbolRef.Variable 13], ⟨[TerminalRef.Terminal 5]⟩⟩,
        ⟨[SymbolRef.Variable 13], ⟨[TerminalRef.Terminal 1]⟩⟩,
        ⟨[], ⟨[TerminalRef.Epsilon]⟩⟩]⟩, 0⟩]⟩,
  ⟨12, "A", ⟨[TerminalRef.Terminal 1]⟩,
    [⟨⟨[⟨[SymbolRef.Variable 14, SymbolRef.Terminal 2], ⟨[TerminalRef.Terminal 1]⟩⟩,
        ⟨[SymbolRef.Terminal 2], ⟨[TerminalRef.Terminal 2]⟩⟩,
        ⟨[], ⟨[TerminalRef.Epsilon]⟩⟩]⟩, 0⟩,
     ⟨⟨[⟨[SymbolRef.Variable 14, SymbolRef.Terminal 3], ⟨[TerminalRef.Terminal 1]⟩⟩,
        ⟨[SymbolRef.Terminal 3], ⟨[TerminalRef.Terminal 3]⟩⟩,
        ⟨[], ⟨[TerminalRef.Epsilon]⟩⟩]⟩, 0⟩]⟩,
  ⟨13, "B", ⟨[TerminalRef.Terminal 1]⟩,
    [⟨⟨[⟨[SymbolRef.Variable 14, SymbolRef.Variable 15], ⟨[TerminalRef.Terminal 1]⟩⟩,
        ⟨[SymbolRef.Variable 15], ⟨[TerminalRef.Terminal 2, TerminalRef.Terminal 3]⟩⟩,
        ⟨[], ⟨[TerminalRef.Epsilon]⟩⟩]⟩, 0⟩,
     ⟨⟨[⟨[SymbolRef.Variable 14, SymbolRef.Terminal 3], ⟨[TerminalRef.Terminal 1]⟩⟩,
        ⟨[SymbolRef.Terminal 3], ⟨[TerminalRef.Terminal 3]⟩⟩,
        ⟨[], ⟨[TerminalRef.Epsilon]⟩⟩]⟩, 0⟩]⟩,
  ⟨14, "V", ⟨[TerminalRef.Terminal 1]⟩,
    [⟨⟨[⟨[SymbolRef.Terminal 1], ⟨[TerminalRef.Terminal 1]⟩⟩,
        ⟨[], ⟨[TerminalRef.Epsilon]⟩⟩]⟩, 0⟩]⟩,
  ⟨15, "M", ⟨[TerminalRef.Terminal 2, TerminalRef.Terminal 3]⟩,
    [⟨⟨[⟨[SymbolRef.Terminal 2], ⟨[TerminalRef.Terminal 2]⟩⟩,
        ⟨[], ⟨[TerminalRef.Epsilon]⟩⟩]⟩, 0⟩,
     ⟨⟨[⟨[SymbolRef.Terminal 3], ⟨[TerminalRef.Terminal 3]⟩⟩,
        ⟨[], ⟨[TerminalRef.Epsilon]⟩⟩]⟩, 0⟩]⟩]⟩

/-- A shifting item of `demoG1` used by concrete conflict examples. -/
def demoItemA : Item := ⟨⟨1, 0⟩, 1, ⟨[]⟩⟩

/-- A second item of `demoG1` used by concrete conflict examples. -/
def demoItemB : Item := ⟨⟨1, 1⟩, 1, ⟨[]⟩⟩

/-- A conflict list holding one ShiftReduce conflict recorded for state 0. -/
def demoConflicts : Conflicts :=
  ⟨[⟨0, ConflictKind.ShiftReduce, [demoItemA], TerminalRef.Terminal 1⟩]⟩

/-- C10: for every item and every grammar in which the item's rule reference
resolves (to a rule with a head choice), `Item::get_action` returns Reduce iff
`Item::get_next_symbol` returns None, and Shift iff it returns Some symbol;
both operations agree on the same position-versus-parts-length test, the
positions beyond the parts length included. -/
theorem C10_get_action_iff_next_symbol (it : Item) (g : Grammar) (r : Rule)
    (c0 : RuleChoice) (hr : it.rule.get_rule_in g = some r)
    (hc : r.body.choices[0]? = some c0) :
    (it.get_action g = some LRActionCode.reduce ↔ it.get_next_symbol g = none) ∧
    (it.get_action g = some LRActionCode.shift ↔
      ∃ s, it.get_next_symbol g = some s) := by
  unfold Item.get_action Item.get_next_symbol
  rw [hr]
  simp only [Option.some_bind, hc]
  by_cases h : it.position < c0.parts.length
  · have hs : c0.parts[it.position]? = some c0.parts[it.position] :=
      List.getElem?_eq_getElem h
    simp [h, Nat.not_le.mpr h, hs]
  · simp [h, Nat.le_of_not_lt h]

/-- Witness for C10 at a concrete reducing item of `demoG1`. -/
theorem C10_witness :
    ((Item.mk ⟨0, 0⟩ 2 ⟨[]⟩).get_action demoG1 = some LRActionCode.reduce ↔
      (Item.mk ⟨0, 0⟩ 2 ⟨[]⟩).get_next_symbol demoG1 = none) ∧
    ((Item.mk ⟨0, 0⟩ 2 ⟨[]⟩).get_action demoG1 = some LRActionCode.shift ↔
      ∃ s, (Item.mk ⟨0, 0⟩ 2 ⟨[]⟩).get_next_symbol demoG1 = some s) :=
  C10_get_action_iff_next_symbol (Item.mk ⟨0, 0⟩ 2 ⟨[]⟩) demoG1
    ⟨⟨[⟨[SymbolRef.Variable 1], ⟨[TerminalRef.Terminal 1, TerminalRef.Terminal 2]⟩⟩,
        ⟨[], ⟨[TerminalRef.Epsilon]⟩⟩]⟩, 0⟩
    ⟨[SymbolRef.Variable 1], ⟨[TerminalRef.Terminal 1, TerminalRef.Terminal 2]⟩⟩
    (by decide) (by decide)

/-- C1: the spec requires `build_graph` to be deterministic across runs, but the
code creates child states while iterating a `std::collections::HashMap`, whose
enumeration order is unspecified and varies between map instances.  Two
admissible enumeration orders of the same shifts dictionary yield graphs whose
states appear in different orders on the grammar `demoG1`. -/
theorem C1_state_order_depends_on_shifts_enumeration :
    Graph.fromStateWith List.reverse 10 demoState1 demoG1 LookaheadMode.LR0 ≠
      Graph.fromState 10 demoState1 demoG1 LookaheadMode.LR0 := by decide

/-- The key on which the raise routines search for an existing conflict: kind
and lookahead only. -/
def conflictKeyMatch (kind : ConflictKind) (lookahead : TerminalRef) (c : Conflict) : Bool :=
  decide (c.kind = kind ∧ c.lookahead = lookahead)

theorem raiseAux_eq_dropWhile (kind : ConflictKind) (l : List Conflict)
    (reducing : Item) (lookahead : TerminalRef) (fresh : Conflict) :
    raiseAux kind l reducing lookahead fresh =
      match l.dropWhile (fun c => ! conflictKeyMatch kind lookahead c) with
      | [] => l ++ [fresh]
      | c :: rest =>
        l.takeWhile (fun c => ! conflictKeyMatch kind lookahead c) ++
          ({ c with items := c.items ++ [reducing] } :: rest) := by
  induction l with
  | nil => rfl
  | cons c rest ih =>
    by_cases h : conflictKeyMatch kind lookahead c = true
    · have h' : c.kind = kind ∧ c.lookahead = lookahead := by
        simpa [conflictKeyMatch] using h
      simp [raiseAux, h', List.dropWhile_cons, List.takeWhile_cons, h]
    · have h' : ¬(c.kind = kind ∧ c.lookahead = lookahead) := by
        simpa [conflictKeyMatch] using h
      have hb : (! conflictKeyMatch kind lookahead c) = true := by
        simp [h]
      rw [List.dropWhile_cons, List.takeWhile_cons, if_pos hb, if_pos hb]
      simp only [raiseAux, if_neg h', ih]
      cases hdw : rest.dropWhile (fun c => ! conflictKeyMatch kind lookahead c) with
      | nil => simp [hdw]
      | cons c' rest' => simp [hdw]

/-- C2 (amended): the raise routines search for an existing conflict by kind
and lookahead only, the state id is not part of the key: the reducing item is
appended to the first conflict in the list with the same kind and the same
lookahead whatever state that conflict was raised for, and a new conflict
(carrying, for shift/reduce, the state's items shifting on the lookahead) is
pushed only when no conflict with that kind and lookahead exists. -/
theorem C2_amended_raise_merges_by_kind_and_lookahead (cs : Conflicts) (st : State)
    (state_id : Nat) (g : Grammar) (previous reducing : Item)
    (lookahead : TerminalRef) :
    ((cs.raise_shift_reduce st state_id g reducing lookahead).list =
      match cs.list.dropWhile (fun c => ! conflictKeyMatch ConflictKind.ShiftReduce lookahead c) with
      | [] => cs.list ++ [⟨state_id, ConflictKind.ShiftReduce,
          (st.items.filter (fun x => decide (x.get_next_symbol g = some lookahead.toSymbol))) ++
            [reducing], lookahead⟩]
      | c :: rest =>
        cs.list.takeWhile (fun c => ! conflictKeyMatch ConflictKind.ShiftReduce lookahead c) ++
          ({ c with items := c.items ++ [reducing] } :: rest)) ∧
    ((cs.raise_reduce_reduce state_id previous reducing lookahead).list =
      match cs.list.dropWhile (fun c => ! conflictKeyMatch ConflictKind.ReduceReduce lookahead c) with
      | [] => cs.list ++ [⟨state_id, ConflictKind.ReduceReduce, [previous, reducing], lookahead⟩]
      | c :: rest =>
        cs.list.takeWhile (fun c => ! conflictKeyMatch ConflictKind.ReduceReduce lookahead c) ++
          ({ c with items := c.items ++ [reducing] } :: rest)) :=
  ⟨raiseAux_eq_dropWhile ConflictKind.ShiftReduce cs.list reducing lookahead _,
   raiseAux_eq_dropWhile ConflictKind.ReduceReduce cs.list reducing lookahead _⟩

/-- C2 (counterexample): raising a shift/reduce conflict for state 1 while the
list holds a conflict with the same kind and lookahead recorded for state 0
appends the reducing item to the state-0 conflict and pushes nothing: a
conflict raised for a different state does absorb the reducing item. -/
theorem C2_counterexample_cross_state_absorption :
    ((demoConflicts.raise_shift_reduce default 1 demoG1 demoItemB
        (TerminalRef.Terminal 1)).list.length = 1) ∧
    (((demoConflicts.raise_shift_reduce default 1 demoG1 demoItemB
        (TerminalRef.Terminal 1)).list.getD 0 default).state = 0) ∧
    (demoItemB ∈ ((demoConflicts.raise_shift_reduce default 1 demoG1 demoItemB
        (TerminalRef.Terminal 1)).list.getD 0 default).items) ∧
    (¬ ∃ c ∈ (demoConflicts.raise_shift_reduce default 1 demoG1 demoItemB
        (TerminalRef.Terminal 1)).list, c.state = 1) := by decide

theorem linkStates_getD (s0s s1s : List State) (i : Nat) (h0 : i < s0s.length)
    (h1 : i < s1s.length) :
    (linkStates s0s s1s).getD i default =
      { s1s.getD i default with
        children := (s0s.getD i default).children,
        opening_contexts := (s0s.getD i default).opening_contexts } := by
  induction s0s generalizing s1s i with
  | nil => simp at h0
  | cons s0 r0 ih =>
    cases s1s with
    | nil => simp at h1
    | cons s1 r1 =>
      cases i with
      | zero => rfl
      | succ n =>
        have h0' : n < r0.length := by simpa using h0
        have h1' : n < r1.length := by simpa using h1
        simpa [linkStates] using ih r1 n h0' h1'

theorem getD_map_of_lt (l : List α) (f : α → β) (i : Nat) (d : α) (d' : β)
    (h : i < l.length) : (l.map f).getD i d' = f (l.getD i d) := by
  rw [List.getD_eq_getElem?_getD, List.getD_eq_getElem?_getD, List.getElem?_map,
    List.getElem?_eq_getElem h]
  rfl

/-- C8: in the LALR(1) finalize step, every state of the produced graph keeps
the transition map and the opening-context map of the LR(0) state at the same
index; only the kernel and the closure items come from the propagated kernels,
and the reductions are left empty (to be populated later). -/
theorem C8_lalr1_finalize_frame (kernels : List StateKernel) (graph0 : Graph)
    (g : Grammar) (cfuel : Nat) (i : Nat)
    (hi : i < (build_graph_lalr1_graph kernels graph0 g cfuel).states.length)
    (hi0 : i < graph0.states.length) :
    ((build_graph_lalr1_graph kernels graph0 g cfuel).states.getD i default).children =
      (graph0.states.getD i default).children ∧
    ((build_graph_lalr1_graph kernels graph0 g cfuel).states.getD i default).opening_contexts =
      (graph0.states.getD i default).opening_contexts ∧
    ((build_graph_lalr1_graph kernels graph0 g cfuel).states.getD i default).kernel =
      kernels.getD i default ∧
    ((build_graph_lalr1_graph kernels graph0 g cfuel).states.getD i default).reductions = [] := by
  have hlen : (build_graph_lalr1_graph kernels graph0 g cfuel).states.length ≤
      (kernels.map (fun k => k.into_state cfuel g LookaheadMode.LALR1)).length := by
    unfold build_graph_lalr1_graph
    clear hi
    generalize kernels.map (fun k => k.into_state cfuel g LookaheadMode.LALR1) = s1s
    generalize graph0.states = s0s
    induction s0s generalizing s1s with
    | nil =>
      cases s1s with
      | nil => simp [linkStates]
      | cons s1 r1 => simp [linkStates]
    | cons s0 r0 ih =>
      cases s1s with
      | nil => simp [linkStates]
      | cons s1 r1 => simpa [linkStates] using ih r1
  have hik : i < kernels.length := by
    have := Nat.lt_of_lt_of_le hi hlen
    simpa using this
  have hmap : i < (kernels.map (fun k => k.into_state cfuel g LookaheadMode.LALR1)).length := by
    simpa using hik
  have hlg : (build_graph_lalr1_graph kernels graph0 g cfuel).states.getD i default =
      { (kernels.map (fun k => k.into_state cfuel g LookaheadMode.LALR1)).getD i default with
        children := (graph0.states.getD i default).children,
        opening_contexts := (graph0.states.getD i default).opening_contexts } :=
    linkStates_getD graph0.states _ i hi0 hmap
  have hmapD : (kernels.map (fun k => k.into_state cfuel g LookaheadMode.LALR1)).getD i default =
      (kernels.getD i default).into_state cfuel g LookaheadMode.LALR1 :=
    getD_map_of_lt kernels _ i default default hik
  rw [hlg, hmapD]
  exact ⟨rfl, rfl, rfl, rfl⟩

/-- Witness for C8 at a one-state skeleton. -/
theorem C8_witness :
    ((build_graph_lalr1_graph [⟨[]⟩] ⟨[default]⟩ demoG1 0).states.getD 0 default).children =
      ((⟨[default]⟩ : Graph).states.getD 0 default).children ∧
    ((build_graph_lalr1_graph [⟨[]⟩] ⟨[default]⟩ demoG1 0).states.getD 0 default).opening_contexts =
      ((⟨[default]⟩ : Graph).states.getD 0 default).opening_contexts ∧
    ((build_graph_lalr1_graph [⟨[]⟩] ⟨[default]⟩ demoG1 0).states.getD 0 default).kernel =
      ([(⟨[]⟩ : StateKernel)].getD 0 default) ∧
    ((build_graph_lalr1_graph [⟨[]⟩] ⟨[default]⟩ demoG1 0).states.getD 0 default).reductions = [] :=
  C8_lalr1_finalize_frame [⟨[]⟩] ⟨[default]⟩ demoG1 0 0 (by decide) (by decide)

/-- Entry-wise preservation order on conflict collections: every conflict of
the smaller collection persists (same state, kind and lookahead, items kept). -/
def conflictsLe (a b : Conflicts) : Prop :=
  ∀ c ∈ a.list, ∃ c' ∈ b.list, c'.state = c.state ∧ c'.kind = c.kind ∧
    c'.lookahead = c.lookahead ∧ ∀ x ∈ c.items, x ∈ c'.items

theorem conflictsLe_refl (a : Conflicts) : conflictsLe a a :=
  fun c hc => ⟨c, hc, rfl, rfl, rfl, fun _ hx => hx⟩

theorem conflictsLe_trans {a b c : Conflicts} (h1 : conflictsLe a b)
    (h2 : conflictsLe b c) : conflictsLe a c := by
  intro x hx
  obtain ⟨y, hy, hs, hk, hl, hi⟩ := h1 x hx
  obtain ⟨z, hz, hs', hk', hl', hi'⟩ := h2 y hy
  exact ⟨z, hz, hs'.trans hs, hk'.trans hk, hl'.trans hl, fun t ht => hi' t (hi t ht)⟩

theorem raiseAux_le (kind : ConflictKind) (l : List Conflict) (reducing : Item)
    (lookahead : TerminalRef) (fresh : Conflict) :
    conflictsLe ⟨l⟩ ⟨raiseAux kind l reducing lookahead fresh⟩ := by
  induction l with
  | nil => intro c hc; simp at hc
  | cons c rest ih =>
    intro c0 hc0
    rcases List.mem_cons.mp hc0 with h0 | h0
    · subst h0
      by_cases h : c0.kind = kind ∧ c0.lookahead = lookahead
      · refine ⟨{ c0 with items := c0.items ++ [reducing] }, ?_, rfl, rfl, rfl, ?_⟩
        · simp [raiseAux, h]
        · intro x hx; exact List.mem_append_left _ hx
      · exact ⟨c0, by simp [raiseAux, h], rfl, rfl, rfl, fun x hx => hx⟩
    · by_cases h : c.kind = kind ∧ c.lookahead = lookahead
      · exact ⟨c0, by simp [raiseAux, h, h0], rfl, rfl, rfl, fun x hx => hx⟩
      · obtain ⟨c', hc', prop⟩ := ih c0 h0
        exact ⟨c', by simp [raiseAux, h]; exact Or.inr hc', prop⟩

theorem raiseAux_creates (kind : ConflictKind) (l : List Conflict) (reducing : Item)
    (lookahead : TerminalRef) (fresh : Conflict) (h1 : fresh.kind = kind)
    (h2 : fresh.lookahead = lookahead) (h3 : reducing ∈ fresh.items) :
    ∃ c ∈ raiseAux kind l reducing lookahead fresh,
      c.kind = kind ∧ c.lookahead = lookahead ∧ reducing ∈ c.items := by
  induction l with
  | nil => exact ⟨fresh, by simp [raiseAux], h1, h2, h3⟩
  | cons c rest ih =>
    by_cases h : c.kind = kind ∧ c.lookahead = lookahead
    · refine ⟨{ c with items := c.items ++ [reducing] }, by simp [raiseAux, h], h.1, h.2, ?_⟩
      exact List.mem_append_right _ (List.mem_singleton.mpr rfl)
    · obtain ⟨c', hc', prop⟩ := ih
      exact ⟨c', by simp [raiseAux, h]; exact Or.inr hc', prop⟩

theorem raiseAux_mem_inv (kind : ConflictKind) (l : List Conflict) (reducing : Item)
    (lookahead : TerminalRef) (fresh : Conflict) :
    ∀ c' ∈ raiseAux kind l reducing lookahead fresh, c' = fresh ∨
      ∃ c ∈ l, c'.state = c.state ∧ c'.kind = c.kind ∧ c'.lookahead = c.lookahead ∧
        ∀ x ∈ c.items, x ∈ c'.items := by
  induction l with
  | nil => intro c' hc'; simp [raiseAux] at hc'; exact Or.inl hc'
  | cons c rest ih =>
    intro c' hc'
    by_cases h : c.kind = kind ∧ c.lookahead = lookahead
    · simp only [raiseAux, if_pos h] at hc'
      rcases List.mem_cons.mp hc' with h0 | h0
      · subst h0
        exact Or.inr ⟨c, List.mem_cons_self c rest, rfl, rfl, rfl,
          fun x hx => List.mem_append_left _ hx⟩
      · exact Or.inr ⟨c', List.mem_cons_of_mem c h0, rfl, rfl, rfl, fun x hx => hx⟩
    · simp only [raiseAux, if_neg h] at hc'
      rcases List.mem_cons.mp hc' with h0 | h0
      · subst h0
        exact Or.inr ⟨c', List.mem_cons_self c' rest, rfl, rfl, rfl, fun x hx => hx⟩
      · rcases ih c' h0 with h1 | ⟨c2, hc2, prop⟩
        · exact Or.inl h1
        · exact Or.inr ⟨c2, List.mem_cons_of_mem c hc2, prop⟩

theorem raise_shift_reduce_le (cs : Conflicts) (st : State) (state_id : Nat)
    (g : Grammar) (reducing : Item) (lookahead : TerminalRef) :
    conflictsLe cs (cs.raise_shift_reduce st state_id g reducing lookahead) :=
  raiseAux_le _ _ _ _ _

theorem raise_reduce_reduce_le (cs : Conflicts) (state_id : Nat)
    (previous reducing : Item) (lookahead : TerminalRef) :
    conflictsLe cs (cs.raise_reduce_reduce state_id previous reducing lookahead) :=
  raiseAux_le _ _ _ _ _

theorem raise_shift_reduce_creates (cs : Conflicts) (st : State) (state_id : Nat)
    (g : Grammar) (reducing : Item) (lookahead : TerminalRef) :
    ∃ c ∈ (cs.raise_shift_reduce st state_id g reducing lookahead).list,
      c.kind = ConflictKind.ShiftReduce ∧ c.lookahead = lookahead ∧
        reducing ∈ c.items :=
  raiseAux_creates _ _ _ _ _ rfl rfl
    (List.mem_append_right _ (List.mem_singleton.mpr rfl))

theorem raise_reduce_reduce_creates (cs : Conflicts) (state_id : Nat)
    (previous reducing : Item) (lookahead : TerminalRef) :
    ∃ c ∈ (cs.raise_reduce_reduce state_id previous reducing lookahead).list,
      c.kind = ConflictKind.ReduceReduce ∧ c.lookahead = lookahead ∧
        reducing ∈ c.items :=
  raiseAux_creates _ _ _ _ _ rfl rfl (by simp)

theorem raise_shift_reduce_mem_inv (cs : Conflicts) (st : State) (state_id : Nat)
    (g : Grammar) (reducing : Item) (lookahead : TerminalRef) :
    ∀ c' ∈ (cs.raise_shift_reduce st state_id g reducing lookahead).list,
      (c'.kind = ConflictKind.ShiftReduce ∧ c'.lookahead = lookahead ∧
        c'.state = state_id) ∨
      ∃ c ∈ cs.list, c'.state = c.state ∧ c'.kind = c.kind ∧
        c'.lookahead = c.lookahead ∧ ∀ x ∈ c.items, x ∈ c'.items := by
  intro c' hc'
  rcases raiseAux_mem_inv ConflictKind.ShiftReduce cs.list reducing lookahead _ c' hc'
    with h | h
  · subst h; exact Or.inl ⟨rfl, rfl, rfl⟩
  · exact Or.inr h

theorem raise_reduce_reduce_mem_inv (cs : Conflicts) (state_id : Nat)
    (previous reducing : Item) (lookahead : TerminalRef) :
    ∀ c' ∈ (cs.raise_reduce_reduce state_id previous reducing lookahead).list,
      (c'.kind = ConflictKind.ReduceReduce ∧ c'.lookahead = lookahead ∧
        previous ∈ c'.items ∧ reducing ∈ c'.items) ∨
      ∃ c ∈ cs.list, c'.state = c.state ∧ c'.kind = c.kind ∧
        c'.lookahead = c.lookahead ∧ ∀ x ∈ c.items, x ∈ c'.items := by
  intro c' hc'
  rcases raiseAux_mem_inv ConflictKind.ReduceReduce cs.list reducing lookahead _ c' hc'
    with h | h
  · subst h; exact Or.inl ⟨rfl, rfl, by simp⟩
  · exact Or.inr h

theorem lr0SrPhase_reduce_index (st : State) (id : Nat) (g : Grammar)
    (acc : Lr0Acc) (it : Item) :
    (lr0SrPhase st id g acc it).reduce_index = acc.reduce_index := by
  unfold lr0SrPhase; split <;> rfl

theorem lr0SrPhase_reductions (st : State) (id : Nat) (g : Grammar)
    (acc : Lr0Acc) (it : Item) :
    (lr0SrPhase st id g acc it).reductions = acc.reductions := by
  unfold lr0SrPhase; split <;> rfl

theorem lr0SrPhase_le (st : State) (id : Nat) (g : Grammar) (acc : Lr0Acc)
    (it : Item) : conflictsLe acc.conflicts (lr0SrPhase st id g acc it).conflicts := by
  unfold lr0SrPhase; split
  · exact raise_shift_reduce_le _ _ _ _ _ _
  · exact conflictsLe_refl _

/-- Boolean test for a reducing item. -/
def reducingB (g : Grammar) (it : Item) : Bool :=
  decide (it.get_action g = some LRActionCode.reduce)

theorem lr0SrPhase_rri (st : State) (id : Nat) (g : Grammar) (acc : Lr0Acc)
    (it : Item)
    (hRRI : ∀ c ∈ acc.conflicts.list, c.kind = ConflictKind.ReduceReduce →
      ∃ fit, st.items.find? (reducingB g) = some fit ∧ fit ∈ c.items) :
    ∀ c ∈ (lr0SrPhase st id g acc it).conflicts.list,
      c.kind = ConflictKind.ReduceReduce →
      ∃ fit, st.items.find? (reducingB g) = some fit ∧ fit ∈ c.items := by
  unfold lr0SrPhase; split
  · intro c' hc' hk
    rcases raise_shift_reduce_mem_inv acc.conflicts st id g it TerminalRef.NullTerminal
      c' hc' with ⟨hsr, _⟩ | ⟨c, hc, _, hkk, _, hi⟩
    · rw [hk] at hsr; exact absurd hsr (by simp)
    · obtain ⟨fit, hfit, hmem⟩ := hRRI c hc (hkk ▸ hk)
      exact ⟨fit, hfit, hi fit hmem⟩
  · exact hRRI

theorem lr0SrPhase_sr (st : State) (id : Nat) (g : Grammar) (acc : Lr0Acc)
    (it : Item) (hch : st.children ≠ []) :
    ∃ c ∈ (lr0SrPhase st id g acc it).conflicts.list,
      c.kind = ConflictKind.ShiftReduce ∧ c.lookahead = TerminalRef.NullTerminal ∧
        it ∈ c.items := by
  unfold lr0SrPhase
  rw [if_pos hch]
  exact raise_shift_reduce_creates _ _ _ _ _ _

theorem conflictsLe_mono_ex {a b : Conflicts} (h : conflictsLe a b)
    (κ : ConflictKind) (τ : TerminalRef) (x : Item) :
    (∃ c ∈ a.list, c.kind = κ ∧ c.lookahead = τ ∧ x ∈ c.items) →
    ∃ c ∈ b.list, c.kind = κ ∧ c.lookahead = τ ∧ x ∈ c.items := by
  rintro ⟨c, hc, hk, hl, hx⟩
  obtain ⟨c', hc', _, hk', hl', hi'⟩ := h c hc
  exact ⟨c', hc', hk'.trans hk, hl'.trans hl, hi' x hx⟩

theorem conflictsLe_mono_ex2 {a b : Conflicts} (h : conflictsLe a b)
    {κ : ConflictKind} {τ : TerminalRef} :
    (∃ c ∈ a.list, c.kind = κ ∧ c.lookahead = τ) →
    ∃ c ∈ b.list, c.kind = κ ∧ c.lookahead = τ := by
  rintro ⟨c, hc, hk, hl⟩
  obtain ⟨c', hc', _, hk', hl', _⟩ := h c hc
  exact ⟨c', hc', hk'.trans hk, hl'.trans hl⟩

theorem lr0Step_skip (st : State) (id : Nat) (g : Grammar) (acc : Lr0Acc)
    (n : Nat) (it : Item) (hp : ¬ it.get_action g = some LRActionCode.reduce) :
    lr0Step st id g acc (n, it) = acc := by
  simp [lr0Step, hp]

theorem lr0Step_reduce_some (st : State) (id : Nat) (g : Grammar) (acc : Lr0Acc)
    (n : Nat) (it : Item) (j : Nat)
    (hp : it.get_action g = some LRActionCode.reduce)
    (hacc : acc.reduce_index = some j) :
    lr0Step st id g acc (n, it) =
      { lr0SrPhase st id g acc it with conflicts :=
          ((lr0SrPhase st id g acc it).conflicts.raise_reduce_reduce id
            (st.items.getD j default) it TerminalRef.NullTerminal) } := by
  simp [lr0Step, hp, lr0SrPhase_reduce_index, hacc]

theorem lr0Step_reduce_none (st : State) (id : Nat) (g : Grammar) (acc : Lr0Acc)
    (n : Nat) (it : Item)
    (hp : it.get_action g = some LRActionCode.reduce)
    (hacc : acc.reduce_index = none) :
    lr0Step st id g acc (n, it) =
      { lr0SrPhase st id g acc it with
        reduce_index := some n,
        reductions :=
          (lr0SrPhase st id g acc it).reductions ++
            [⟨TerminalRef.NullTerminal, it.rule, it.position⟩] } := by
  simp [lr0Step, hp, lr0SrPhase_reduce_index, hacc]

theorem lr0_fold_master (st : State) (id : Nat) (g : Grammar) :
    ∀ (l : List Item) (n : Nat) (acc : Lr0Acc),
      st.items.drop n = l →
      (acc.reduce_index = none → (st.items.take n).find? (reducingB g) = none) →
      (∀ j, acc.reduce_index = some j →
        st.items.find? (reducingB g) = some (st.items.getD j default)) →
      (∀ c ∈ acc.conflicts.list, c.kind = ConflictKind.ReduceReduce →
        ∃ fit, st.items.find? (reducingB g) = some fit ∧ fit ∈ c.items) →
      (conflictsLe acc.conflicts
          ((List.enumFrom n l).foldl (lr0Step st id g) acc).conflicts) ∧
      (((List.enumFrom n l).foldl (lr0Step st id g) acc).reductions =
        acc.reductions ++
          match acc.reduce_index with
          | some _ => []
          | none =>
            match l.find? (reducingB g) with
            | some it => [⟨TerminalRef.NullTerminal, it.rule, it.position⟩]
            | none => []) ∧
      (∀ c ∈ ((List.enumFrom n l).foldl (lr0Step st id g) acc).conflicts.list,
        c.kind = ConflictKind.ReduceReduce →
        ∃ fit, st.items.find? (reducingB g) = some fit ∧ fit ∈ c.items) ∧
      (st.children ≠ [] → ∀ it ∈ l, it.get_action g = some LRActionCode.reduce →
        ∃ c ∈ ((List.enumFrom n l).foldl (lr0Step st id g) acc).conflicts.list,
          c.kind = ConflictKind.ShiftReduce ∧ c.lookahead = TerminalRef.NullTerminal ∧
            it ∈ c.items) ∧
      (∀ k, k < l.length → (l.getD k default).get_action g = some LRActionCode.reduce →
        (acc.reduce_index.isSome = true ∨
          ∃ j, j < k ∧ (l.getD j default).get_action g = some LRActionCode.reduce) →
        ∃ c ∈ ((List.enumFrom n l).foldl (lr0Step st id g) acc).conflicts.list,
          c.kind = ConflictKind.ReduceReduce ∧ c.lookahead = TerminalRef.NullTerminal ∧
            (l.getD k default) ∈ c.items) := by
  intro l
  induction l with
  | nil =>
    intro n acc _ _ _ hRRI
    refine ⟨conflictsLe_refl _, ?_, hRRI, by simp, by simp⟩
    cases acc.reduce_index <;> simp
  | cons it rest ih =>
    intro n acc hl hF hRI hRRI
    have hdrop1 : st.items.drop (n + 1) = rest := by
      have h := congrArg (List.drop 1) hl
      rw [List.drop_drop] at h
      simpa [Nat.add_comm] using h
    have hn : st.items[n]? = some it := by
      have h0 : (st.items.drop n)[0]? = some it := by rw [hl]; simp
      rw [List.getElem?_drop] at h0
      simpa using h0
    have hgetn : st.items.getD n default = it := by
      simp [List.getD_eq_getElem?_getD, hn]
    have htake1 : st.items.take (n + 1) = st.items.take n ++ [it] := by
      rw [List.take_succ, hn]; rfl
    rw [List.enumFrom_cons, List.foldl_cons]
    by_cases hp : it.get_action g = some LRActionCode.reduce
    · -- the item is reducing
      have hfind_cons : (it :: rest).find? (reducingB g) = some it := by
        simp [List.find?_cons, reducingB, hp]
      cases hacc : acc.reduce_index with
      | some j =>
        rw [lr0Step_reduce_some st id g acc n it j hp hacc]
        have hfit : st.items.find? (reducingB g) = some (st.items.getD j default) :=
          hRI j hacc
        have hle2 : conflictsLe acc.conflicts
            ((lr0SrPhase st id g acc it).conflicts.raise_reduce_reduce id
              (st.items.getD j default) it TerminalRef.NullTerminal) :=
          conflictsLe_trans (lr0SrPhase_le st id g acc it)
            (raise_reduce_reduce_le _ _ _ _ _)
        have hRRI2 : ∀ c ∈ ((lr0SrPhase st id g acc it).conflicts.raise_reduce_reduce id
              (st.items.getD j default) it TerminalRef.NullTerminal).list,
            c.kind = ConflictKind.ReduceReduce →
            ∃ fit, st.items.find? (reducingB g) = some fit ∧ fit ∈ c.items := by
          intro c' hc' hk
          rcases raise_reduce_reduce_mem_inv (lr0SrPhase st id g acc it).conflicts id
            (st.items.getD j default) it TerminalRef.NullTerminal c' hc'
            with ⟨_, _, hprev, _⟩ | ⟨c, hc, _, hkk, _, hi⟩
          · exact ⟨st.items.getD j default, hfit, hprev⟩
          · obtain ⟨fit, hfit', hmem⟩ :=
              lr0SrPhase_rri st id g acc it hRRI c hc (hkk ▸ hk)
            exact ⟨fit, hfit', hi fit hmem⟩
        obtain ⟨ihle, ihred, ihrri, ihsr, ihrr⟩ :=
          ih (n + 1)
            { lr0SrPhase st id g acc it with conflicts :=
                ((lr0SrPhase st id g acc it).conflicts.raise_reduce_reduce id
                  (st.items.getD j default) it TerminalRef.NullTerminal) }
            hdrop1
            (by intro h
                have h2 : acc.reduce_index = none := by
                  rw [← lr0SrPhase_reduce_index st id g acc it]; exact h
                rw [hacc] at h2; cases h2)
            (by intro j' hj'
                have h2 : acc.reduce_index = some j' := by
                  rw [← lr0SrPhase_reduce_index st id g acc it]; exact hj'
                rw [hacc] at h2; cases h2; exact hfit)
            hRRI2
        refine ⟨conflictsLe_trans hle2 ihle, ?_, ihrri, ?_, ?_⟩
        · rw [ihred]
          simp [lr0SrPhase_reduce_index, lr0SrPhase_reductions, hacc]
        · intro hch it' hit' hred'
          rcases List.mem_cons.mp hit' with h0 | h0
          · subst h0
            refine conflictsLe_mono_ex ihle _ _ _ ?_
            refine conflictsLe_mono_ex (raise_reduce_reduce_le _ _ _ _ _) _ _ _ ?_
            exact lr0SrPhase_sr st id g acc it' hch
          · exact ihsr hch it' h0 hred'
        · intro k hk hkred hhyp
          cases k with
          | zero =>
            rw [List.getD_cons_zero]
            exact conflictsLe_mono_ex ihle _ _ _
              (raise_reduce_reduce_creates (lr0SrPhase st id g acc it).conflicts id
                (st.items.getD j default) it TerminalRef.NullTerminal)
          | succ k' =>
            rw [List.getD_cons_succ]
            rw [List.getD_cons_succ] at hkred
            refine ihrr k' (by simpa using hk) hkred (Or.inl ?_)
            simp [lr0SrPhase_reduce_index, hacc]
      | none =>
        rw [lr0Step_reduce_none st id g acc n it hp hacc]
        have hfind_items : st.items.find? (reducingB g) = some it := by
          conv_lhs => rw [← List.take_append_drop n st.items]
          rw [List.find?_append, hF hacc, hl, hfind_cons]
          rfl
        have hRRI1 : ∀ c ∈ (lr0SrPhase st id g acc it).conflicts.list,
            c.kind = ConflictKind.ReduceReduce →
            ∃ fit, st.items.find? (reducingB g) = some fit ∧ fit ∈ c.items :=
          lr0SrPhase_rri st id g acc it hRRI
        obtain ⟨ihle, ihred, ihrri, ihsr, ihrr⟩ :=
          ih (n + 1)
            { lr0SrPhase st id g acc it with
              reduce_index := some n,
              reductions :=
                (lr0SrPhase st id g acc it).reductions ++
                  [⟨TerminalRef.NullTerminal, it.rule, it.position⟩] }
            hdrop1
            (by intro h; simp at h)
            (by intro j' hj'
                have hj2 : n = j' := by simpa using hj'
                subst hj2; rw [hgetn]; exact hfind_items)
            hRRI1
        refine ⟨conflictsLe_trans (lr0SrPhase_le st id g acc it) ihle, ?_, ihrri, ?_, ?_⟩
        · rw [ihred]
          simp [lr0SrPhase_reductions, hacc, hfind_cons]
        · intro hch it' hit' hred'
          rcases List.mem_cons.mp hit' with h0 | h0
          · subst h0
            exact conflictsLe_mono_ex ihle _ _ _ (lr0SrPhase_sr st id g acc it' hch)
          · exact ihsr hch it' h0 hred'
        · intro k hk hkred hhyp
          cases k with
          | zero =>
            exfalso
            rcases hhyp with h | ⟨j', hj', _⟩
            · simp at h
            · omega
          | succ k' =>
            rw [List.getD_cons_succ]
            rw [List.getD_cons_succ] at hkred
            exact ihrr k' (by simpa using hk) hkred (Or.inl rfl)
    · -- the item is not reducing: the step leaves the accumulator unchanged
      rw [lr0Step_skip st id g acc n it hp]
      have hfind_cons : (it :: rest).find? (reducingB g) = rest.find? (reducingB g) := by
        simp [List.find?_cons, reducingB, hp]
      obtain ⟨ihle, ihred, ihrri, ihsr, ihrr⟩ :=
        ih (n + 1) acc hdrop1
          (by intro hnone
              rw [htake1, List.find?_append, hF hnone]
              simp [List.find?, reducingB, hp])
          hRI hRRI
      refine ⟨ihle, ?_, ihrri, ?_, ?_⟩
      · rw [ihred, hfind_cons]
      · intro hch it' hit' hred'
        rcases List.mem_cons.mp hit' with h0 | h0
        · subst h0; exact absurd hred' hp
        · exact ihsr hch it' h0 hred'
      · intro k hk hkred hhyp
        cases k with
        | zero => rw [List.getD_cons_zero] at hkred; exact absurd hkred hp
        | succ k' =>
          rw [List.getD_cons_succ]
          rw [List.getD_cons_succ] at hkred
          refine ihrr k' (by simpa using hk) hkred ?_
          rcases hhyp with h | ⟨j, hj, hjr⟩
          · exact Or.inl h
          · cases j with
            | zero => rw [List.getD_cons_zero] at hjr; exact absurd hjr hp
            | succ j' =>
              rw [List.getD_cons_succ] at hjr
              exact Or.inr ⟨j', Nat.lt_of_succ_lt_succ hj, hjr⟩

/-- C5: in an LR(0) build, for each state: each reducing item raises a
ShiftReduce conflict with lookahead NullTerminal when the state has outgoing
transitions; the state's reductions are exactly one Reduction (lookahead
NullTerminal, the item's rule, length the item's dot position) coming from the
first reducing item in item order, or none; and every further reducing item
raises a ReduceReduce conflict together with the first reducing item at
lookahead NullTerminal. -/
theorem C5_lr0_reductions (st : State) (id : Nat) (g : Grammar)
    (h0 : st.reductions = []) :
    (st.children ≠ [] → ∀ it ∈ st.items, it.get_action g = some LRActionCode.reduce →
      ∃ c ∈ (st.build_reductions_lr0 id g).2.list,
        c.kind = ConflictKind.ShiftReduce ∧ c.lookahead = TerminalRef.NullTerminal ∧
          it ∈ c.items) ∧
    ((st.build_reductions_lr0 id g).1.reductions =
      match st.items.find? (reducingB g) with
      | some it => [⟨TerminalRef.NullTerminal, it.rule, it.position⟩]
      | none => []) ∧
    (∀ k, k < st.items.length →
      (st.items.getD k default).get_action g = some LRActionCode.reduce →
      (∃ j, j < k ∧ (st.items.getD j default).get_action g = some LRActionCode.reduce) →
      ∃ c ∈ (st.build_reductions_lr0 id g).2.list,
        c.kind = ConflictKind.ReduceReduce ∧ c.lookahead = TerminalRef.NullTerminal ∧
          (st.items.getD k default) ∈ c.items ∧
          ∃ fit, st.items.find? (reducingB g) = some fit ∧ fit ∈ c.items) := by
  obtain ⟨hle, hred, hrri, hsr, hrr⟩ :=
    lr0_fold_master st id g st.items 0 ⟨[], ⟨[]⟩, none⟩ (by simp) (by simp)
      (by intro j h; cases h) (by intro c hc; simp at hc)
  refine ⟨?_, ?_, ?_⟩
  · intro hch it hit hred'
    exact hsr hch it hit hred'
  · show st.reductions ++
        ((List.enumFrom 0 st.items).foldl (lr0Step st id g) ⟨[], ⟨[]⟩, none⟩).reductions = _
    rw [h0, hred]
    simp
  · intro k hk hkred hprior
    obtain ⟨c, hc, h1, h2, h3⟩ := hrr k hk hkred (Or.inr hprior)
    obtain ⟨fit, hfit, hfitmem⟩ := hrri c hc h1
    exact ⟨c, hc, h1, h2, h3, fit, hfit, hfitmem⟩

/-- Witness for C5 at a concrete state. -/
theorem C5_witness :
    (((default : State)).children ≠ [] →
      ∀ it ∈ ((default : State)).items, it.get_action demoG1 = some LRActionCode.reduce →
      ∃ c ∈ (((default : State)).build_reductions_lr0 0 demoG1).2.list,
        c.kind = ConflictKind.ShiftReduce ∧ c.lookahead = TerminalRef.NullTerminal ∧
          it ∈ c.items) ∧
    ((((default : State)).build_reductions_lr0 0 demoG1).1.reductions =
      match ((default : State)).items.find? (reducingB demoG1) with
      | some it => [⟨TerminalRef.NullTerminal, it.rule, it.position⟩]
      | none => []) ∧
    (∀ k, k < ((default : State)).items.length →
      (((default : State)).items.getD k default).get_action demoG1 = some LRActionCode.reduce →
      (∃ j, j < k ∧ (((default : State)).items.getD j default).get_action demoG1 =
        some LRActionCode.reduce) →
      ∃ c ∈ (((default : State)).build_reductions_lr0 0 demoG1).2.list,
        c.kind = ConflictKind.ReduceReduce ∧ c.lookahead = TerminalRef.NullTerminal ∧
          (((default : State)).items.getD k default) ∈ c.items ∧
          ∃ fit, ((default : State)).items.find? (reducingB demoG1) = some fit ∧
            fit ∈ c.items) :=
  C5_lr0_reductions default 0 demoG1 (by decide)

theorem redMapGet_append_of_ne_none (m ext : List (TerminalRef × Nat))
    (t : TerminalRef) (h : redMapGet m t ≠ none) :
    redMapGet (m ++ ext) t ≠ none := by
  unfold redMapGet at *
  rw [List.find?_append]
  cases hm : m.find? (fun p => decide (p.1 = t)) with
  | none => rw [hm] at h; simp at h
  | some p => simp [hm]

theorem redMapGet_append_self (m : List (TerminalRef × Nat)) (t : TerminalRef)
    (i : Nat) : redMapGet (m ++ [(t, i)]) t ≠ none := by
  unfold redMapGet
  rw [List.find?_append]
  cases hm : m.find? (fun p => decide (p.1 = t)) with
  | none => simp [hm, List.find?]
  | some p => simp [hm]

theorem redMapGet_append_other (m : List (TerminalRef × Nat)) (t t' : TerminalRef)
    (i : Nat) (h : t' ≠ t) :
    redMapGet (m ++ [(t, i)]) t' = redMapGet m t' := by
  unfold redMapGet
  rw [List.find?_append]
  cases hm : m.find? (fun p => decide (p.1 = t')) with
  | none => simp [hm, List.find?, Ne.symm h]
  | some p => simp [hm]

/-- The invariant carried by the LR(1)/RNGLR(1) reduction builders: every
lookahead claimed in the map comes from a reducing item of the state together
with the reduction it pushed; every reduction's lookahead is claimed; and the
reductions carry pairwise distinct lookaheads. -/
def lr1Inv (st : State) (g : Grammar) (acc : RedAcc) : Prop :=
  (∀ t, redMapGet acc.map t ≠ none → ∃ it' ∈ st.items,
    it'.get_action g = some LRActionCode.reduce ∧ t ∈ it'.lookaheads.content ∧
    ∃ r ∈ acc.reductions, r.lookahead = t ∧ r.rule = it'.rule ∧
      r.length = it'.position) ∧
  (∀ r ∈ acc.reductions, redMapGet acc.map r.lookahead ≠ none) ∧
  (acc.reductions.map (fun r => r.lookahead)).Nodup

theorem lr1_lookahead_fold (st : State) (id : Nat) (g : Grammar) (idx : Nat)
    (item : Item) (hitem : item ∈ st.items)
    (hred : item.get_action g = some LRActionCode.reduce) :
    ∀ (L : List TerminalRef) (acc : RedAcc),
      (∀ t ∈ L, t ∈ item.lookaheads.content) →
      lr1Inv st g acc →
      (∀ t, redMapGet acc.map t ≠ none →
        redMapGet (L.foldl (lr1ProcessLookahead st id g idx item) acc).map t ≠ none) ∧
      conflictsLe acc.conflicts
        (L.foldl (lr1ProcessLookahead st id g idx item) acc).conflicts ∧
      lr1Inv st g (L.foldl (lr1ProcessLookahead st id g idx item) acc) ∧
      (∀ t ∈ L,
        (childrenContains st.children t.toSymbol = true →
          ∃ c ∈ (L.foldl (lr1ProcessLookahead st id g idx item) acc).conflicts.list,
            c.kind = ConflictKind.ShiftReduce ∧ c.lookahead = t) ∧
        (childrenContains st.children t.toSymbol = false →
          redMapGet (L.foldl (lr1ProcessLookahead st id g idx item) acc).map t ≠ none)) ∧
      (∀ t ∈ L, childrenContains st.children t.toSymbol = false →
        redMapGet acc.map t ≠ none →
        ∃ c ∈ (L.foldl (lr1ProcessLookahead st id g idx item) acc).conflicts.list,
          c.kind = ConflictKind.ReduceReduce ∧ c.lookahead = t) := by
  intro L
  induction L with
  | nil =>
    intro acc _ hinv
    exact ⟨fun t h => h, conflictsLe_refl _, hinv, by simp, by simp⟩
  | cons t0 L' ih =>
    intro acc hL hinv
    rw [List.foldl_cons]
    by_cases hch : childrenContains st.children t0.toSymbol = true
    · -- shift/reduce conflict raised, accumulator otherwise unchanged
      have hstep : lr1ProcessLookahead st id g idx item acc t0 =
          { acc with conflicts := acc.conflicts.raise_shift_reduce st id g item t0 } := by
        simp [lr1ProcessLookahead, hch]
      rw [hstep]
      obtain ⟨iA, iB, iC, iD, iE⟩ := ih
        { acc with conflicts := acc.conflicts.raise_shift_reduce st id g item t0 }
        (fun t ht => hL t (List.mem_cons_of_mem _ ht)) hinv
      refine ⟨iA, conflictsLe_trans (raise_shift_reduce_le _ _ _ _ _ _) iB, iC, ?_, ?_⟩
      · intro t ht
        rcases List.mem_cons.mp ht with h0 | h0
        · subst h0
          refine ⟨fun _ => ?_, fun hf => absurd hch (by simp [hf])⟩
          refine conflictsLe_mono_ex2 iB ?_
          obtain ⟨c, hc, h1, h2, _⟩ :=
            raise_shift_reduce_creates acc.conflicts st id g item t
          exact ⟨c, hc, h1, h2⟩
        · exact iD t h0
      · intro t ht hf hm
        rcases List.mem_cons.mp ht with h0 | h0
        · subst h0; exact absurd hch (by simp [hf])
        · exact iE t h0 hf hm
    · have hch' : childrenContains st.children t0.toSymbol = false := by
        simpa using hch
      cases hm0 : redMapGet acc.map t0 with
      | some prev =>
        have hstep : lr1ProcessLookahead st id g idx item acc t0 =
            { acc with conflicts := (acc.conflicts.raise_reduce_reduce id
                (st.items.getD prev default) item t0) } := by
          simp [lr1ProcessLookahead, hch, hm0]
        rw [hstep]
        obtain ⟨iA, iB, iC, iD, iE⟩ := ih
          { acc with conflicts := (acc.conflicts.raise_reduce_reduce id
              (st.items.getD prev default) item t0) }
          (fun t ht => hL t (List.mem_cons_of_mem _ ht)) hinv
        refine ⟨iA, conflictsLe_trans (raise_reduce_reduce_le _ _ _ _ _) iB, iC, ?_, ?_⟩
        · intro t ht
          rcases List.mem_cons.mp ht with h0 | h0
          · subst h0
            exact ⟨fun hc => absurd hc (by simp [hch']), fun _ => iA t (by simp [hm0])⟩
          · exact iD t h0
        · intro t ht hf hm
          rcases List.mem_cons.mp ht with h0 | h0
          · subst h0
            refine conflictsLe_mono_ex2 iB ?_
            obtain ⟨c, hc, h1, h2, _⟩ :=
              raise_reduce_reduce_creates acc.conflicts id
                (st.items.getD prev default) item t
            exact ⟨c, hc, h1, h2⟩
          · exact iE t h0 hf hm
      | none =>
        have hstep : lr1ProcessLookahead st id g idx item acc t0 =
            { acc with
              map := acc.map ++ [(t0, idx)],
              reductions := acc.reductions ++ [⟨t0, item.rule, item.position⟩] } := by
          simp [lr1ProcessLookahead, hch, hm0]
        rw [hstep]
        have hinv2 : lr1Inv st g
            { acc with
              map := acc.map ++ [(t0, idx)],
              reductions := acc.reductions ++ [⟨t0, item.rule, item.position⟩] } := by
          obtain ⟨i1, i2, i3⟩ := hinv
          refine ⟨?_, ?_, ?_⟩
          · intro t ht
            by_cases he : t = t0
            · subst he
              exact ⟨item, hitem, hred, hL t (List.mem_cons_self _ _),
                ⟨t, item.rule, item.position⟩, List.mem_append_right _ (by simp),
                rfl, rfl, rfl⟩
            · rw [show ({ acc with
                  map := acc.map ++ [(t0, idx)],
                  reductions := acc.reductions ++ [⟨t0, item.rule, item.position⟩] } :
                    RedAcc).map = acc.map ++ [(t0, idx)] from rfl,
                redMapGet_append_other acc.map t0 t idx he] at ht
              obtain ⟨it', hit', h1, h2, r, hr, h3⟩ := i1 t ht
              exact ⟨it', hit', h1, h2, r, List.mem_append_left _ hr, h3⟩
          · intro r hr
            rcases List.mem_append.mp hr with h0 | h0
            · exact redMapGet_append_of_ne_none _ _ _ (i2 r h0)
            · have : r = ⟨t0, item.rule, item.position⟩ := by simpa using h0
              subst this
              exact redMapGet_append_self _ _ _
          · have ht0 : t0 ∉ acc.reductions.map (fun r => r.lookahead) := by
              intro hmem
              obtain ⟨r, hr, hrt⟩ := List.mem_map.mp hmem
              exact (hrt ▸ i2 r hr) hm0
            rw [show ({ acc with
                map := acc.map ++ [(t0, idx)],
                reductions := acc.reductions ++ [⟨t0, item.rule, item.position⟩] } :
                  RedAcc).reductions =
                acc.reductions ++ [⟨t0, item.rule, item.position⟩] from rfl,
              List.map_append]
            refine List.Nodup.append i3 (by simp) ?_
            intro a ha hb
            simp at hb
            subst hb
            exact ht0 ha
        obtain ⟨iA, iB, iC, iD, iE⟩ := ih
          { acc with
            map := acc.map ++ [(t0, idx)],
            reductions := acc.reductions ++ [⟨t0, item.rule, item.position⟩] }
          (fun t ht => hL t (List.mem_cons_of_mem _ ht)) hinv2
        refine ⟨?_, iB, iC, ?_, ?_⟩
        · intro t ht
          exact iA t (redMapGet_append_of_ne_none _ _ _ ht)
        · intro t ht
          rcases List.mem_cons.mp ht with h0 | h0
          · subst h0
            exact ⟨fun hc => absurd hc (by simp [hch']),
              fun _ => iA t (redMapGet_append_self _ _ _)⟩
          · exact iD t h0
        · intro t ht hf hm
          rcases List.mem_cons.mp ht with h0 | h0
          · subst h0; exact absurd hm (by simp [hm0])
          · exact iE t h0 hf (redMapGet_append_of_ne_none _ _ _ hm)

theorem lr1Step_skip (st : State) (id : Nat) (g : Grammar) (acc : RedAcc)
    (p : Nat × Item) (hp : ¬ (p.2).get_action g = some LRActionCode.reduce) :
    lr1Step st id g acc p = acc := by
  simp [lr1Step, hp]

theorem lr1Step_reduce (st : State) (id : Nat) (g : Grammar) (acc : RedAcc)
    (p : Nat × Item) (hp : (p.2).get_action g = some LRActionCode.reduce) :
    lr1Step st id g acc p =
      (p.2).lookaheads.content.foldl (lr1ProcessLookahead st id g p.1 p.2) acc := by
  simp [lr1Step, hp]

theorem lr1_fold_master (st : State) (id : Nat) (g : Grammar) :
    ∀ (l : List (Nat × Item)) (acc : RedAcc),
      (∀ p ∈ l, p.2 ∈ st.items) →
      lr1Inv st g acc →
      (∀ t, redMapGet acc.map t ≠ none →
        redMapGet (l.foldl (lr1Step st id g) acc).map t ≠ none) ∧
      conflictsLe acc.conflicts (l.foldl (lr1Step st id g) acc).conflicts ∧
      lr1Inv st g (l.foldl (lr1Step st id g) acc) ∧
      (∀ p ∈ l, (p.2).get_action g = some LRActionCode.reduce →
        ∀ t ∈ (p.2).lookaheads.content,
        (childrenContains st.children t.toSymbol = true →
          ∃ c ∈ (l.foldl (lr1Step st id g) acc).conflicts.list,
            c.kind = ConflictKind.ShiftReduce ∧ c.lookahead = t) ∧
        (childrenContains st.children t.toSymbol = false →
          redMapGet (l.foldl (lr1Step st id g) acc).map t ≠ none)) ∧
      (∀ k, k < l.length →
        ((l.getD k default).2).get_action g = some LRActionCode.reduce →
        ∀ t ∈ ((l.getD k default).2).lookaheads.content,
        childrenContains st.children t.toSymbol = false →
        (redMapGet acc.map t ≠ none ∨
          ∃ j, j < k ∧ ((l.getD j default).2).get_action g = some LRActionCode.reduce ∧
            t ∈ ((l.getD j default).2).lookaheads.content) →
        ∃ c ∈ (l.foldl (lr1Step st id g) acc).conflicts.list,
          c.kind = ConflictKind.ReduceReduce ∧ c.lookahead = t) := by
  intro l
  induction l with
  | nil =>
    intro acc _ hinv
    exact ⟨fun t h => h, conflictsLe_refl _, hinv, by simp, by simp⟩
  | cons p rest ih =>
    intro acc hmem hinv
    rw [List.foldl_cons]
    by_cases hp : (p.2).get_action g = some LRActionCode.reduce
    · rw [lr1Step_reduce st id g acc p hp]
      obtain ⟨jA, jB, jC, jD, jE⟩ :=
        lr1_lookahead_fold st id g p.1 p.2 (hmem p (List.mem_cons_self _ _)) hp
          (p.2).lookaheads.content acc (fun _ ht => ht) hinv
      obtain ⟨iA, iB, iC, iD, iE⟩ := ih
        ((p.2).lookaheads.content.foldl (lr1ProcessLookahead st id g p.1 p.2) acc)
        (fun q hq => hmem q (List.mem_cons_of_mem _ hq)) jC
      refine ⟨fun t h => iA t (jA t h), conflictsLe_trans jB iB, iC, ?_, ?_⟩
      · intro q hq hqred t ht
        rcases List.mem_cons.mp hq with h0 | h0
        · subst h0
          refine ⟨fun hc => ?_, fun hc => ?_⟩
          · exact conflictsLe_mono_ex2 iB ((jD t ht).1 hc)
          · exact iA t ((jD t ht).2 hc)
        · exact iD q h0 hqred t ht
      · intro k hk hkred t ht hch hhyp
        cases k with
        | zero =>
          rw [List.getD_cons_zero] at hkred ht
          rcases hhyp with h | ⟨j, hj, _⟩
          · exact conflictsLe_mono_ex2 iB (jE t ht hch h)
          · omega
        | succ k' =>
          rw [List.getD_cons_succ] at hkred ht
          refine iE k' (by simpa using hk) hkred t ht hch ?_
          rcases hhyp with h | ⟨j, hj, hjred, hjt⟩
          · exact Or.inl (jA t h)
          · cases j with
            | zero =>
              rw [List.getD_cons_zero] at hjred hjt
              exact Or.inl ((jD t hjt).2 hch)
            | succ j' =>
              rw [List.getD_cons_succ] at hjred hjt
              exact Or.inr ⟨j', Nat.lt_of_succ_lt_succ hj, hjred, hjt⟩
    · rw [lr1Step_skip st id g acc p hp]
      obtain ⟨iA, iB, iC, iD, iE⟩ := ih acc
        (fun q hq => hmem q (List.mem_cons_of_mem _ hq)) hinv
      refine ⟨iA, iB, iC, ?_, ?_⟩
      · intro q hq hqred t ht
        rcases List.mem_cons.mp hq with h0 | h0
        · subst h0; exact absurd hqred hp
        · exact iD q h0 hqred t ht
      · intro k hk hkred t ht hch hhyp
        cases k with
        | zero =>
          rw [List.getD_cons_zero] at hkred
          exact absurd hkred hp
        | succ k' =>
          rw [List.getD_cons_succ] at hkred ht
          refine iE k' (by simpa using hk) hkred t ht hch ?_
          rcases hhyp with h | ⟨j, hj, hjred, hjt⟩
          · exact Or.inl h
          · cases j with
            | zero =>
              rw [List.getD_cons_zero] at hjred
              exact absurd hjred hp
            | succ j' =>
              rw [List.getD_cons_succ] at hjred hjt
              exact Or.inr ⟨j', Nat.lt_of_succ_lt_succ hj, hjred, hjt⟩

theorem enumFrom_snd_mem (l : List α) : ∀ (n : Nat) (p : Nat × α),
    p ∈ List.enumFrom n l → p.2 ∈ l := by
  induction l with
  | nil => intro n p h; simp at h
  | cons a l' ih =>
    intro n p h
    rw [List.enumFrom_cons] at h
    rcases List.mem_cons.mp h with h0 | h0
    · subst h0; exact List.mem_cons_self _ _
    · exact List.mem_cons_of_mem _ (ih (n + 1) p h0)

theorem enumFrom_getD_snd [Inhabited α] (l : List α) (n k : Nat)
    (h : k < l.length) :
    ((List.enumFrom n l).getD k default).2 = l.getD k default := by
  induction l generalizing n k with
  | nil => simp at h
  | cons a l' ih =>
    rw [List.enumFrom_cons]
    cases k with
    | zero => rfl
    | succ k' =>
      rw [List.getD_cons_succ, List.getD_cons_succ]
      exact ih (n + 1) k' (by simpa using h)

theorem reductions_lookahead_unique (reds : List Reduction)
    (h : (reds.map (fun r => r.lookahead)).Nodup) :
    ∀ r ∈ reds, ∀ r' ∈ reds, r'.lookahead = r.lookahead → r' = r := by
  induction reds with
  | nil => intro r hr; simp at hr
  | cons a rest ih =>
    intro r hr r' hr' heq
    rw [List.map_cons, List.nodup_cons] at h
    rcases List.mem_cons.mp hr with h0 | h0 <;>
      rcases List.mem_cons.mp hr' with h1 | h1
    · rw [h1, h0]
    · subst h0
      exact absurd (heq ▸ List.mem_map.mpr ⟨r', h1, rfl⟩) h.1
    · subst h1
      exact absurd (heq ▸ List.mem_map.mpr ⟨r, h0, rfl⟩ : r'.lookahead ∈ _) h.1
    · exact ih h.2 r h0 r' h1 heq

theorem enumFrom_mem_of_mem (l : List α) : ∀ (n : Nat) (a : α), a ∈ l →
    ∃ i, (i, a) ∈ List.enumFrom n l := by
  induction l with
  | nil => intro n a h; simp at h
  | cons x l' ih =>
    intro n a h
    rw [List.enumFrom_cons]
    rcases List.mem_cons.mp h with h0 | h0
    · subst h0; exact ⟨n, List.mem_cons_self _ _⟩
    · obtain ⟨i, hi⟩ := ih (n + 1) a h0
      exact ⟨i, List.mem_cons_of_mem _ hi⟩

/-- C4: in an LR(1) or LALR(1) reduction build, for every state s, reducing
item i and lookahead t of i: either the state's transitions contain t viewed
as a symbol and a ShiftReduce conflict with lookahead t is recorded, or
exactly one Reduction of the state has lookahead t, matching some reducing
item carrying t; and a second reduction attempt at the same lookahead records
a ReduceReduce conflict instead of a second Reduction. -/
theorem C4_lr1_reduction_coverage (st : State) (id : Nat) (g : Grammar)
    (h0 : st.reductions = []) (it : Item) (hit : it ∈ st.items)
    (hred : it.get_action g = some LRActionCode.reduce) (t : TerminalRef)
    (ht : t ∈ it.lookaheads.content) :
    (childrenContains st.children t.toSymbol = true →
      ∃ c ∈ (st.build_reductions_lr1 id g).2.list,
        c.kind = ConflictKind.ShiftReduce ∧ c.lookahead = t) ∧
    (childrenContains st.children t.toSymbol = false →
      ∃ r ∈ (st.build_reductions_lr1 id g).1.reductions,
        r.lookahead = t ∧
        (∃ it' ∈ st.items, it'.get_action g = some LRActionCode.reduce ∧
          t ∈ it'.lookaheads.content ∧ r.rule = it'.rule ∧ r.length = it'.position) ∧
        ∀ r' ∈ (st.build_reductions_lr1 id g).1.reductions,
          r'.lookahead = t → r' = r) ∧
    (∀ j k, j < k → k < st.items.length →
      (st.items.getD j default).get_action g = some LRActionCode.reduce →
      (st.items.getD k default).get_action g = some LRActionCode.reduce →
      t ∈ (st.items.getD j default).lookaheads.content →
      t ∈ (st.items.getD k default).lookaheads.content →
      childrenContains st.children t.toSymbol = false →
      ∃ c ∈ (st.build_reductions_lr1 id g).2.list,
        c.kind = ConflictKind.ReduceReduce ∧ c.lookahead = t) := by
  have hinv0 : lr1Inv st g ⟨[], ⟨[]⟩, []⟩ := by
    refine ⟨?_, ?_, ?_⟩
    · intro t' h; exact absurd rfl h
    · intro r hr; simp at hr
    · simp
  obtain ⟨mA, mB, mC, mD, mE⟩ :=
    lr1_fold_master st id g st.items.enum ⟨[], ⟨[]⟩, []⟩
      (fun p hp => enumFrom_snd_mem st.items 0 p hp) hinv0
  have hred1 : (st.build_reductions_lr1 id g).1.reductions =
      (st.items.enum.foldl (lr1Step st id g) ⟨[], ⟨[]⟩, []⟩).reductions := by
    show st.reductions ++ _ = _
    rw [h0]; rfl
  have hconf : (st.build_reductions_lr1 id g).2 =
      (st.items.enum.foldl (lr1Step st id g) ⟨[], ⟨[]⟩, []⟩).conflicts := rfl
  obtain ⟨i0, hi0⟩ := enumFrom_mem_of_mem st.items 0 it hit
  have hD := mD (i0, it) hi0 hred t ht
  refine ⟨?_, ?_, ?_⟩
  · intro hc
    rw [hconf]
    exact hD.1 hc
  · intro hc
    have hmap := hD.2 hc
    obtain ⟨it', hit', h1, h2, r, hr, hA, hB, hC⟩ := mC.1 t hmap
    rw [hred1]
    refine ⟨r, hr, hA, ⟨it', hit', h1, h2, hB, hC⟩, ?_⟩
    intro r' hr' hlook
    exact reductions_lookahead_unique _ mC.2.2 r hr r' hr' (by rw [hlook, hA])
  · intro j k hjk hk hjred hkred hjt hkt hch
    rw [hconf]
    have hk' : k < st.items.enum.length := by
      rw [List.enum_length]; exact hk
    have hkd : (st.items.enum.getD k default).2 = st.items.getD k default :=
      enumFrom_getD_snd st.items 0 k hk
    have hjd : (st.items.enum.getD j default).2 = st.items.getD j default :=
      enumFrom_getD_snd st.items 0 j (Nat.lt_trans hjk hk)
    refine mE k hk' (by rw [hkd]; exact hkred) t (by rw [hkd]; exact hkt) hch
      (Or.inr ⟨j, hjk, by rw [hjd]; exact hjred, by rw [hjd]; exact hjt⟩)

/-- A concrete reducing item of `demoG3` (rule C -> empty, lookahead Dollar). -/
def demoItemRed : Item := ⟨⟨22, 0⟩, 0, ⟨[TerminalRef.Dollar]⟩⟩

/-- A concrete state of `demoG3` holding one reducing item. -/
def demoStateRed : State := ⟨⟨[demoItemRed]⟩, [demoItemRed], [], [], []⟩

/-- Witness for C4 at a concrete state with one reducing item. -/
theorem C4_witness :
    (childrenContains demoStateRed.children TerminalRef.Dollar.toSymbol = true →
      ∃ c ∈ (demoStateRed.build_reductions_lr1 0 demoG3).2.list,
        c.kind = ConflictKind.ShiftReduce ∧ c.lookahead = TerminalRef.Dollar) ∧
    (childrenContains demoStateRed.children TerminalRef.Dollar.toSymbol = false →
      ∃ r ∈ (demoStateRed.build_reductions_lr1 0 demoG3).1.reductions,
        r.lookahead = TerminalRef.Dollar ∧
        (∃ it' ∈ demoStateRed.items, it'.get_action demoG3 = some LRActionCode.reduce ∧
          TerminalRef.Dollar ∈ it'.lookaheads.content ∧ r.rule = it'.rule ∧
            r.length = it'.position) ∧
        ∀ r' ∈ (demoStateRed.build_reductions_lr1 0 demoG3).1.reductions,
          r'.lookahead = TerminalRef.Dollar → r' = r) ∧
    (∀ j k, j < k → k < demoStateRed.items.length →
      (demoStateRed.items.getD j default).get_action demoG3 = some LRActionCode.reduce →
      (demoStateRed.items.getD k default).get_action demoG3 = some LRActionCode.reduce →
      TerminalRef.Dollar ∈ (demoStateRed.items.getD j default).lookaheads.content →
      TerminalRef.Dollar ∈ (demoStateRed.items.getD k default).lookaheads.content →
      childrenContains demoStateRed.children TerminalRef.Dollar.toSymbol = false →
      ∃ c ∈ (demoStateRed.build_reductions_lr1 0 demoG3).2.list,
        c.kind = ConflictKind.ReduceReduce ∧ c.lookahead = TerminalRef.Dollar) :=
  C4_lr1_reduction_coverage demoStateRed 0 demoG3 (by decide) demoItemRed (by decide)
    (by decide) TerminalRef.Dollar (by decide)

theorem processLookahead_reductions_ext (st : State) (id : Nat) (g : Grammar)
    (idx : Nat) (item : Item) (acc : RedAcc) (t : TerminalRef) :
    ∃ ext, (lr1ProcessLookahead st id g idx item acc t).reductions =
      acc.reductions ++ ext := by
  unfold lr1ProcessLookahead
  split
  · exact ⟨[], by simp⟩
  · split
    · exact ⟨[], by simp⟩
    · exact ⟨[⟨t, item.rule, item.position⟩], rfl⟩

theorem processLookahead_conflictsLe (st : State) (id : Nat) (g : Grammar)
    (idx : Nat) (item : Item) (acc : RedAcc) (t : TerminalRef) :
    conflictsLe acc.conflicts (lr1ProcessLookahead st id g idx item acc t).conflicts := by
  unfold lr1ProcessLookahead
  split
  · exact raise_shift_reduce_le _ _ _ _ _ _
  · split
    · exact raise_reduce_reduce_le _ _ _ _ _
    · exact conflictsLe_refl _

theorem processLookahead_mapLe (st : State) (id : Nat) (g : Grammar)
    (idx : Nat) (item : Item) (acc : RedAcc) (t : TerminalRef) :
    ∀ τ, redMapGet acc.map τ ≠ none →
      redMapGet (lr1ProcessLookahead st id g idx item acc t).map τ ≠ none := by
  intro τ h
  unfold lr1ProcessLookahead
  split
  · exact h
  · split
    · exact h
    · exact redMapGet_append_of_ne_none _ _ _ h

theorem processLookahead_reductions_shape (st : State) (id : Nat) (g : Grammar)
    (idx : Nat) (item : Item) (acc : RedAcc) (t : TerminalRef) :
    ∀ r ∈ (lr1ProcessLookahead st id g idx item acc t).reductions,
      r ∈ acc.reductions ∨ (r.rule = item.rule ∧ r.length = item.position) := by
  intro r hr
  unfold lr1ProcessLookahead at hr
  split at hr
  · exact Or.inl hr
  · split at hr
    · exact Or.inl hr
    · rcases List.mem_append.mp hr with h0 | h0
      · exact Or.inl h0
      · have : r = ⟨t, item.rule, item.position⟩ := by simpa using h0
        subst this
        exact Or.inr ⟨rfl, rfl⟩

theorem lookahead_fold_reductions_shape (st : State) (id : Nat) (g : Grammar)
    (idx : Nat) (item : Item) :
    ∀ (L : List TerminalRef) (acc : RedAcc),
      ∀ r ∈ (L.foldl (lr1ProcessLookahead st id g idx item) acc).reductions,
        r ∈ acc.reductions ∨ (r.rule = item.rule ∧ r.length = item.position) := by
  intro L
  induction L with
  | nil => intro acc r hr; exact Or.inl hr
  | cons t L' ih =>
    intro acc r hr
    rw [List.foldl_cons] at hr
    rcases ih (lr1ProcessLookahead st id g idx item acc t) r hr with h0 | h0
    · exact processLookahead_reductions_shape st id g idx item acc t r h0
    · exact Or.inr h0

theorem rnglrStep_skip (st : State) (id : Nat) (g : Grammar) (acc : RedAcc)
    (p : Nat × Item)
    (h : (p.2).get_action g = some LRActionCode.shift ∧ ¬ (p.2).nullableAfterDot g) :
    rnglrStep st id g acc p = acc := by
  unfold rnglrStep
  rw [if_pos h]

theorem rnglrStep_process (st : State) (id : Nat) (g : Grammar) (acc : RedAcc)
    (p : Nat × Item)
    (h : ¬((p.2).get_action g = some LRActionCode.shift ∧ ¬ (p.2).nullableAfterDot g)) :
    rnglrStep st id g acc p =
      (p.2).lookaheads.content.foldl (lr1ProcessLookahead st id g p.1 p.2) acc := by
  unfold rnglrStep
  rw [if_neg h]

theorem rnglr_fold_reductions_source (st : State) (id : Nat) (g : Grammar) :
    ∀ (l : List (Nat × Item)) (acc : RedAcc),
      (∀ r ∈ acc.reductions, ∃ it : Item, r.rule = it.rule ∧ r.length = it.position ∧
        ¬(it.get_action g = some LRActionCode.shift ∧ ¬ it.nullableAfterDot g)) →
      ∀ r ∈ (l.foldl (rnglrStep st id g) acc).reductions,
        ∃ it : Item, r.rule = it.rule ∧ r.length = it.position ∧
          ¬(it.get_action g = some LRActionCode.shift ∧ ¬ it.nullableAfterDot g) := by
  intro l
  induction l with
  | nil => intro acc hacc r hr; exact hacc r hr
  | cons p rest ih =>
    intro acc hacc r hr
    rw [List.foldl_cons] at hr
    by_cases hskip : (p.2).get_action g = some LRActionCode.shift ∧
        ¬ (p.2).nullableAfterDot g
    · rw [rnglrStep_skip st id g acc p hskip] at hr
      exact ih acc hacc r hr
    · rw [rnglrStep_process st id g acc p hskip] at hr
      refine ih _ ?_ r hr
      intro r' hr'
      rcases lookahead_fold_reductions_shape st id g p.1 p.2
        (p.2).lookaheads.content acc r' hr' with h0 | h0
      · exact hacc r' h0
      · exact ⟨p.2, h0.1, h0.2, hskip⟩

/-- Transport of the refinement witness along an evolution of the RNGLR-side
accumulator that only appends reductions and preserves conflicts. -/
theorem refinement_transport {accR accR' : RedAcc}
    (hext : ∃ ext, accR'.reductions = accR.reductions ++ ext)
    (hle : conflictsLe accR.conflicts accR'.conflicts) (redsL : List Reduction)
    (h : ∀ r ∈ redsL, ∃ r' ∈ accR.reductions, r'.lookahead = r.lookahead ∧
      (r' = r ∨ ∃ c ∈ accR.conflicts.list, c.kind = ConflictKind.ReduceReduce ∧
        c.lookahead = r.lookahead)) :
    ∀ r ∈ redsL, ∃ r' ∈ accR'.reductions, r'.lookahead = r.lookahead ∧
      (r' = r ∨ ∃ c ∈ accR'.conflicts.list, c.kind = ConflictKind.ReduceReduce ∧
        c.lookahead = r.lookahead) := by
  intro r hr
  obtain ⟨r', hr', hlook, hor⟩ := h r hr
  obtain ⟨ext, hext⟩ := hext
  refine ⟨r', by rw [hext]; exact List.mem_append_left _ hr', hlook, ?_⟩
  rcases hor with h0 | h0
  · exact Or.inl h0
  · exact Or.inr (conflictsLe_mono_ex2 hle h0)

/-- The weak invariant carried on the RNGLR side: every claimed lookahead in
the map has a reduction with that lookahead. -/
def rnglrInv (acc : RedAcc) : Prop :=
  ∀ t, redMapGet acc.map t ≠ none → ∃ r' ∈ acc.reductions, r'.lookahead = t

theorem processLookahead_children_eq (st : State) (id : Nat) (g : Grammar)
    (idx : Nat) (item : Item) (acc : RedAcc) (t : TerminalRef)
    (hch : childrenContains st.children t.toSymbol = true) :
    lr1ProcessLookahead st id g idx item acc t =
      { acc with conflicts := (acc.conflicts.raise_shift_reduce st id g item t) } := by
  unfold lr1ProcessLookahead
  rw [if_pos hch]

theorem processLookahead_rr_eq (st : State) (id : Nat) (g : Grammar)
    (idx : Nat) (item : Item) (acc : RedAcc) (t : TerminalRef) (prev : Nat)
    (hch : childrenContains st.children t.toSymbol = false)
    (hm : redMapGet acc.map t = some prev) :
    lr1ProcessLookahead st id g idx item acc t =
      { acc with conflicts := (acc.conflicts.raise_reduce_reduce id
          (st.items.getD prev default) item t) } := by
  unfold lr1ProcessLookahead
  rw [if_neg (by simp [hch] : ¬ childrenContains st.children t.toSymbol = true), hm]

theorem processLookahead_push_eq (st : State) (id : Nat) (g : Grammar)
    (idx : Nat) (item : Item) (acc : RedAcc) (t : TerminalRef)
    (hch : childrenContains st.children t.toSymbol = false)
    (hm : redMapGet acc.map t = none) :
    lr1ProcessLookahead st id g idx item acc t =
      { acc with
        map := acc.map ++ [(t, idx)],
        reductions := acc.reductions ++ [⟨t, item.rule, item.position⟩] } := by
  unfold lr1ProcessLookahead
  rw [if_neg (by simp [hch] : ¬ childrenContains st.children t.toSymbol = true), hm]

theorem rnglr_lookahead_fold_weak (st : State) (id : Nat) (g : Grammar)
    (idx : Nat) (item : Item) :
    ∀ (L : List TerminalRef) (acc : RedAcc),
      rnglrInv acc →
      (∀ t, redMapGet acc.map t ≠ none →
        redMapGet (L.foldl (lr1ProcessLookahead st id g idx item) acc).map t ≠ none) ∧
      conflictsLe acc.conflicts
        (L.foldl (lr1ProcessLookahead st id g idx item) acc).conflicts ∧
      (∃ ext, (L.foldl (lr1ProcessLookahead st id g idx item) acc).reductions =
        acc.reductions ++ ext) ∧
      rnglrInv (L.foldl (lr1ProcessLookahead st id g idx item) acc) := by
  intro L
  induction L with
  | nil =>
    intro acc hinv
    exact ⟨fun t h => h, conflictsLe_refl _, ⟨[], by simp⟩, hinv⟩
  | cons t0 L' ih =>
    intro acc hinv
    rw [List.foldl_cons]
    have hinv1 : rnglrInv (lr1ProcessLookahead st id g idx item acc t0) := by
      by_cases hch : childrenContains st.children t0.toSymbol = true
      · rw [processLookahead_children_eq st id g idx item acc t0 hch]
        exact hinv
      · have hch' : childrenContains st.children t0.toSymbol = false := by
          simpa using hch
        cases hm : redMapGet acc.map t0 with
        | some prev =>
          rw [processLookahead_rr_eq st id g idx item acc t0 prev hch' hm]
          exact hinv
        | none =>
          rw [processLookahead_push_eq st id g idx item acc t0 hch' hm]
          intro t ht
          by_cases he : t = t0
          · subst he
            exact ⟨⟨t, item.rule, item.position⟩,
              List.mem_append_right _ (by simp), rfl⟩
          · rw [show ({ acc with
                map := acc.map ++ [(t0, idx)],
                reductions := acc.reductions ++ [⟨t0, item.rule, item.position⟩] } :
                  RedAcc).map = acc.map ++ [(t0, idx)] from rfl,
              redMapGet_append_other acc.map t0 t idx he] at ht
            obtain ⟨r', hr', hlook⟩ := hinv t ht
            exact ⟨r', List.mem_append_left _ hr', hlook⟩
    obtain ⟨iA, iB, iC, iD⟩ := ih (lr1ProcessLookahead st id g idx item acc t0) hinv1
    refine ⟨?_, ?_, ?_, iD⟩
    · intro t ht
      exact iA t (processLookahead_mapLe st id g idx item acc t0 t ht)
    · exact conflictsLe_trans (processLookahead_conflictsLe st id g idx item acc t0) iB
    · obtain ⟨ext1, he1⟩ := processLookahead_reductions_ext st id g idx item acc t0
      obtain ⟨ext2, he2⟩ := iC
      exact ⟨ext1 ++ ext2, by rw [he2, he1, List.append_assoc]⟩

theorem processLookahead_rnglrInv (st : State) (id : Nat) (g : Grammar)
    (idx : Nat) (item : Item) (acc : RedAcc) (t0 : TerminalRef)
    (hinv : rnglrInv acc) :
    rnglrInv (lr1ProcessLookahead st id g idx item acc t0) := by
  by_cases hch : childrenContains st.children t0.toSymbol = true
  · rw [processLookahead_children_eq st id g idx item acc t0 hch]
    exact hinv
  · have hch' : childrenContains st.children t0.toSymbol = false := by simpa using hch
    cases hm : redMapGet acc.map t0 with
    | some prev =>
      rw [processLookahead_rr_eq st id g idx item acc t0 prev hch' hm]
      exact hinv
    | none =>
      rw [processLookahead_push_eq st id g idx item acc t0 hch' hm]
      intro t ht
      by_cases he : t = t0
      · subst he
        exact ⟨⟨t, item.rule, item.position⟩, List.mem_append_right _ (by simp), rfl⟩
      · rw [show ({ acc with
            map := acc.map ++ [(t0, idx)],
            reductions := acc.reductions ++ [⟨t0, item.rule, item.position⟩] } :
              RedAcc).map = acc.map ++ [(t0, idx)] from rfl,
          redMapGet_append_other acc.map t0 t idx he] at ht
        obtain ⟨r', hr', hlook⟩ := hinv t ht
        exact ⟨r', List.mem_append_left _ hr', hlook⟩

theorem joint_lookahead_fold (st : State) (id : Nat) (g : Grammar) (idx : Nat)
    (item : Item) :
    ∀ (L : List TerminalRef) (accL accR : RedAcc),
      (∀ t, redMapGet accL.map t ≠ none → redMapGet accR.map t ≠ none) →
      (∀ r ∈ accL.reductions, ∃ r' ∈ accR.reductions, r'.lookahead = r.lookahead ∧
        (r' = r ∨ ∃ c ∈ accR.conflicts.list, c.kind = ConflictKind.ReduceReduce ∧
          c.lookahead = r.lookahead)) →
      rnglrInv accR →
      (∀ t, redMapGet (L.foldl (lr1ProcessLookahead st id g idx item) accL).map t ≠ none →
        redMapGet (L.foldl (lr1ProcessLookahead st id g idx item) accR).map t ≠ none) ∧
      (∀ r ∈ (L.foldl (lr1ProcessLookahead st id g idx item) accL).reductions,
        ∃ r' ∈ (L.foldl (lr1ProcessLookahead st id g idx item) accR).reductions,
          r'.lookahead = r.lookahead ∧
          (r' = r ∨
            ∃ c ∈ (L.foldl (lr1ProcessLookahead st id g idx item) accR).conflicts.list,
              c.kind = ConflictKind.ReduceReduce ∧ c.lookahead = r.lookahead)) ∧
      rnglrInv (L.foldl (lr1ProcessLookahead st id g idx item) accR) := by
  intro L
  induction L with
  | nil =>
    intro accL accR hJ1 hJ2 hJ3
    exact ⟨hJ1, hJ2, hJ3⟩
  | cons t0 L' ih =>
    intro accL accR hJ1 hJ2 hJ3
    rw [List.foldl_cons, List.foldl_cons]
    have hJ3' : rnglrInv (lr1ProcessLookahead st id g idx item accR t0) :=
      processLookahead_rnglrInv st id g idx item accR t0 hJ3
    by_cases hch : childrenContains st.children t0.toSymbol = true
    · rw [processLookahead_children_eq st id g idx item accL t0 hch,
        processLookahead_children_eq st id g idx item accR t0 hch]
      refine ih _ _ hJ1 ?_ ?_
      · exact refinement_transport ⟨[], by simp⟩ (raise_shift_reduce_le _ _ _ _ _ _)
          accL.reductions hJ2
      · rw [← processLookahead_children_eq st id g idx item accR t0 hch]
        exact hJ3'
    · have hch' : childrenContains st.children t0.toSymbol = false := by simpa using hch
      cases hmL : redMapGet accL.map t0 with
      | some prevL =>
        have hmR : redMapGet accR.map t0 ≠ none := hJ1 t0 (by simp [hmL])
        cases hmR2 : redMapGet accR.map t0 with
        | none => exact absurd hmR2 hmR
        | some prevR =>
          rw [processLookahead_rr_eq st id g idx item accL t0 prevL hch' hmL,
            processLookahead_rr_eq st id g idx item accR t0 prevR hch' hmR2]
          refine ih _ _ hJ1 ?_ ?_
          · exact refinement_transport ⟨[], by simp⟩
              (raise_reduce_reduce_le _ _ _ _ _) accL.reductions hJ2
          · rw [← processLookahead_rr_eq st id g idx item accR t0 prevR hch' hmR2]
            exact hJ3'
      | none =>
        cases hmR2 : redMapGet accR.map t0 with
        | some prevR =>
          rw [processLookahead_push_eq st id g idx item accL t0 hch' hmL,
            processLookahead_rr_eq st id g idx item accR t0 prevR hch' hmR2]
          refine ih _ _ ?_ ?_ ?_
          · intro t ht
            by_cases he : t = t0
            · subst he
              simp [hmR2]
            · rw [show ({ accL with
                  map := accL.map ++ [(t0, idx)],
                  reductions := accL.reductions ++ [⟨t0, item.rule, item.position⟩] } :
                    RedAcc).map = accL.map ++ [(t0, idx)] from rfl,
                redMapGet_append_other accL.map t0 t idx he] at ht
              exact hJ1 t ht
          · intro r hr
            rcases List.mem_append.mp hr with h0 | h0
            · exact refinement_transport ⟨[], by simp⟩
                (raise_reduce_reduce_le _ _ _ _ _) accL.reductions hJ2 r h0
            · have hr0 : r = ⟨t0, item.rule, item.position⟩ := by simpa using h0
              subst hr0
              obtain ⟨r', hr', hlook⟩ := hJ3 t0 (by simp [hmR2])
              refine ⟨r', hr', hlook, Or.inr ?_⟩
              obtain ⟨c, hc, h1, h2, _⟩ :=
                raise_reduce_reduce_creates accR.conflicts id
                  (st.items.getD prevR default) item t0
              exact ⟨c, hc, h1, h2⟩
          · rw [← processLookahead_rr_eq st id g idx item accR t0 prevR hch' hmR2]
            exact hJ3'
        | none =>
          rw [processLookahead_push_eq st id g idx item accL t0 hch' hmL,
            processLookahead_push_eq st id g idx item accR t0 hch' hmR2]
          refine ih _ _ ?_ ?_ ?_
          · intro t ht
            by_cases he : t = t0
            · subst he
              exact redMapGet_append_self _ _ _
            · rw [show ({ accL with
                  map := accL.map ++ [(t0, idx)],
                  reductions := accL.reductions ++ [⟨t0, item.rule, item.position⟩] } :
                    RedAcc).map = accL.map ++ [(t0, idx)] from rfl,
                redMapGet_append_other accL.map t0 t idx he] at ht
              rw [show ({ accR with
                  map := accR.map ++ [(t0, idx)],
                  reductions := accR.reductions ++ [⟨t0, item.rule, item.position⟩] } :
                    RedAcc).map = accR.map ++ [(t0, idx)] from rfl,
                redMapGet_append_other accR.map t0 t idx he]
              exact hJ1 t ht
          · intro r hr
            rcases List.mem_append.mp hr with h0 | h0
            · obtain ⟨r', hr', hlook, hor⟩ := hJ2 r h0
              exact ⟨r', List.mem_append_left _ hr', hlook, hor⟩
            · have hr0 : r = ⟨t0, item.rule, item.position⟩ := by simpa using h0
              subst hr0
              exact ⟨⟨t0, item.rule, item.position⟩,
                List.mem_append_right _ (by simp), rfl, Or.inl rfl⟩
          · rw [← processLookahead_push_eq st id g idx item accR t0 hch' hmR2]
            exact hJ3'

theorem joint_fold_master (st : State) (id : Nat) (g : Grammar) :
    ∀ (l : List (Nat × Item)) (accL accR : RedAcc),
      (∀ t, redMapGet accL.map t ≠ none → redMapGet accR.map t ≠ none) →
      (∀ r ∈ accL.reductions, ∃ r' ∈ accR.reductions, r'.lookahead = r.lookahead ∧
        (r' = r ∨ ∃ c ∈ accR.conflicts.list, c.kind = ConflictKind.ReduceReduce ∧
          c.lookahead = r.lookahead)) →
      rnglrInv accR →
      (∀ t, redMapGet (l.foldl (lr1Step st id g) accL).map t ≠ none →
        redMapGet (l.foldl (rnglrStep st id g) accR).map t ≠ none) ∧
      (∀ r ∈ (l.foldl (lr1Step st id g) accL).reductions,
        ∃ r' ∈ (l.foldl (rnglrStep st id g) accR).reductions,
          r'.lookahead = r.lookahead ∧
          (r' = r ∨ ∃ c ∈ (l.foldl (rnglrStep st id g) accR).conflicts.list,
            c.kind = ConflictKind.ReduceReduce ∧ c.lookahead = r.lookahead)) ∧
      rnglrInv (l.foldl (rnglrStep st id g) accR) := by
  intro l
  induction l with
  | nil =>
    intro accL accR hJ1 hJ2 hJ3
    exact ⟨hJ1, hJ2, hJ3⟩
  | cons p rest ih =>
    intro accL accR hJ1 hJ2 hJ3
    rw [List.foldl_cons, List.foldl_cons]
    by_cases hp : (p.2).get_action g = some LRActionCode.reduce
    · have hnskip : ¬((p.2).get_action g = some LRActionCode.shift ∧
          ¬ (p.2).nullableAfterDot g) := by
        intro h
        rw [hp] at h
        cases h.1
      rw [lr1Step_reduce st id g accL p hp, rnglrStep_process st id g accR p hnskip]
      obtain ⟨jA, jB, jC⟩ :=
        joint_lookahead_fold st id g p.1 p.2 (p.2).lookaheads.content accL accR
          hJ1 hJ2 hJ3
      exact ih _ _ jA jB jC
    · rw [lr1Step_skip st id g accL p hp]
      by_cases hskip : (p.2).get_action g = some LRActionCode.shift ∧
          ¬ (p.2).nullableAfterDot g
      · rw [rnglrStep_skip st id g accR p hskip]
        exact ih _ _ hJ1 hJ2 hJ3
      · rw [rnglrStep_process st id g accR p hskip]
        obtain ⟨wA, wB, wC, wD⟩ :=
          rnglr_lookahead_fold_weak st id g p.1 p.2 (p.2).lookaheads.content accR hJ3
        refine ih _ _ ?_ ?_ wD
        · intro t ht
          exact wA t (hJ1 t ht)
        · exact refinement_transport wC wB accL.reductions hJ2

/-- C3 (amended): for every state, every reduction produced by the LR(1)
builder has a reduction with the same lookahead produced by the RNGLR(1)
builder, and is either produced identically by RNGLR(1) or turned into a
ReduceReduce conflict at that lookahead (this happens when an earlier item
with a nullable suffix claimed the lookahead first); and any RNGLR(1)
reduction whose length is strictly less than its rule's parts length comes
from a shifting item whose suffix after the dot has epsilon in its FIRST
set. -/
theorem C3_amended_rnglr_refinement (st : State) (id : Nat) (g : Grammar)
    (h0 : st.reductions = []) :
    (∀ r ∈ (st.build_reductions_lr1 id g).1.reductions,
      ∃ r' ∈ (st.build_reductions_rnglr1 id g).1.reductions,
        r'.lookahead = r.lookahead ∧
        (r' = r ∨ ∃ c ∈ (st.build_reductions_rnglr1 id g).2.list,
          c.kind = ConflictKind.ReduceReduce ∧ c.lookahead = r.lookahead)) ∧
    (∀ r ∈ (st.build_reductions_rnglr1 id g).1.reductions,
      ∀ ru : Rule, r.rule.get_rule_in g = some ru →
      ∀ c0 : RuleChoice, ru.body.choices[0]? = some c0 →
      r.length < c0.parts.length →
      ∃ ch : RuleChoice, ru.body.choices[r.length]? = some ch ∧
        TerminalRef.Epsilon ∈ ch.firsts.content) := by
  have hlr1 : (st.build_reductions_lr1 id g).1.reductions =
      (st.items.enum.foldl (lr1Step st id g) ⟨[], ⟨[]⟩, []⟩).reductions := by
    show st.reductions ++ _ = _
    rw [h0]; rfl
  have hrn : (st.build_reductions_rnglr1 id g).1.reductions =
      (st.items.enum.foldl (rnglrStep st id g) ⟨[], ⟨[]⟩, []⟩).reductions := by
    show st.reductions ++ _ = _
    rw [h0]; rfl
  have hrnc : (st.build_reductions_rnglr1 id g).2 =
      (st.items.enum.foldl (rnglrStep st id g) ⟨[], ⟨[]⟩, []⟩).conflicts := rfl
  constructor
  · obtain ⟨_, mB, _⟩ :=
      joint_fold_master st id g st.items.enum ⟨[], ⟨[]⟩, []⟩ ⟨[], ⟨[]⟩, []⟩
        (fun t h => h) (by intro r hr; simp at hr) (fun t h => absurd rfl h)
    rw [hlr1, hrn, hrnc]
    exact mB
  · intro r hr ru hru c0 hc0 hlt
    rw [hrn] at hr
    obtain ⟨it, he1, he2, hsource⟩ :=
      rnglr_fold_reductions_source st id g st.items.enum ⟨[], ⟨[]⟩, []⟩
        (by intro r' hr'; simp at hr') r hr
    have hitrule : it.rule.get_rule_in g = some ru := by rw [← he1]; exact hru
    have hshift : it.get_action g = some LRActionCode.shift := by
      unfold Item.get_action
      rw [hitrule, Option.some_bind, hc0]
      have hn : ¬ c0.parts.length ≤ it.position := by omega
      simp [hn]
    have hnull : it.nullableAfterDot g = true := by
      by_contra hn
      exact hsource ⟨hshift, by simpa using hn⟩
    unfold Item.nullableAfterDot at hnull
    rw [hitrule] at hnull
    simp only [Option.some_bind] at hnull
    rw [← he2] at hnull
    cases hch : ru.body.choices[r.length]? with
    | none => rw [hch] at hnull; simp at hnull
    | some ch =>
      rw [hch] at hnull
      simp only [decide_eq_true_eq] at hnull
      exact ⟨ch, rfl, hnull⟩

/-- C3 (counterexample): on the grammar `demoG3`, the LR(1) builder produces
in state 2 the reduction (lookahead Dollar, rule C -> empty, length 0), whose
length equals its rule's full parts length, but the RNGLR(1) builder on the
same graph does not produce it: the nullable-suffix item S -> x . C claimed
the Dollar lookahead first and the C reduction became a ReduceReduce
conflict. -/
theorem C3_counterexample_full_length_reduction_lost :
    (Reduction.mk TerminalRef.Dollar ⟨22, 0⟩ 0) ∈
      ((build_graph_lr1 32 demoG3).1.states.getD 2 default).reductions ∧
    ((RuleRef.get_rule_in ⟨22, 0⟩ demoG3).map
      (fun ru => (ru.body.choices[0]?).map (fun c => c.parts.length))) =
        some (some 0) ∧
    (Reduction.mk TerminalRef.Dollar ⟨22, 0⟩ 0) ∉
      ((build_graph_rnglr1 32 demoG3).1.states.getD 2 default).reductions := by
  decide

/-- Witness for C3 at a concrete state with one reducing item. -/
theorem C3_witness :
    (∀ r ∈ (demoStateRed.build_reductions_lr1 0 demoG3).1.reductions,
      ∃ r' ∈ (demoStateRed.build_reductions_rnglr1 0 demoG3).1.reductions,
        r'.lookahead = r.lookahead ∧
        (r' = r ∨ ∃ c ∈ (demoStateRed.build_reductions_rnglr1 0 demoG3).2.list,
          c.kind = ConflictKind.ReduceReduce ∧ c.lookahead = r.lookahead)) ∧
    (∀ r ∈ (demoStateRed.build_reductions_rnglr1 0 demoG3).1.reductions,
      ∀ ru : Rule, r.rule.get_rule_in demoG3 = some ru →
      ∀ c0 : RuleChoice, ru.body.choices[0]? = some c0 →
      r.length < c0.parts.length →
      ∃ ch : RuleChoice, ru.body.choices[r.length]? = some ch ∧
        TerminalRef.Epsilon ∈ ch.firsts.content) :=
  C3_amended_rnglr_refinement demoStateRed 0 demoG3 (by decide)

theorem add_item_nodup (k : StateKernel) (it : Item) (h : k.items.Nodup) :
    (k.add_item it).items.Nodup := by
  unfold StateKernel.add_item
  split
  · exact h
  next hmem => exact List.Nodup.append h (by simp) (by simpa using hmem)

theorem shiftsEntriesAdd_nodup (entries : List (SymbolRef × StateKernel))
    (sym : SymbolRef) (child : Item)
    (h : ∀ e ∈ entries, e.2.items.Nodup) :
    ∀ e ∈ shiftsEntriesAdd entries sym child, e.2.items.Nodup := by
  induction entries with
  | nil =>
    intro e he
    simp only [shiftsEntriesAdd] at he
    rcases List.mem_singleton.mp he with h0
    subst h0
    exact add_item_nodup _ _ (by simp)
  | cons e0 rest ih =>
    intro e he
    simp only [shiftsEntriesAdd] at he
    split at he
    · rcases List.mem_cons.mp he with h0 | h0
      · subst h0
        exact add_item_nodup _ _ (h e0 (List.mem_cons_self _ _))
      · exact h e (List.mem_cons_of_mem _ h0)
    · rcases List.mem_cons.mp he with h0 | h0
      · subst h0; exact h e0 (List.mem_cons_self e0 rest)
      · exact ih (fun e' he' => h e' (List.mem_cons_of_mem _ he')) e h0

theorem shiftsEntries_nodup (st : State) (g : Grammar) :
    ∀ e ∈ st.shiftsEntries g, e.2.items.Nodup := by
  unfold State.shiftsEntries
  generalize st.items = l
  have hgen : ∀ (l : List Item) (acc : List (SymbolRef × StateKernel)),
      (∀ e ∈ acc, e.2.items.Nodup) →
      ∀ e ∈ l.foldl (fun acc it =>
        match it.get_next_symbol g with
        | some next => shiftsEntriesAdd acc next it.get_child
        | none => acc) acc, e.2.items.Nodup := by
    intro l
    induction l with
    | nil => intro acc hacc e he; exact hacc e he
    | cons it rest ih =>
      intro acc hacc e he
      rw [List.foldl_cons] at he
      cases hns : it.get_next_symbol g with
      | some next =>
        rw [hns] at he
        exact ih _ (shiftsEntriesAdd_nodup acc next it.get_child hacc) e he
      | none =>
        rw [hns] at he
        exact ih _ hacc e he
  exact hgen l [] (by simp)

/-- Well-formedness of the kernels of a graph: each kernel is duplicate-free
and no later state's kernel equals an earlier one under the kernel
`PartialEq`. -/
def kernelsOK (graph : Graph) : Prop :=
  (∀ st ∈ graph.states, st.kernel.items.Nodup) ∧
  List.Pairwise (fun a b => ¬ a.kernel.kernelEq b.kernel) graph.states

theorem modifyIdx_map (l : List α) (i : Nat) (f : α → α) (p : α → β)
    (h : ∀ x, p (f x) = p x) : (modifyIdx l i f).map p = l.map p := by
  induction l generalizing i with
  | nil => rfl
  | cons x xs ih =>
    cases i with
    | zero => simp [modifyIdx, h]
    | succ n => simp [modifyIdx, ih n]

theorem modifyIdx_mem (l : List α) (i : Nat) (f : α → α) :
    ∀ x ∈ modifyIdx l i f, x ∈ l ∨ ∃ y ∈ l, x = f y := by
  induction l generalizing i with
  | nil => intro x hx; simp [modifyIdx] at hx
  | cons a xs ih =>
    intro x hx
    cases i with
    | zero =>
      rcases List.mem_cons.mp hx with h0 | h0
      · exact Or.inr ⟨a, List.mem_cons_self _ _, h0⟩
      · exact Or.inl (List.mem_cons_of_mem _ h0)
    | succ n =>
      rcases List.mem_cons.mp hx with h0 | h0
      · exact Or.inl (h0 ▸ List.mem_cons_self _ _)
      · rcases ih n x h0 with h1 | ⟨y, hy, hxy⟩
        · exact Or.inl (List.mem_cons_of_mem _ h1)
        · exact Or.inr ⟨y, List.mem_cons_of_mem _ hy, hxy⟩

theorem pairwise_of_map_kernel {graph : Graph} {states' : List State}
    (h : states'.map (fun st => st.kernel) = graph.states.map (fun st => st.kernel))
    (hok : kernelsOK graph) : kernelsOK ⟨states'⟩ := by
  obtain ⟨h1, h2⟩ := hok
  constructor
  · intro st hst
    have : st.kernel ∈ graph.states.map (fun st => st.kernel) := by
      rw [← h]; exact List.mem_map.mpr ⟨st, hst, rfl⟩
    obtain ⟨st', hst', heq⟩ := List.mem_map.mp this
    rw [← heq]
    exact h1 st' hst'
  · have hp : List.Pairwise (fun a b => ¬ StateKernel.kernelEq a b)
        (graph.states.map (fun st => st.kernel)) :=
      (List.pairwise_map).mpr h2
    rw [← h] at hp
    have := (List.pairwise_map).mp hp
    exact this

theorem updateState_kernelsOK (graph : Graph) (i : Nat) (f : State → State)
    (hf : ∀ st, (f st).kernel = st.kernel) (hok : kernelsOK graph) :
    kernelsOK (graph.updateState i f) := by
  refine pairwise_of_map_kernel ?_ hok
  exact modifyIdx_map graph.states i f (fun st => st.kernel) hf

theorem into_state_kernel (k : StateKernel) (fuel : Nat) (g : Grammar)
    (mode : LookaheadMode) : (k.into_state fuel g mode).kernel = k := rfl

theorem get_state_for_none (graph : Graph) (kernel : StateKernel)
    (h : graph.get_state_for kernel = none) :
    ∀ st ∈ graph.states, ¬ st.kernel.kernelEq kernel := by
  intro st hst
  have h' := List.findIdx?_eq_none_iff.mp h st hst
  simpa using h'

theorem processShift_kernelsOK (g : Grammar) (mode : LookaheadMode) (cfuel : Nat)
    (state_id : Nat) (graph : Graph) (entry : SymbolRef × StateKernel)
    (hok : kernelsOK graph) (hent : entry.2.items.Nodup) :
    kernelsOK (Graph.processShift g mode cfuel state_id graph entry) := by
  unfold Graph.processShift
  cases hgs : graph.get_state_for entry.2 with
  | some ci =>
    exact updateState_kernelsOK _ _ _ (fun st => rfl) hok
  | none =>
    have hbig : kernelsOK (⟨graph.states ++ [entry.2.into_state cfuel g mode]⟩ : Graph) := by
      constructor
      · intro st hst
        rcases List.mem_append.mp hst with h0 | h0
        · exact hok.1 st h0
        · have : st = entry.2.into_state cfuel g mode := by simpa using h0
          subst this
          rw [into_state_kernel]
          exact hent
      · rw [List.pairwise_append]
        refine ⟨hok.2, by simp, ?_⟩
        intro a ha b hb
        have hb' : b = entry.2.into_state cfuel g mode := by simpa using hb
        subst hb'
        rw [into_state_kernel]
        exact get_state_for_none graph entry.2 hgs a ha
    exact updateState_kernelsOK ⟨graph.states ++ [entry.2.into_state cfuel g mode]⟩
      state_id _ (fun st => rfl) hbig

theorem processShift_fold_kernelsOK (g : Grammar) (mode : LookaheadMode)
    (cfuel : Nat) (state_id : Nat) :
    ∀ (entries : List (SymbolRef × StateKernel)) (graph : Graph),
      kernelsOK graph → (∀ e ∈ entries, e.2.items.Nodup) →
      kernelsOK (entries.foldl (Graph.processShift g mode cfuel state_id) graph) := by
  intro entries
  induction entries with
  | nil => intro graph hok _; exact hok
  | cons e rest ih =>
    intro graph hok hent
    rw [List.foldl_cons]
    exact ih _ (processShift_kernelsOK g mode cfuel state_id graph e hok
        (hent e (List.mem_cons_self _ _)))
      (fun e' he' => hent e' (List.mem_cons_of_mem _ he'))

theorem foldl_preserves_kernel {β : Type} (f : State → β → State)
    (hf : ∀ st x, (f st x).kernel = st.kernel) :
    ∀ (l : List β) (st : State), (l.foldl f st).kernel = st.kernel := by
  intro l
  induction l with
  | nil => intro st; rfl
  | cons x xs ih => intro st; rw [List.foldl_cons, ih, hf]

theorem build_at_state_with_eq
    (ord : List (SymbolRef × StateKernel) → List (SymbolRef × StateKernel))
    (g : Grammar) (mode : LookaheadMode) (cfuel : Nat) (graph : Graph)
    (state_id : Nat) :
    Graph.build_at_state_with ord g mode cfuel graph state_id =
      ((ord ((graph.states.getD state_id default).shiftsEntries g)).foldl
        (Graph.processShift g mode cfuel state_id) graph).updateState state_id
        (fun st1 => st1.items.foldl (fun st2 it =>
          match it.get_opened_context g with
          | some c => (openingTerminalsOf it g).content.foldl (fun st3 t =>
              { st3 with opening_contexts := contextsAdd st3.opening_contexts t c }) st2
          | none => st2) st1) := rfl

theorem build_at_state_kernelsOK (g : Grammar) (mode : LookaheadMode)
    (cfuel : Nat) (graph : Graph) (state_id : Nat) (hok : kernelsOK graph) :
    kernelsOK (Graph.build_at_state g mode cfuel graph state_id) := by
  unfold Graph.build_at_state
  rw [build_at_state_with_eq]
  apply updateState_kernelsOK
  · intro st1
    apply foldl_preserves_kernel
    intro st2 it
    cases it.get_opened_context g with
    | some c =>
      simp only []
      apply foldl_preserves_kernel
      intro st3 t
      rfl
    | none => rfl
  · exact processShift_fold_kernelsOK g mode cfuel state_id _ graph hok
      (shiftsEntries_nodup _ g)

theorem buildLoop_kernelsOK (g : Grammar) (mode : LookaheadMode) (cfuel : Nat) :
    ∀ (fuel i : Nat) (graph : Graph), kernelsOK graph →
      kernelsOK (Graph.buildLoopWith id g mode cfuel fuel i graph) := by
  intro fuel
  induction fuel with
  | zero => intro i graph h; exact h
  | succ n ih =>
    intro i graph h
    unfold Graph.buildLoopWith
    split
    · exact ih (i + 1) _ (build_at_state_kernelsOK g mode cfuel graph i h)
    · exact h

theorem kernelEq_symm_of_nodup {a b : StateKernel} (ha : a.items.Nodup)
    (hab : a.kernelEq b) : b.kernelEq a := by
  obtain ⟨hlen, hsub⟩ := hab
  have hsp : a.items.Subperm b.items := ha.subperm (fun x hx => hsub x hx)
  have hperm : a.items.Perm b.items := hsp.perm_of_length_le (le_of_eq hlen.symm)
  exact ⟨hlen.symm, fun it hit => hperm.symm.subset hit⟩

/-- C7 (amended): kernel uniqueness holds for every graph produced by the
incremental `Graph::from` construction — methods LR0, LR1, RNGLR1 and the
LR(0) skeleton of the LALR methods — whenever the initial state's kernel has
no duplicate items: distinct states of such a graph never have kernels equal
under the kernel `PartialEq`.  The LALR(1) finalization, in contrast, can
produce distinct states with equal kernels (see the counterexample). -/
theorem C7_amended_kernel_uniqueness_incremental (fuel : Nat) (st0 : State)
    (g : Grammar) (mode : LookaheadMode) (h : st0.kernel.items.Nodup)
    (i j : Nat) (hi : i < (Graph.fromState fuel st0 g mode).states.length)
    (hj : j < (Graph.fromState fuel st0 g mode).states.length) (hij : i ≠ j) :
    ¬ ((Graph.fromState fuel st0 g mode).states.getD i default).kernel.kernelEq
      ((Graph.fromState fuel st0 g mode).states.getD j default).kernel := by
  have hok : kernelsOK (Graph.fromState fuel st0 g mode) := by
    unfold Graph.fromState Graph.fromStateWith
    apply buildLoop_kernelsOK
    constructor
    · intro st hst
      have : st = st0 := by simpa using hst
      subst this; exact h
    · simp
  have hpair := List.pairwise_iff_get.mp hok.2
  have hgetD : ∀ (k : Nat) (hk : k < (Graph.fromState fuel st0 g mode).states.length),
      (Graph.fromState fuel st0 g mode).states.getD k default =
        (Graph.fromState fuel st0 g mode).states.get ⟨k, hk⟩ := by
    intro k hk
    rw [List.getD_eq_getElem _ _ hk]
    rfl
  rcases Nat.lt_or_ge i j with hlt | hge
  · rw [hgetD i hi, hgetD j hj]
    exact hpair ⟨i, hi⟩ ⟨j, hj⟩ hlt
  · have hlt : j < i := Nat.lt_of_le_of_ne hge (Ne.symm hij)
    intro heq
    have hnd : ((Graph.fromState fuel st0 g mode).states.getD i default).kernel.items.Nodup := by
      apply hok.1
      rw [hgetD i hi]
      exact List.get_mem _ _ hi
    have hsymm := kernelEq_symm_of_nodup hnd heq
    rw [hgetD i hi, hgetD j hj] at hsymm
    exact hpair ⟨j, hj⟩ ⟨i, hi⟩ hlt hsymm

/-- Witness for C7 (amended) at the LR(0) construction of `demoG1`. -/
theorem C7_witness :
    ¬ ((Graph.fromState 10 demoState1 demoG1 LookaheadMode.LR0).states.getD 0
        default).kernel.kernelEq
      ((Graph.fromState 10 demoState1 demoG1 LookaheadMode.LR0).states.getD 1
        default).kernel :=
  C7_amended_kernel_uniqueness_incremental 10 demoState1 demoG1 LookaheadMode.LR0
    (by decide) 0 1 (by decide) (by decide) (by decide)

/-- C7 (counterexample): under the LALR(1) method on `demoG7`, the graph
returned by build_graph has two distinct states (indices 6 and 9) whose
kernels are equal under the kernel `PartialEq`: both finalize to
[V -> x . , {a, b}], [V -> x . , {}] because the lookahead machinery only
targets the first kernel item with a given core. -/
theorem C7_counterexample_lalr1_duplicate_kernels :
    (6 : Nat) ≠ 9 ∧
    6 < (build_graph 32 demoG7 ParsingMethod.LALR1).1.states.length ∧
    9 < (build_graph 32 demoG7 ParsingMethod.LALR1).1.states.length ∧
    StateKernel.kernelEq
      ((build_graph 32 demoG7 ParsingMethod.LALR1).1.states.getD 6 default).kernel
      ((build_graph 32 demoG7 ParsingMethod.LALR1).1.states.getD 9 default).kernel := by
  decide

theorem TerminalSet.mem_add (s : TerminalSet) (t' t : TerminalRef) :
    t ∈ (s.add t').content ↔ t ∈ s.content ∨ t = t' := by
  unfold TerminalSet.add
  split
  next hmem =>
    constructor
    · exact fun h => Or.inl h
    · rintro (h | h)
      · exact h
      · subst h; exact hmem
  next hmem => simp [List.mem_append]

theorem TerminalSet.mem_add_others (b : TerminalSet) :
    ∀ (a : TerminalSet) (t : TerminalRef),
      t ∈ (a.add_others b).content ↔ t ∈ a.content ∨ t ∈ b.content := by
  unfold TerminalSet.add_others
  generalize b.content = l
  induction l with
  | nil => intro a t; simp
  | cons x xs ih =>
    intro a t
    rw [List.foldl_cons]
    rw [ih]
    rw [TerminalSet.mem_add]
    constructor
    · rintro ((h | h) | h)
      · exact Or.inl h
      · exact Or.inr (h ▸ List.mem_cons_self _ _)
      · exact Or.inr (List.mem_cons_of_mem _ h)
    · rintro (h | h)
      · exact Or.inl (Or.inl h)
      · rcases List.mem_cons.mp h with h0 | h0
        · exact Or.inl (Or.inr h0)
        · exact Or.inr h0

theorem findIdx_eraseIdx_erase (a : TerminalRef) :
    ∀ (l : List TerminalRef),
      (l.findIdx? (fun x => decide (x = a)) = none → a ∉ l) ∧
      (∀ i, l.findIdx? (fun x => decide (x = a)) = some i →
        a ∈ l ∧ l.eraseIdx i = l.erase a) := by
  intro l
  induction l with
  | nil =>
    constructor
    · intro _; simp
    · intro i h; simp [List.findIdx?] at h
  | cons x xs ih =>
    by_cases h : x = a
    · subst h
      constructor
      · intro hn
        rw [List.findIdx?_cons] at hn
        simp at hn
      · intro i hi
        rw [List.findIdx?_cons] at hi
        simp at hi
        subst hi
        refine ⟨List.mem_cons_self _ _, ?_⟩
        simp [List.eraseIdx, List.erase_cons]
    · have hc : List.findIdx? (fun y => decide (y = a)) (x :: xs) =
          (List.findIdx? (fun y => decide (y = a)) xs).map (· + 1) := by
        rw [List.findIdx?_cons, if_neg (by simp [h]), List.findIdx?_succ]
      constructor
      · intro hn hmem
        rw [hc] at hn
        have hnone : List.findIdx? (fun y => decide (y = a)) xs = none := by
          cases hx : List.findIdx? (fun y => decide (y = a)) xs with
          | none => rfl
          | some j => rw [hx] at hn; simp at hn
        rcases List.mem_cons.mp hmem with h0 | h0
        · exact h h0.symm
        · exact (ih.1 hnone) h0
      · intro i hi
        rw [hc] at hi
        cases hx : List.findIdx? (fun y => decide (y = a)) xs with
        | none => rw [hx] at hi; simp at hi
        | some j =>
          rw [hx] at hi
          simp at hi
          obtain ⟨hmem, herase⟩ := ih.2 j hx
          refine ⟨List.mem_cons_of_mem _ hmem, ?_⟩
          rw [← hi]
          simp [List.eraseIdx, List.erase_cons, h, herase]

theorem closeFirsts_eq (it : Item) (choice : RuleChoice) :
    it.closeFirsts choice =
      if TerminalRef.Epsilon ∈ choice.firsts.content
      then TerminalSet.add_others ⟨choice.firsts.content.erase TerminalRef.Epsilon⟩
        it.lookaheads
      else choice.firsts := by
  unfold Item.closeFirsts
  cases hf : choice.firsts.content.findIdx?
      (fun x => decide (x = TerminalRef.Epsilon)) with
  | none =>
    rw [if_neg ((findIdx_eraseIdx_erase _ _).1 hf)]
  | some i =>
    obtain ⟨hmem, herase⟩ := (findIdx_eraseIdx_erase _ _).2 i hf
    rw [if_pos hmem]
    exact congrArg (fun l => TerminalSet.add_others ⟨l⟩ it.lookaheads) herase

theorem mem_pushIfNew [DecidableEq α] (l : List α) (c x : α) :
    x ∈ pushIfNew l c ↔ x ∈ l ∨ x = c := by
  unfold pushIfNew
  split
  next hmem =>
    constructor
    · exact Or.inl
    · rintro (h | h)
      · exact h
      · exact h ▸ hmem
  next hmem => simp [List.mem_append]

theorem mem_foldl_pushIfNew [DecidableEq α] (f : β → α) :
    ∀ (L : List β) (l : List α) (x : α),
      x ∈ L.foldl (fun acc b => pushIfNew acc (f b)) l ↔ x ∈ l ∨ ∃ b ∈ L, x = f b := by
  intro L
  induction L with
  | nil => intro l x; simp
  | cons b L2 ih =>
    intro l x
    rw [List.foldl_cons, ih, mem_pushIfNew]
    constructor
    · rintro ((h | h) | ⟨b2, hb2, he⟩)
      · exact Or.inl h
      · exact Or.inr ⟨b, List.mem_cons_self _ _, h⟩
      · exact Or.inr ⟨b2, List.mem_cons_of_mem _ hb2, he⟩
    · rintro (h | ⟨b2, hb2, he⟩)
      · exact Or.inl (Or.inl h)
      · rcases List.mem_cons.mp hb2 with h0 | h0
        · exact Or.inl (Or.inr (h0 ▸ he))
        · exact Or.inr ⟨b2, h0, he⟩

theorem mem_foldl_step_iff {α β : Type} (step : List α → β → List α) (Q : β → α → Prop)
    (hstep : ∀ cl b x, x ∈ step cl b ↔ x ∈ cl ∨ Q b x) :
    ∀ (L : List β) (l : List α) (x : α),
      x ∈ L.foldl step l ↔ x ∈ l ∨ ∃ b ∈ L, Q b x := by
  intro L
  induction L with
  | nil => intro l x; simp
  | cons b L2 ih =>
    intro l x
    rw [List.foldl_cons, ih, hstep]
    constructor
    · rintro ((h | h) | ⟨b2, hb2, hq⟩)
      · exact Or.inl h
      · exact Or.inr ⟨b, List.mem_cons_self _ _, h⟩
      · exact Or.inr ⟨b2, List.mem_cons_of_mem _ hb2, hq⟩
    · rintro (h | ⟨b2, hb2, hq⟩)
      · exact Or.inl (Or.inl h)
      · rcases List.mem_cons.mp hb2 with h0 | h0
        · exact Or.inl (Or.inr (h0 ▸ hq))
        · exact Or.inr ⟨b2, h0, hq⟩

theorem pushIfNew_nodup [DecidableEq α] (l : List α) (x : α) (h : l.Nodup) :
    (pushIfNew l x).Nodup := by
  unfold pushIfNew
  split
  · exact h
  next hmem => exact List.Nodup.append h (by simp) (by simpa using hmem)

theorem foldl_nodup_preserve {α β : Type} (step : List α → β → List α)
    (h : ∀ cl b, cl.Nodup → (step cl b).Nodup) :
    ∀ (L : List β) (l : List α), l.Nodup → (L.foldl step l).Nodup := by
  intro L
  induction L with
  | nil => intro l hl; exact hl
  | cons b L2 ih =>
    intro l hl
    rw [List.foldl_cons]
    exact ih _ (h l b hl)

/-- `y` extends `x`: same rule and position, and lookaheads that contain all of
the lookaheads of `x` (how LALR(1) closure merging grows an item). -/
def itemExt (x y : Item) : Prop :=
  y.rule = x.rule ∧ y.position = x.position ∧
    ∀ t ∈ x.lookaheads.content, t ∈ y.lookaheads.content

theorem itemExt_refl (x : Item) : itemExt x x :=
  ⟨rfl, rfl, fun _ ht => ht⟩

theorem itemExt_trans {x y z : Item} (h1 : itemExt x y) (h2 : itemExt y z) :
    itemExt x z :=
  ⟨h2.1.trans h1.1, h2.2.1.trans h1.2.1, fun t ht => h2.2.2 t (h1.2.2 t ht)⟩

theorem closeLALR1Add_preserves (c : Item) :
    ∀ (closure : List Item), ∀ x ∈ closure,
      ∃ y ∈ closeLALR1Add closure c, itemExt x y := by
  intro closure
  induction closure with
  | nil => intro x hx; simp at hx
  | cons z rest ih =>
    intro x hx
    simp only [closeLALR1Add]
    by_cases hsb : z.same_base c
    · rw [if_pos hsb]
      rcases List.mem_cons.mp hx with h0 | h0
      · subst h0
        refine ⟨{ x with lookaheads := x.lookaheads.add_others c.lookaheads },
          List.mem_cons_self _ _, ?_⟩
        exact ⟨rfl, rfl, fun t ht => (TerminalSet.mem_add_others _ _ _).2 (Or.inl ht)⟩
      · exact ⟨x, List.mem_cons_of_mem _ h0, itemExt_refl x⟩
    · rw [if_neg hsb]
      rcases List.mem_cons.mp hx with h0 | h0
      · exact ⟨x, h0 ▸ List.mem_cons_self _ _, itemExt_refl x⟩
      · obtain ⟨y, hy, he⟩ := ih x h0
        exact ⟨y, List.mem_cons_of_mem _ hy, he⟩

theorem closeLALR1Add_candidate (c : Item) :
    ∀ (closure : List Item), ∃ y ∈ closeLALR1Add closure c, itemExt c y := by
  intro closure
  induction closure with
  | nil => exact ⟨c, List.mem_singleton.mpr rfl, itemExt_refl c⟩
  | cons z rest ih =>
    simp only [closeLALR1Add]
    by_cases hsb : z.same_base c
    · rw [if_pos hsb]
      refine ⟨{ z with lookaheads := z.lookaheads.add_others c.lookaheads },
        List.mem_cons_self _ _, ?_⟩
      exact ⟨hsb.1, hsb.2, fun t ht => (TerminalSet.mem_add_others _ _ _).2 (Or.inr ht)⟩
    · rw [if_neg hsb]
      obtain ⟨y, hy, he⟩ := ih
      exact ⟨y, List.mem_cons_of_mem _ hy, he⟩

theorem closeLALR1Add_source (c : Item) :
    ∀ (closure : List Item), ∀ y ∈ closeLALR1Add closure c,
      (∃ x ∈ closure, itemExt x y) ∨ y = c := by
  intro closure
  induction closure with
  | nil =>
    intro y hy
    simp only [closeLALR1Add] at hy
    exact Or.inr (List.mem_singleton.mp hy)
  | cons z rest ih =>
    intro y hy
    simp only [closeLALR1Add] at hy
    by_cases hsb : z.same_base c
    · rw [if_pos hsb] at hy
      rcases List.mem_cons.mp hy with h0 | h0
      · refine Or.inl ⟨z, List.mem_cons_self _ _, ?_⟩
        subst h0
        exact ⟨rfl, rfl, fun t ht => (TerminalSet.mem_add_others _ _ _).2 (Or.inl ht)⟩
      · exact Or.inl ⟨y, List.mem_cons_of_mem _ h0, itemExt_refl y⟩
    · rw [if_neg hsb] at hy
      rcases List.mem_cons.mp hy with h0 | h0
      · exact Or.inl ⟨z, List.mem_cons_self _ _, h0 ▸ itemExt_refl z⟩
      · rcases ih y h0 with ⟨x, hx, he⟩ | h
        · exact Or.inl ⟨x, List.mem_cons_of_mem _ hx, he⟩
        · exact Or.inr h

theorem closeLALR1Add_append :
    ∀ (closure : List Item) (c : Item), (∀ x ∈ closure, ¬ x.same_base c) →
      closeLALR1Add closure c = closure ++ [c] := by
  intro closure
  induction closure with
  | nil => intro c _; rfl
  | cons z rest ih =>
    intro c h
    simp only [closeLALR1Add]
    rw [if_neg (h z (List.mem_cons_self _ _))]
    rw [ih c (fun x hx => h x (List.mem_cons_of_mem _ hx))]
    simp

theorem closeLALR1Add_merge_length :
    ∀ (closure : List Item) (c : Item), (∃ x ∈ closure, x.same_base c) →
      (closeLALR1Add closure c).length = closure.length := by
  intro closure
  induction closure with
  | nil => rintro c ⟨x, hx, _⟩; simp at hx
  | cons z rest ih =>
    rintro c ⟨x, hx, hsb⟩
    simp only [closeLALR1Add]
    by_cases hz : z.same_base c
    · rw [if_pos hz]; simp
    · rw [if_neg hz]
      rcases List.mem_cons.mp hx with h0 | h0
      · exact absurd (h0 ▸ hsb) hz
      · simp [ih c ⟨x, h0, hsb⟩]

theorem lalr_fold_facts (sid : Nat) (F : TerminalSet) :
    ∀ (idxs : List Nat) (closure : List Item),
      (∀ x ∈ closure,
        ∃ y ∈ idxs.foldl
          (fun cl index => closeLALR1Add cl ⟨⟨sid, index⟩, 0, F⟩) closure,
          itemExt x y) ∧
      (∀ idx ∈ idxs,
        ∃ y ∈ idxs.foldl
          (fun cl index => closeLALR1Add cl ⟨⟨sid, index⟩, 0, F⟩) closure,
          itemExt ⟨⟨sid, idx⟩, 0, F⟩ y) ∧
      (∀ y ∈ idxs.foldl
          (fun cl index => closeLALR1Add cl ⟨⟨sid, index⟩, 0, F⟩) closure,
        (∃ x ∈ closure, itemExt x y) ∨
          ∃ idx ∈ idxs, itemExt ⟨⟨sid, idx⟩, 0, F⟩ y) := by
  intro idxs
  induction idxs with
  | nil =>
    intro closure
    refine ⟨fun x hx => ⟨x, hx, itemExt_refl x⟩, by simp, ?_⟩
    intro y hy
    exact Or.inl ⟨y, hy, itemExt_refl y⟩
  | cons i rest ih =>
    intro closure
    simp only [List.foldl_cons]
    obtain ⟨ih1, ih2, ih3⟩ := ih (closeLALR1Add closure ⟨⟨sid, i⟩, 0, F⟩)
    refine ⟨?_, ?_, ?_⟩
    · intro x hx
      obtain ⟨y, hy, he⟩ := closeLALR1Add_preserves _ closure x hx
      obtain ⟨z, hz, he2⟩ := ih1 y hy
      exact ⟨z, hz, itemExt_trans he he2⟩
    · intro idx hidx
      rcases List.mem_cons.mp hidx with h0 | h0
      · subst h0
        obtain ⟨y, hy, he⟩ := closeLALR1Add_candidate ⟨⟨sid, idx⟩, 0, F⟩ closure
        obtain ⟨z, hz, he2⟩ := ih1 y hy
        exact ⟨z, hz, itemExt_trans he he2⟩
      · exact ih2 idx h0
    · intro y hy
      rcases ih3 y hy with ⟨x, hx, he⟩ | ⟨idx, hidx, he⟩
      · rcases closeLALR1Add_source _ closure x hx with ⟨x0, hx0, he0⟩ | h
        · exact Or.inl ⟨x0, hx0, itemExt_trans he0 he⟩
        · exact Or.inr ⟨i, List.mem_cons_self _ _, h ▸ he⟩
      · exact Or.inr ⟨idx, List.mem_cons_of_mem _ hidx, he⟩

theorem close_to_eq_of (it : Item) (g : Grammar) (closure : List Item)
    (mode : LookaheadMode) (sid : Nat) (v : GrammarVariable) (choice : RuleChoice)
    (hns : it.get_next_symbol g = some (SymbolRef.Variable sid))
    (hch : it.get_next_choice g = some choice)
    (hv : g.get_variable sid = some v) :
    it.close_to g closure mode =
      (List.range v.rules.length).foldl (fun cl index =>
        match mode with
        | LookaheadMode.LR0 => pushIfNew cl ⟨⟨sid, index⟩, 0, it.closeFirsts choice⟩
        | LookaheadMode.LR1 =>
          (it.closeFirsts choice).content.foldl
            (fun cl2 t => pushIfNew cl2 ⟨⟨sid, index⟩, 0, ⟨[t]⟩⟩) cl
        | LookaheadMode.LALR1 =>
          closeLALR1Add cl ⟨⟨sid, index⟩, 0, it.closeFirsts choice⟩) closure := by
  unfold Item.close_to
  simp only [hns, hch, hv]
  cases mode <;> rfl

/-- C6: for an item whose next symbol is a variable, `close_to` computes the
candidate lookahead set from the FIRST set of the suffix (removing epsilon and
unioning the item's own lookaheads exactly when epsilon is present); in LR1
mode the closure gains exactly the singleton-lookahead candidates for each rule
of the variable and each terminal of that set, with no duplicate items; in
LALR1 mode every closure item survives with its base intact and possibly grown
lookaheads, every candidate is represented by a same-base item absorbing its
lookaheads, nothing else appears, and a single LALR1 step appends its candidate
when no same-base item exists and otherwise merges without changing the length. -/
theorem C6_close_to_firsts_and_modes (it : Item) (g : Grammar) (closure : List Item)
    (sid : Nat) (v : GrammarVariable) (choice : RuleChoice)
    (hns : it.get_next_symbol g = some (SymbolRef.Variable sid))
    (hch : it.get_next_choice g = some choice)
    (hv : g.get_variable sid = some v) :
    (∀ t, t ∈ (it.closeFirsts choice).content ↔
      (if TerminalRef.Epsilon ∈ choice.firsts.content
       then t ∈ choice.firsts.content.erase TerminalRef.Epsilon ∨
         t ∈ it.lookaheads.content
       else t ∈ choice.firsts.content)) ∧
    (∀ x, x ∈ it.close_to g closure LookaheadMode.LR1 ↔
      x ∈ closure ∨ ∃ idx, idx < v.rules.length ∧
        ∃ t ∈ (it.closeFirsts choice).content, x = ⟨⟨sid, idx⟩, 0, ⟨[t]⟩⟩) ∧
    (closure.Nodup → (it.close_to g closure LookaheadMode.LR1).Nodup) ∧
    (∀ x ∈ closure, ∃ y ∈ it.close_to g closure LookaheadMode.LALR1, itemExt x y) ∧
    (∀ idx, idx < v.rules.length →
      ∃ y ∈ it.close_to g closure LookaheadMode.LALR1,
        itemExt ⟨⟨sid, idx⟩, 0, it.closeFirsts choice⟩ y) ∧
    (∀ y ∈ it.close_to g closure LookaheadMode.LALR1,
      (∃ x ∈ closure, itemExt x y) ∨
        ∃ idx, idx < v.rules.length ∧
          itemExt ⟨⟨sid, idx⟩, 0, it.closeFirsts choice⟩ y) ∧
    (∀ (cl : List Item) (c : Item),
      ((∀ x ∈ cl, ¬ x.same_base c) → closeLALR1Add cl c = cl ++ [c]) ∧
      ((∃ x ∈ cl, x.same_base c) → (closeLALR1Add cl c).length = cl.length)) := by
  have hLR1 : it.close_to g closure LookaheadMode.LR1 =
      (List.range v.rules.length).foldl
        (fun cl index => (it.closeFirsts choice).content.foldl
          (fun cl2 t => pushIfNew cl2 ⟨⟨sid, index⟩, 0, ⟨[t]⟩⟩) cl) closure :=
    close_to_eq_of it g closure LookaheadMode.LR1 sid v choice hns hch hv
  have hLALR : it.close_to g closure LookaheadMode.LALR1 =
      (List.range v.rules.length).foldl
        (fun cl index => closeLALR1Add cl ⟨⟨sid, index⟩, 0, it.closeFirsts choice⟩)
        closure :=
    close_to_eq_of it g closure LookaheadMode.LALR1 sid v choice hns hch hv
  obtain ⟨f1, f2, f3⟩ := lalr_fold_facts sid (it.closeFirsts choice)
    (List.range v.rules.length) closure
  refine ⟨?_, ?_, ?_, ?_, ?_, ?_, ?_⟩
  · intro t
    rw [closeFirsts_eq]
    by_cases he : TerminalRef.Epsilon ∈ choice.firsts.content
    · simp only [if_pos he]
      exact TerminalSet.mem_add_others it.lookaheads _ t
    · simp only [if_neg he]
  · intro x
    rw [hLR1]
    rw [mem_foldl_step_iff _
      (fun index y => ∃ t ∈ (it.closeFirsts choice).content,
        y = ⟨⟨sid, index⟩, 0, ⟨[t]⟩⟩)
      (fun cl b y =>
        mem_foldl_pushIfNew (fun t => (⟨⟨sid, b⟩, 0, ⟨[t]⟩⟩ : Item)) _ cl y)]
    simp only [List.mem_range]
  · intro hnd
    rw [hLR1]
    refine foldl_nodup_preserve _ ?_ _ _ hnd
    intro cl b hcl
    exact foldl_nodup_preserve _ (fun cl2 t h2 => pushIfNew_nodup _ _ h2) _ _ hcl
  · intro x hx
    rw [hLALR]
    exact f1 x hx
  · intro idx hidx
    rw [hLALR]
    exact f2 idx (List.mem_range.mpr hidx)
  · intro y
    rw [hLALR]
    intro hy
    rcases f3 y hy with h | ⟨idx, hidx, he⟩
    · exact Or.inl h
    · exact Or.inr ⟨idx, List.mem_range.mp hidx, he⟩
  · intro cl c
    exact ⟨closeLALR1Add_append cl c, closeLALR1Add_merge_length cl c⟩

/-- The axiom item of `demoG1` with a dollar lookahead, used to exercise the
closure characterization. -/
def demoC6Item : Item := ⟨⟨0, 0⟩, 0, ⟨[TerminalRef.Dollar]⟩⟩

/-- The suffix choice after the next variable of `demoC6Item` in `demoG1`. -/
def demoC6Choice : RuleChoice := ⟨[], ⟨[TerminalRef.Epsilon]⟩⟩

/-- The variable `S` of `demoG1`. -/
def demoC6Var : GrammarVariable :=
  ⟨1, "S", ⟨[TerminalRef.Terminal 1, TerminalRef.Terminal 2]⟩,
    [⟨⟨[⟨[SymbolRef.Terminal 1], ⟨[TerminalRef.Terminal 1]⟩⟩,
        ⟨[], ⟨[TerminalRef.Epsilon]⟩⟩]⟩, 0⟩,
     ⟨⟨[⟨[SymbolRef.Terminal 2], ⟨[TerminalRef.Terminal 2]⟩⟩,
        ⟨[], ⟨[TerminalRef.Epsilon]⟩⟩]⟩, 0⟩]⟩

theorem C6_witness :
    demoC6Item.get_next_symbol demoG1 = some (SymbolRef.Variable 1) ∧
    demoC6Item.get_next_choice demoG1 = some demoC6Choice ∧
    demoG1.get_variable 1 = some demoC6Var ∧
    (∀ x, x ∈ demoC6Item.close_to demoG1 [] LookaheadMode.LR1 ↔
      x ∈ ([] : List Item) ∨ ∃ idx, idx < demoC6Var.rules.length ∧
        ∃ t ∈ (demoC6Item.closeFirsts demoC6Choice).content,
          x = ⟨⟨1, idx⟩, 0, ⟨[t]⟩⟩) :=
  ⟨by decide, by decide, by decide,
    (C6_close_to_firsts_and_modes demoC6Item demoG1 [] 1 demoC6Var demoC6Choice
      (by decide) (by decide) (by decide)).2.1⟩

theorem countP_le_of_imp {α : Type u_1} (p q : α → Bool) :
    ∀ (l : List α), (∀ x ∈ l, p x = true → q x = true) →
      l.countP p ≤ l.countP q := by
  intro l
  induction l with
  | nil => intro _; simp
  | cons a l2 ih =>
    intro h
    rw [List.countP_cons, List.countP_cons]
    have h2 := ih (fun x hx => h x (List.mem_cons_of_mem _ hx))
    by_cases hp : p a = true
    · rw [if_pos hp, if_pos (h a (List.mem_cons_self _ _) hp)]
      omega
    · rw [if_neg hp]
      split <;> omega

theorem countP_lt_of_witness {α : Type u_1} (p q : α → Bool) :
    ∀ (l : List α) (a : α), a ∈ l → p a = false → q a = true →
      (∀ x ∈ l, p x = true → q x = true) →
      l.countP p < l.countP q := by
  intro l
  induction l with
  | nil => intro a ha; simp at ha
  | cons b l2 ih =>
    intro a ha hp hq h
    rw [List.countP_cons, List.countP_cons]
    have hle := countP_le_of_imp p q l2 (fun x hx => h x (List.mem_cons_of_mem _ hx))
    rcases List.mem_cons.mp ha with h0 | h0
    · subst h0
      rw [if_neg (by simp [hp]), if_pos hq]
      omega
    · have hlt := ih a h0 hp hq (fun x hx => h x (List.mem_cons_of_mem _ hx))
      by_cases hb : p b = true
      · rw [if_pos hb, if_pos (h b (List.mem_cons_self _ _) hb)]
        omega
      · rw [if_neg hb]
        split <;> omega

/-- The number of pool elements not yet present in the working list. -/
def missingCount [DecidableEq α] (pool cl : List α) : Nat :=
  pool.countP (fun x => !decide (x ∈ cl))

/-- The termination measure for a saturating list: current length plus the
number of pool elements still missing. -/
def poolMeasure [DecidableEq α] (pool cl : List α) : Nat :=
  cl.length + missingCount pool cl

theorem poolMeasure_pushIfNew [DecidableEq α] (pool cl : List α) (c : α)
    (hc : c ∈ pool) : poolMeasure pool (pushIfNew cl c) ≤ poolMeasure pool cl := by
  unfold pushIfNew
  split
  · exact Nat.le_refl _
  next hmem =>
    have hlt : missingCount pool (cl ++ [c]) < missingCount pool cl := by
      unfold missingCount
      refine countP_lt_of_witness _ _ pool c hc ?_ ?_ ?_
      · simp
      · simpa using hmem
      · intro x hx hnx
        simp only [Bool.not_eq_eq_eq_not, Bool.not_true, decide_eq_false_iff_not] at hnx ⊢
        intro hxc
        exact hnx (List.mem_append_left _ hxc)
    unfold poolMeasure
    simp only [List.length_append, List.length_singleton]
    omega

theorem length_le_poolMeasure [DecidableEq α] (pool cl : List α) :
    cl.length ≤ poolMeasure pool cl := Nat.le_add_right _ _

theorem mem_of_getElem_opt {α : Type} {l : List α} {i : Nat} {a : α}
    (h : l[i]? = some a) : a ∈ l := by
  rcases List.getElem?_eq_some.mp h with ⟨hi, he⟩
  exact he ▸ List.getElem_mem hi

theorem TerminalSet.add_nodup (s : TerminalSet) (t : TerminalRef)
    (h : s.content.Nodup) : ((s.add t).content).Nodup := by
  unfold TerminalSet.add
  split
  · exact h
  next hm => exact List.Nodup.append h (by simp) (by simpa using hm)

theorem TerminalSet.add_others_nodup (b : TerminalSet) :
    ∀ (a : TerminalSet), a.content.Nodup → ((a.add_others b).content).Nodup := by
  unfold TerminalSet.add_others
  generalize b.content = L
  induction L with
  | nil => intro a h; exact h
  | cons x xs ih =>
    intro a h
    rw [List.foldl_cons]
    exact ih _ (TerminalSet.add_nodup a x h)

/-- All rule references of a grammar: every `(variable id, rule index)` pair. -/
def grammarBases (g : Grammar) : List RuleRef :=
  g.vars.bind (fun v => (List.range v.rules.length).map (fun idx => ⟨v.id, idx⟩))

/-- Every terminal occurring in a FIRST set of some rule choice of the grammar. -/
def grammarFirstsTerminals (g : Grammar) : List TerminalRef :=
  g.vars.bind (fun v => v.rules.bind (fun r => r.body.choices.bind
    (fun c => c.firsts.content)))

/-- All duplicate-free lists over a universe of terminals. -/
def nodupLists (U : List TerminalRef) : List (List TerminalRef) :=
  U.dedup.sublists.bind List.permutations

/-- The candidate pool for the LR(0) closure: position-0 items for each grammar
rule, with any duplicate-free lookahead list over the universe. -/
def lr0Pool (g : Grammar) (U : List TerminalRef) : List Item :=
  (grammarBases g).bind (fun rr => (nodupLists U).map (fun l => ⟨rr, 0, ⟨l⟩⟩))

/-- The candidate pool for the LR(1) closure: position-0 items for each grammar
rule with a singleton lookahead from the universe. -/
def lr1Pool (g : Grammar) (U : List TerminalRef) : List Item :=
  (grammarBases g).bind (fun rr => U.map (fun t => ⟨rr, 0, ⟨[t]⟩⟩))

/-- The universe of terminals in play when closing a kernel: the grammar's FIRST
terminals together with the kernel items' lookaheads. -/
def kernelU (g : Grammar) (k : StateKernel) : List TerminalRef :=
  grammarFirstsTerminals g ++ k.items.bind (fun y => y.lookaheads.content)

theorem mem_nodupLists (U : List TerminalRef) (l : List TerminalRef)
    (hn : l.Nodup) (hs : ∀ t ∈ l, t ∈ U) : l ∈ nodupLists U := by
  have hsub : l ⊆ U.dedup := fun t ht => List.mem_dedup.mpr (hs t ht)
  obtain ⟨l2, hperm, hsl⟩ := hn.subperm hsub
  unfold nodupLists
  rw [List.mem_bind]
  exact ⟨l2, List.mem_sublists.mpr hsl, List.mem_permutations.mpr hperm.symm⟩

theorem mem_grammarBases (g : Grammar) (sid : Nat) (v : GrammarVariable)
    (hv : g.get_variable sid = some v) (idx : Nat) (hidx : idx < v.rules.length) :
    (⟨sid, idx⟩ : RuleRef) ∈ grammarBases g := by
  unfold Grammar.get_variable at hv
  have hmem := List.mem_of_find?_eq_some hv
  have hid : v.id = sid := by simpa using List.find?_some hv
  unfold grammarBases
  rw [List.mem_bind]
  refine ⟨v, hmem, ?_⟩
  rw [List.mem_map]
  exact ⟨idx, List.mem_range.mpr hidx, by rw [hid]⟩

theorem next_choice_firsts_sub (it : Item) (g : Grammar) (choice : RuleChoice)
    (hch : it.get_next_choice g = some choice) :
    ∀ t ∈ choice.firsts.content, t ∈ grammarFirstsTerminals g := by
  intro t ht
  unfold Item.get_next_choice RuleRef.get_rule_in at hch
  cases hf : g.vars.find? (fun v => decide (v.id = it.rule.variable_id)) with
  | none => rw [hf] at hch; simp at hch
  | some v =>
    rw [hf, Option.some_bind] at hch
    cases hr : v.rules[it.rule.index]? with
    | none => rw [hr] at hch; simp at hch
    | some r =>
      rw [hr, Option.some_bind] at hch
      cases hc0 : r.body.choices[0]? with
      | none => rw [hc0] at hch; simp at hch
      | some c0 =>
        rw [hc0, Option.some_bind] at hch
        have hchm : choice ∈ r.body.choices := by
          by_cases hlt : it.position < c0.parts.length
          · rw [if_pos hlt] at hch
            exact mem_of_getElem_opt hch
          · rw [if_neg hlt] at hch
            simp at hch
        unfold grammarFirstsTerminals
        rw [List.mem_bind]
        refine ⟨v, List.mem_of_find?_eq_some hf, ?_⟩
        rw [List.mem_bind]
        refine ⟨r, mem_of_getElem_opt hr, ?_⟩
        rw [List.mem_bind]
        exact ⟨choice, hchm, ht⟩

theorem closeFirsts_sub (it : Item) (choice : RuleChoice) :
    ∀ t ∈ (it.closeFirsts choice).content,
      t ∈ choice.firsts.content ∨ t ∈ it.lookaheads.content := by
  intro t ht
  rw [closeFirsts_eq] at ht
  by_cases he : TerminalRef.Epsilon ∈ choice.firsts.content
  · rw [if_pos he] at ht
    rcases (TerminalSet.mem_add_others _ _ _).1 ht with h | h
    · exact Or.inl (List.mem_of_mem_erase h)
    · exact Or.inr h
  · rw [if_neg he] at ht
    exact Or.inl ht

theorem closeFirsts_nodup (it : Item) (choice : RuleChoice)
    (h : choice.firsts.content.Nodup) : (it.closeFirsts choice).content.Nodup := by
  rw [closeFirsts_eq]
  by_cases he : TerminalRef.Epsilon ∈ choice.firsts.content
  · rw [if_pos he]
    exact TerminalSet.add_others_nodup it.lookaheads _ (h.erase _)
  · rw [if_neg he]
    exact h

/-- Whether the working closure already holds a position-0 item for a rule. -/
def hasBase (cl : List Item) (r : RuleRef) : Bool :=
  cl.any (fun y => decide (y.rule = r) && decide (y.position = 0))

/-- The number of grammar rules with no position-0 item in the closure yet. -/
def baseMissing (pool : List RuleRef) (cl : List Item) : Nat :=
  pool.countP (fun r => ! hasBase cl r)

/-- The termination measure for the LALR(1) closure: length plus missing bases. -/
def lalrMeasure (pool : List RuleRef) (cl : List Item) : Nat :=
  cl.length + baseMissing pool cl

theorem hasBase_closeLALR1Add (cl : List Item) (c : Item) (r : RuleRef)
    (h : hasBase cl r = true) : hasBase (closeLALR1Add cl c) r = true := by
  unfold hasBase at h ⊢
  simp only [List.any_eq_true, Bool.and_eq_true, decide_eq_true_eq] at h ⊢
  obtain ⟨y, hy, h1, h2⟩ := h
  obtain ⟨z, hz, he⟩ := closeLALR1Add_preserves c cl y hy
  exact ⟨z, hz, he.1.trans h1, he.2.1.trans h2⟩

theorem lalrMeasure_closeLALR1Add (pool : List RuleRef) (cl : List Item) (c : Item)
    (hc : c.rule ∈ pool) (hp : c.position = 0) :
    lalrMeasure pool (closeLALR1Add cl c) ≤ lalrMeasure pool cl := by
  by_cases hex : ∃ x ∈ cl, x.same_base c
  · have hlen := closeLALR1Add_merge_length cl c hex
    have hmis : baseMissing pool (closeLALR1Add cl c) ≤ baseMissing pool cl := by
      unfold baseMissing
      refine countP_le_of_imp _ _ pool ?_
      intro r _ hr
      simp only [Bool.not_eq_eq_eq_not, Bool.not_true, Bool.not_eq_true'] at hr ⊢
      cases hb : hasBase cl r with
      | false => rfl
      | true => rw [hasBase_closeLALR1Add cl c r hb] at hr; exact hr
    unfold lalrMeasure
    omega
  · have hall : ∀ x ∈ cl, ¬ x.same_base c := by
      intro x hx hsb
      exact hex ⟨x, hx, hsb⟩
    rw [closeLALR1Add_append cl c hall]
    have hlt : baseMissing pool (cl ++ [c]) < baseMissing pool cl := by
      unfold baseMissing
      refine countP_lt_of_witness _ _ pool c.rule hc ?_ ?_ ?_
      · simp only [Bool.not_eq_false']
        unfold hasBase
        simp only [List.any_eq_true, Bool.and_eq_true, decide_eq_true_eq]
        exact ⟨c, List.mem_append_right _ (List.mem_singleton.mpr rfl), rfl, hp⟩
      · simp only [Bool.not_eq_true']
        unfold hasBase
        simp only [List.any_eq_false, Bool.and_eq_true, decide_eq_true_eq, not_and]
        intro y hy h1 h2
        exact hall y hy ⟨h1, by rw [h2, hp]⟩
      · intro r _ hr
        simp only [Bool.not_eq_eq_eq_not, Bool.not_true, Bool.not_eq_true'] at hr ⊢
        cases hb : hasBase cl r with
        | false => rfl
        | true =>
          exfalso
          unfold hasBase at hb hr
          simp only [List.any_eq_true, Bool.and_eq_true, decide_eq_true_eq] at hb
          simp only [List.any_eq_false, Bool.and_eq_true, decide_eq_true_eq, not_and] at hr
          obtain ⟨y, hy, h1, h2⟩ := hb
          exact hr y (List.mem_append_left _ hy) h1 h2
    unfold lalrMeasure
    simp only [List.length_append, List.length_singleton]
    omega

theorem foldl_preserve_mem (step : List α → β → List α) (P : List α → Prop) :
    ∀ (L : List β), (∀ cl b, b ∈ L → P cl → P (step cl b)) →
      ∀ l, P l → P (L.foldl step l) := by
  intro L
  induction L with
  | nil => intro _ l hl; exact hl
  | cons b L2 ih =>
    intro h l hl
    rw [List.foldl_cons]
    exact ih (fun cl b2 hb2 => h cl b2 (List.mem_cons_of_mem _ hb2)) _
      (h l b (List.mem_cons_self _ _) hl)

theorem getD_mem_of_lt {l : List Item} {i : Nat} (h : i < l.length) :
    l.getD i default ∈ l := by
  rw [List.getD_eq_getElem?_getD, List.getElem?_eq_getElem h]
  exact List.getElem_mem h

/-- Every lookahead of every item of the list lies in the universe `U`. -/
def lookInU (U : List TerminalRef) (items : List Item) : Prop :=
  ∀ y ∈ items, ∀ t ∈ y.lookaheads.content, t ∈ U

theorem lookInU_pushIfNew (U : List TerminalRef) (cl : List Item) (c : Item)
    (hc : ∀ t ∈ c.lookaheads.content, t ∈ U) (hcl : lookInU U cl) :
    lookInU U (pushIfNew cl c) := by
  intro y hy
  rcases (mem_pushIfNew cl c y).1 hy with h | h
  · exact hcl y h
  · exact h ▸ hc

theorem next_choice_in_grammar (it : Item) (g : Grammar) (choice : RuleChoice)
    (hch : it.get_next_choice g = some choice) :
    ∃ v ∈ g.vars, ∃ r ∈ v.rules, choice ∈ r.body.choices := by
  unfold Item.get_next_choice RuleRef.get_rule_in at hch
  cases hf : g.vars.find? (fun v => decide (v.id = it.rule.variable_id)) with
  | none => rw [hf] at hch; simp at hch
  | some v =>
    rw [hf, Option.some_bind] at hch
    cases hr : v.rules[it.rule.index]? with
    | none => rw [hr] at hch; simp at hch
    | some r =>
      rw [hr, Option.some_bind] at hch
      cases hc0 : r.body.choices[0]? with
      | none => rw [hc0] at hch; simp at hch
      | some c0 =>
        rw [hc0, Option.some_bind] at hch
        refine ⟨v, List.mem_of_find?_eq_some hf, r, mem_of_getElem_opt hr, ?_⟩
        by_cases hlt : it.position < c0.parts.length
        · rw [if_pos hlt] at hch
          exact mem_of_getElem_opt hch
        · rw [if_neg hlt] at hch
          simp at hch

theorem mem_lr1Pool (g : Grammar) (U : List TerminalRef) (sid idx : Nat)
    (v : GrammarVariable) (t : TerminalRef)
    (hv : g.get_variable sid = some v) (hidx : idx < v.rules.length) (ht : t ∈ U) :
    (⟨⟨sid, idx⟩, 0, ⟨[t]⟩⟩ : Item) ∈ lr1Pool g U := by
  unfold lr1Pool
  rw [List.mem_bind]
  exact ⟨⟨sid, idx⟩, mem_grammarBases g sid v hv idx hidx,
    List.mem_map.mpr ⟨t, ht, rfl⟩⟩

theorem mem_lr0Pool (g : Grammar) (U : List TerminalRef) (sid idx : Nat)
    (v : GrammarVariable) (F : TerminalSet)
    (hv : g.get_variable sid = some v) (hidx : idx < v.rules.length)
    (hn : F.content.Nodup) (hs : ∀ t ∈ F.content, t ∈ U) :
    (⟨⟨sid, idx⟩, 0, F⟩ : Item) ∈ lr0Pool g U := by
  unfold lr0Pool
  rw [List.mem_bind]
  exact ⟨⟨sid, idx⟩, mem_grammarBases g sid v hv idx hidx,
    List.mem_map.mpr ⟨F.content, mem_nodupLists U F.content hn hs, rfl⟩⟩

theorem closureLoop_reaches_end (g : Grammar) (mode : LookaheadMode)
    (P : List Item → Prop) (B : Nat)
    (hstep : ∀ items i, i < items.length → P items →
      P ((items.getD i default).close_to g items mode))
    (hbound : ∀ items, P items → items.length ≤ B) :
    ∀ (fuel i : Nat) (items : List Item), P items → B ≤ fuel + i →
      (closureLoop g mode fuel i items).2 = true := by
  intro fuel
  induction fuel with
  | zero =>
    intro i items hP hB
    show decide (items.length ≤ i) = true
    exact decide_eq_true (by have := hbound items hP; omega)
  | succ fuel ih =>
    intro i items hP hB
    unfold closureLoop
    split
    next h => exact ih (i + 1) _ (hstep items i h hP) (by omega)
    next h => rfl

theorem close_to_cases (it : Item) (g : Grammar) (cl : List Item)
    (mode : LookaheadMode) :
    it.close_to g cl mode = cl ∨
      ∃ sid choice v,
        it.get_next_symbol g = some (SymbolRef.Variable sid) ∧
        it.get_next_choice g = some choice ∧
        g.get_variable sid = some v := by
  unfold Item.close_to
  split
  next sid heq =>
    split
    next choice v heq2 heq3 => exact Or.inr ⟨sid, choice, v, heq, heq2, heq3⟩
    next => exact Or.inl rfl
  next heq => exact Or.inl rfl

theorem close_to_lalr_measure (g : Grammar) (it : Item) (cl : List Item) :
    lalrMeasure (grammarBases g) (it.close_to g cl LookaheadMode.LALR1)
      ≤ lalrMeasure (grammarBases g) cl := by
  rcases close_to_cases it g cl LookaheadMode.LALR1 with
    h | ⟨sid, choice, v, hns, hch, hv⟩
  · rw [h]
  · rw [close_to_eq_of it g cl LookaheadMode.LALR1 sid v choice hns hch hv]
    exact foldl_preserve_mem
      (fun cl2 index =>
        closeLALR1Add cl2 ⟨⟨sid, index⟩, 0, it.closeFirsts choice⟩)
      (fun cl2 => lalrMeasure (grammarBases g) cl2
        ≤ lalrMeasure (grammarBases g) cl)
      (List.range v.rules.length)
      (fun cl2 idx hidx hle =>
        Nat.le_trans
          (lalrMeasure_closeLALR1Add (grammarBases g) cl2
            ⟨⟨sid, idx⟩, 0, it.closeFirsts choice⟩
            (mem_grammarBases g sid v hv idx (List.mem_range.mp hidx)) rfl)
          hle)
      cl (Nat.le_refl _)

theorem close_to_lr1_step (g : Grammar) (U : List TerminalRef) (it : Item)
    (cl : List Item)
    (hU : ∀ t ∈ grammarFirstsTerminals g, t ∈ U)
    (hit : ∀ t ∈ it.lookaheads.content, t ∈ U)
    (hcl : lookInU U cl) :
    lookInU U (it.close_to g cl LookaheadMode.LR1) ∧
      poolMeasure (lr1Pool g U) (it.close_to g cl LookaheadMode.LR1)
        ≤ poolMeasure (lr1Pool g U) cl := by
  rcases close_to_cases it g cl LookaheadMode.LR1 with
    h | ⟨sid, choice, v, hns, hch, hv⟩
  · rw [h]; exact ⟨hcl, Nat.le_refl _⟩
  · rw [close_to_eq_of it g cl LookaheadMode.LR1 sid v choice hns hch hv]
    have hFU : ∀ t ∈ (it.closeFirsts choice).content, t ∈ U := by
      intro t ht
      rcases closeFirsts_sub it choice t ht with h1 | h1
      · exact hU t (next_choice_firsts_sub it g choice hch t h1)
      · exact hit t h1
    refine foldl_preserve_mem _
      (fun cl2 => lookInU U cl2 ∧
        poolMeasure (lr1Pool g U) cl2 ≤ poolMeasure (lr1Pool g U) cl)
      (List.range v.rules.length) ?_ cl ⟨hcl, Nat.le_refl _⟩
    intro cl2 idx hidx hP
    refine foldl_preserve_mem _
      (fun cl3 => lookInU U cl3 ∧
        poolMeasure (lr1Pool g U) cl3 ≤ poolMeasure (lr1Pool g U) cl)
      (it.closeFirsts choice).content ?_ cl2 hP
    intro cl3 t ht hP3
    refine ⟨lookInU_pushIfNew U cl3 _ ?_ hP3.1,
      Nat.le_trans (poolMeasure_pushIfNew (lr1Pool g U) cl3 _
        (mem_lr1Pool g U sid idx v t hv (List.mem_range.mp hidx) (hFU t ht)))
        hP3.2⟩
    intro t2 ht2
    rw [List.mem_singleton] at ht2
    exact ht2 ▸ hFU t ht

theorem close_to_lr0_step (g : Grammar) (U : List TerminalRef) (it : Item)
    (cl : List Item)
    (wfG : ∀ v ∈ g.vars, ∀ r ∈ v.rules, ∀ c ∈ r.body.choices,
      c.firsts.content.Nodup)
    (hU : ∀ t ∈ grammarFirstsTerminals g, t ∈ U)
    (hit : ∀ t ∈ it.lookaheads.content, t ∈ U)
    (hcl : lookInU U cl) :
    lookInU U (it.close_to g cl LookaheadMode.LR0) ∧
      poolMeasure (lr0Pool g U) (it.close_to g cl LookaheadMode.LR0)
        ≤ poolMeasure (lr0Pool g U) cl := by
  rcases close_to_cases it g cl LookaheadMode.LR0 with
    h | ⟨sid, choice, v, hns, hch, hv⟩
  · rw [h]; exact ⟨hcl, Nat.le_refl _⟩
  · rw [close_to_eq_of it g cl LookaheadMode.LR0 sid v choice hns hch hv]
    have hFU : ∀ t ∈ (it.closeFirsts choice).content, t ∈ U := by
      intro t ht
      rcases closeFirsts_sub it choice t ht with h1 | h1
      · exact hU t (next_choice_firsts_sub it g choice hch t h1)
      · exact hit t h1
    have hFn : (it.closeFirsts choice).content.Nodup := by
      obtain ⟨v2, hv2, r, hr, hcm⟩ := next_choice_in_grammar it g choice hch
      exact closeFirsts_nodup it choice (wfG v2 hv2 r hr choice hcm)
    refine foldl_preserve_mem _
      (fun cl2 => lookInU U cl2 ∧
        poolMeasure (lr0Pool g U) cl2 ≤ poolMeasure (lr0Pool g U) cl)
      (List.range v.rules.length) ?_ cl ⟨hcl, Nat.le_refl _⟩
    intro cl2 idx hidx hP
    exact ⟨lookInU_pushIfNew U cl2 _ hFU hP.1,
      Nat.le_trans (poolMeasure_pushIfNew (lr0Pool g U) cl2 _
        (mem_lr0Pool g U sid idx v (it.closeFirsts choice) hv
          (List.mem_range.mp hidx) hFn hFU)) hP.2⟩

/-- C9: for every grammar whose precomputed FIRST sets are duplicate-free and
every lookahead mode, the saturation loop of `StateKernel::into_state` reaches
the end of the item vector after finitely many steps: some finite fuel makes
the loop's done flag true.  The bound is the pool measure: current length plus
the number of still-missing candidates (LR0: position-0 items with
duplicate-free lookahead lists over the grammar and kernel terminals; LR1:
singleton-lookahead position-0 items; LALR1: rules with no position-0 item
yet, since merging never grows the list). -/
theorem C9_into_state_terminates (k : StateKernel) (g : Grammar)
    (mode : LookaheadMode)
    (wfG : ∀ v ∈ g.vars, ∀ r ∈ v.rules, ∀ c ∈ r.body.choices,
      c.firsts.content.Nodup) :
    ∃ fuel, (closureLoop g mode fuel 0 k.items).2 = true := by
  have hU : ∀ t ∈ grammarFirstsTerminals g, t ∈ kernelU g k :=
    fun t ht => List.mem_append_left _ ht
  have hinit : lookInU (kernelU g k) k.items := by
    intro y hy t ht
    refine List.mem_append_right _ ?_
    rw [List.mem_bind]
    exact ⟨y, hy, ht⟩
  cases mode with
  | LR0 =>
    refine ⟨poolMeasure (lr0Pool g (kernelU g k)) k.items, ?_⟩
    refine closureLoop_reaches_end g LookaheadMode.LR0
      (fun items => lookInU (kernelU g k) items ∧
        poolMeasure (lr0Pool g (kernelU g k)) items
          ≤ poolMeasure (lr0Pool g (kernelU g k)) k.items)
      (poolMeasure (lr0Pool g (kernelU g k)) k.items)
      ?_ ?_ _ 0 _ ⟨hinit, Nat.le_refl _⟩ (by omega)
    · intro items i hi hP
      obtain ⟨h1, h2⟩ := close_to_lr0_step g (kernelU g k) (items.getD i default)
        items wfG hU (hP.1 _ (getD_mem_of_lt hi)) hP.1
      exact ⟨h1, Nat.le_trans h2 hP.2⟩
    · intro items hP
      exact Nat.le_trans (length_le_poolMeasure _ _) hP.2
  | LR1 =>
    refine ⟨poolMeasure (lr1Pool g (kernelU g k)) k.items, ?_⟩
    refine closureLoop_reaches_end g LookaheadMode.LR1
      (fun items => lookInU (kernelU g k) items ∧
        poolMeasure (lr1Pool g (kernelU g k)) items
          ≤ poolMeasure (lr1Pool g (kernelU g k)) k.items)
      (poolMeasure (lr1Pool g (kernelU g k)) k.items)
      ?_ ?_ _ 0 _ ⟨hinit, Nat.le_refl _⟩ (by omega)
    · intro items i hi hP
      obtain ⟨h1, h2⟩ := close_to_lr1_step g (kernelU g k) (items.getD i default)
        items hU (hP.1 _ (getD_mem_of_lt hi)) hP.1
      exact ⟨h1, Nat.le_trans h2 hP.2⟩
    · intro items hP
      exact Nat.le_trans (length_le_poolMeasure _ _) hP.2
  | LALR1 =>
    refine ⟨lalrMeasure (grammarBases g) k.items, ?_⟩
    refine closureLoop_reaches_end g LookaheadMode.LALR1
      (fun items => lalrMeasure (grammarBases g) items
        ≤ lalrMeasure (grammarBases g) k.items)
      (lalrMeasure (grammarBases g) k.items) ?_ ?_ _ 0 _ (Nat.le_refl _)
      (by omega)
    · intro items i hi hP
      exact Nat.le_trans (close_to_lalr_measure g _ items) hP
    · intro items hP
      exact Nat.le_trans (Nat.le_add_right _ _) hP

theorem C9_witness :
    (∀ v ∈ demoG1.vars, ∀ r ∈ v.rules, ∀ c ∈ r.body.choices,
      c.firsts.content.Nodup) ∧
    ∃ fuel,
      (closureLoop demoG1 LookaheadMode.LR0 fuel 0 [⟨⟨0, 0⟩, 0, ⟨[]⟩⟩]).2 = true :=
  ⟨by decide,
    C9_into_state_terminates ⟨[⟨⟨0, 0⟩, 0, ⟨[]⟩⟩]⟩ demoG1 LookaheadMode.LR0
      (by decide)⟩
